import Mathlib

/-! # Memory Map Objects library (`mmo_lib.h`): a shallow embedding

The library lays out objects in one contiguous byte buffer and links them by
self-relative displacements.  The embedding below follows `src/src/mmo_lib.h`:

* addresses and `size_t` values are natural numbers below `W = 2 ^ 64`; every
  pointer or `size_t` computation of the source is reduced modulo `W` (the flat
  64-bit address space the library is compiled for);
* the template parameters `SizeType` / `OffsetType` are a value of `IntTy`
  (the fixed-width integer types); a value of such a type is the mathematical
  integer it denotes and every conversion of the source is an explicit `wrap`;
* memory is a function from addresses to bytes; the classes are read and written
  field by field at their packed (`#pragma pack(push,1)`) little-endian layout;
* a `throw` of the source is the `Except.error` of the outcome, returned together
  with the memory and the segment as they are at the throw.
-/

namespace mmo

/-! ## Machine integers -/

/-- The number of values of `size_t` (`AddrType`): addresses are taken modulo `W`. -/
def W : Nat := 18446744073709551616

/-- The integer types a `SizeType` / `OffsetType` template parameter can be. -/
inductive IntTy where
  | i8 | u8 | i16 | u16 | i32 | u32 | i64 | u64
  deriving DecidableEq, Repr

namespace IntTy

/-- `sizeof(T)`. -/
def bytes : IntTy → Nat
  | i8 => 1 | u8 => 1 | i16 => 2 | u16 => 2 | i32 => 4 | u32 => 4 | i64 => 8 | u64 => 8

/-- The number of values of the type, `2 ^ (8 * sizeof(T))`. -/
def modulus : IntTy → Int
  | i8 => 256 | u8 => 256 | i16 => 65536 | u16 => 65536
  | i32 => 4294967296 | u32 => 4294967296
  | i64 => 18446744073709551616 | u64 => 18446744073709551616

/-- The smallest value of the type. -/
def lo : IntTy → Int
  | i8 => -128 | u8 => 0 | i16 => -32768 | u16 => 0
  | i32 => -2147483648 | u32 => 0 | i64 => -9223372036854775808 | u64 => 0

/-- The largest value of the type. -/
def hi : IntTy → Int
  | i8 => 127 | u8 => 255 | i16 => 32767 | u16 => 65535
  | i32 => 2147483647 | u32 => 4294967295
  | i64 => 9223372036854775807 | u64 => 18446744073709551615

/-- Conversion of an integer to the type `T` (two's complement, modulo `2 ^ bits`). -/
def wrap (T : IntTy) (x : Int) : Int := (x - T.lo) % T.modulus + T.lo

/-- The value `x` is representable in `T`. -/
def rep (T : IntTy) (x : Int) : Prop := T.lo ≤ x ∧ x ≤ T.hi

instance (T : IntTy) (x : Int) : Decidable (T.rep x) := by
  unfold rep; exact inferInstance

/-- The type an operand of type `T` has after the integral promotions
(`int` for the types narrower than `int`). -/
def promote : IntTy → IntTy
  | i8 => i32 | u8 => i32 | i16 => i32 | u16 => i32
  | i32 => i32 | u32 => u32 | i64 => i64 | u64 => u64

end IntTy

/-- Conversion of an integer value to `size_t` (sign extension, modulo `W`). -/
def toSize (v : Int) : Nat := (v % (W : Int)).toNat

/-- The `size_t` value `-AddrType(c)`: all bits set when `c` holds, zero otherwise. -/
def negBool (c : Bool) : Nat := if c then W - 1 else 0

/-! ## `mmo_exception` -/

/-- The codes of `mmo_exception` and its message. -/
structure mmo_exception where
  code : Int
  msg : String
  deriving DecidableEq, Repr

/-- The code `mmo_exception::no_enough_memory`. -/
def no_enough_memory : Int := 1001

/-- The code `mmo_exception::invalid_memory_address`. -/
def invalid_memory_address : Int := 1002

/-- The message built by `construct`, `vector::resize`, `string::assign` and
`var_vector::begin_append_element` before they throw. -/
def strErrMsg (free_size used_size new_size : Nat) : String :=
  "mmo_exception:: no enough memory,free:" ++ toString free_size ++ ",used:"
    ++ toString used_size ++ ",alloc size:" ++ toString new_size

/-! ## `segment_manager` -/

/-- The fields of `segment_manager`; the three pointers are addresses. -/
structure segment_manager where
  m_buffer : Nat
  m_capacity : Nat
  m_current : Nat
  m_end : Nat
  deriving DecidableEq, Repr

namespace segment_manager

/-- The default constructor `segment_manager()`: the member initialisers leave the three
pointers null and the capacity zero. -/
def ctor : segment_manager :=
  { m_buffer := 0, m_capacity := 0, m_current := 0, m_end := 0 }

/-- `segment_manager::reset(buffer, capacity)`. -/
def reset (buffer capacity : Nat) : segment_manager :=
  { m_buffer := buffer, m_capacity := capacity, m_current := buffer,
    m_end := (buffer + capacity) % W }

/-- `segment_manager::alloc(size)`: the returned pointer (`0` is `NULL`) and the
segment after the call. -/
def alloc (s : segment_manager) (size : Nat) : Nat × segment_manager :=
  if (s.m_current + size) % W > s.m_end then (0, s)
  else (s.m_current, { s with m_current := (s.m_current + size) % W })

/-- `segment_manager::calc_offset(obj_addr)`, the `size_t` value `m_current - obj_addr`. -/
def calc_offset (s : segment_manager) (obj_addr : Nat) : Nat :=
  toSize ((s.m_current : Int) - obj_addr)

/-- `segment_manager::enough(size)`. -/
def enough (s : segment_manager) (size : Nat) : Bool :=
  decide ((s.m_current + size) % W ≤ s.m_end)

/-- `segment_manager::current()`. -/
def current (s : segment_manager) : Nat := s.m_current

/-- `segment_manager::capacity()`. -/
def capacity (s : segment_manager) : Nat := s.m_capacity

/-- `segment_manager::advance(size)`: the returned flag and the segment after the call. -/
def advance (s : segment_manager) (size : Nat) : Bool × segment_manager :=
  if !s.enough size then (false, s)
  else (true, { s with m_current := (s.m_current + size) % W })

/-- `segment_manager::get_free_memory()`, the `size_t` value `m_end - m_current`. -/
def get_free_memory (s : segment_manager) : Nat :=
  toSize ((s.m_end : Int) - s.m_current)

/-- `segment_manager::size()`, the `size_t` value `m_current - m_buffer`. -/
def size (s : segment_manager) : Nat :=
  toSize ((s.m_current : Int) - s.m_buffer)

/-- `segment_manager::data()`. -/
def data (s : segment_manager) : Nat := s.m_buffer

/-- A segment over a real buffer: the buffer is not null, it ends inside the
address space, and the cursor lies between the buffer start and its end. -/
def valid (s : segment_manager) : Prop :=
  0 < s.m_buffer ∧ s.m_buffer ≤ s.m_current ∧ s.m_current ≤ s.m_end ∧
    s.m_end = s.m_buffer + s.m_capacity ∧ s.m_end < W

instance (s : segment_manager) : Decidable s.valid := by
  unfold valid; exact inferInstance

end segment_manager

/-! ## `offset_ptr` -/

namespace offset_ptr

/-- `offset_ptr::offset_to_raw(base, offset)`:
`AddrType(base + offset) & -AddrType(offset != 1)`. -/
def offset_to_raw (base : Nat) (offset : Int) : Nat :=
  toSize ((base : Int) + offset) &&& negBool (decide (offset ≠ 1))

/-- `offset_ptr::raw_to_offset(base, raw)`:
`OffsetType((AddrType(raw - base - 1) & -AddrType(raw != 0)) + 1)`. -/
def raw_to_offset (T : IntTy) (base raw : Nat) : Int :=
  T.wrap (toSize (((toSize ((raw : Int) - base - 1) &&& negBool (decide (raw ≠ 0)) : Nat) : Int) + 1))

/-- The default constructor `offset_ptr()` of a pointer stored at `this`: the stored `m_offset`. -/
def mk_default (T : IntTy) (this : Nat) : Int := raw_to_offset T this 0

/-- The constructor `offset_ptr(const ValueType* ptr)` and `operator=(ValueType* from)`
of a pointer stored at `this`: the stored `m_offset`. -/
def of_raw (T : IntTy) (this ptr : Nat) : Int := raw_to_offset T this ptr

/-- `offset_ptr::get()` of a pointer stored at `this` holding `m_offset`. -/
def get (this : Nat) (m_offset : Int) : Nat := offset_to_raw this m_offset

/-- The copy constructor and `operator=(const SelfType& other)` of a pointer stored
at `this`, from the pointer stored at `other` holding `other_offset`. -/
def of_ptr (T : IntTy) (this other : Nat) (other_offset : Int) : Int :=
  raw_to_offset T this (get other other_offset)

/-- `operator==(const SelfType& other)`. -/
def eq_ptr (this : Nat) (m_offset : Int) (other : Nat) (other_offset : Int) : Bool :=
  decide (get this m_offset = get other other_offset)

/-- `operator==(const ValueType* other)`. -/
def eq_raw (this : Nat) (m_offset : Int) (other : Nat) : Bool :=
  decide (get this m_offset = other)

end offset_ptr

/-! ## Memory -/

/-- Byte-addressed memory: the byte stored at each address. -/
abbrev Mem := Nat → Nat

namespace Mem

/-- Store the bytes `bs` at the addresses `a, a + 1, ...` (`memcpy` into memory). -/
def write (m : Mem) (a : Nat) (bs : List Nat) : Mem :=
  fun x => if a ≤ x ∧ x < a + bs.length then bs.getD (x - a) 0 % 256 else m x

/-- The `n` bytes stored at the addresses `a, a + 1, ...`. -/
def read (m : Mem) (a n : Nat) : List Nat :=
  (List.range n).map (fun k => m (a + k))

end Mem

namespace IntTy

/-- The little-endian object representation of the value `v` converted to `T`. -/
def encode (T : IntTy) (v : Int) : List Nat :=
  (List.range T.bytes).map (fun k => (v % T.modulus).toNat / 256 ^ k % 256)

/-- The unsigned number a little-endian byte sequence denotes. -/
def leNat : List Nat → Nat
  | [] => 0
  | b :: bs => b % 256 + 256 * leNat bs

/-- The value of type `T` whose object representation is `bs`. -/
def decode (T : IntTy) (bs : List Nat) : Int := T.wrap (leNat bs)

end IntTy

namespace Mem

/-- Read a field of type `T` stored at address `a`. -/
def load (m : Mem) (T : IntTy) (a : Nat) : Int := T.decode (m.read a T.bytes)

/-- Assign `v` (converted to `T`) to the field of type `T` stored at address `a`. -/
def store (m : Mem) (T : IntTy) (a : Nat) (v : Int) : Mem := m.write a (T.encode v)

end Mem

/-- A managed `ValueType`: its `sizeof` and the object representation that
value-initialisation `ValueType()` leaves (byte `k` is `init k`).  A value of the
type is its object representation, a list of `sizeof` bytes, and assignment of a
value copies these bytes. -/
structure ValTy where
  sizeof : Nat
  init : Nat → Nat

/-- The bytes written by `::new(p) ValueType()`. -/
def ValTy.initBytes (V : ValTy) : List Nat := (List.range V.sizeof).map V.init

/-- The list `v` is the object representation of a value of type `V`. -/
def ValTy.isVal (V : ValTy) (v : List Nat) : Prop := v.length = V.sizeof ∧ ∀ b ∈ v, b < 256

instance (V : ValTy) (v : List Nat) : Decidable (V.isVal v) := by
  unfold ValTy.isVal; exact inferInstance

/-- The outcome of a call that can throw: the memory and the segment after the
call (or at the throw) and the returned value or the exception. -/
structure Res (α : Type) where
  mem : Mem
  seg : segment_manager
  out : Except mmo_exception α

/-- The exception thrown by the out-of-space paths that format a message from
`get_free_memory()`, `size()` and the requested size. -/
def out_of_space (seg : segment_manager) (new_size : Nat) : mmo_exception :=
  { code := no_enough_memory
    msg := strErrMsg seg.get_free_memory seg.size new_size }

/-! ## `vector<ValueType, SizeType>`

The header is `m_size` at `this` and `m_offset` at `this + sizeof(SizeType)`. -/

namespace vector

/-- `sizeof(vector<ValueType, SizeType>)`. -/
def sizeof (T : IntTy) : Nat := T.bytes + T.bytes

/-- The field `m_size` of the vector at `this`. -/
def m_size (T : IntTy) (m : Mem) (this : Nat) : Int := m.load T this

/-- The field `m_offset` of the vector at `this`. -/
def m_offset (T : IntTy) (m : Mem) (this : Nat) : Int := m.load T (this + T.bytes)

/-- `vector::size()`. -/
def size (T : IntTy) (m : Mem) (this : Nat) : Int := m_size T m this

/-- `vector::_data_bytes()`: `m_size * sizeof(ValueType)` is computed in `size_t`
and returned as `SizeType`. -/
def _data_bytes (T : IntTy) (V : ValTy) (m : Mem) (this : Nat) : Int :=
  T.wrap ((toSize (m_size T m this) * V.sizeof % W : Nat) : Int)

/-- `vector::_total_bytes()`. -/
def _total_bytes (T : IntTy) (V : ValTy) (m : Mem) (this : Nat) : Int :=
  T.wrap (toSize ((sizeof T : Int) + _data_bytes T V m this))

/-- `vector::_get_data_addr()`: `(char*)this + m_offset`. -/
def _get_data_addr (T : IntTy) (m : Mem) (this : Nat) : Nat :=
  toSize ((this : Int) + m_offset T m this)

/-- `vector::data()`. -/
def data (T : IntTy) (m : Mem) (this : Nat) : Nat := _get_data_addr T m this

/-- `vector::at(index)` and `operator[](index)`: the address of `data()[index]`. -/
def at_ (T : IntTy) (V : ValTy) (m : Mem) (this : Nat) (index : Int) : Nat :=
  toSize ((data T m this : Int) + index * V.sizeof)

/-- `vector::operator[](index)`. -/
def index (T : IntTy) (V : ValTy) (m : Mem) (this : Nat) (i : Int) : Nat :=
  toSize ((data T m this : Int) + i * V.sizeof)

/-- The value-initialisation loop of `resize`,
`for(SizeType i=0;i<m_size;i++) ::new((void*)(p+i))ValueType();`, from the counter
value `i` on.  The first argument bounds the number of iterations; the counter
takes fewer values than `SizeType` has. -/
def resize_loop (T : IntTy) (V : ValTy) (this p : Nat) : Nat → Int → Mem → Mem
  | 0, _, m => m
  | fuel + 1, i, m =>
    if i < m_size T m this then
      resize_loop T V this p fuel (T.wrap (i + 1))
        (m.write (toSize ((p : Int) + i * V.sizeof)) V.initBytes)
    else m

/-- `vector::resize(size, segment)`. -/
def resize (T : IntTy) (V : ValTy) (this : Nat) (size : Int) (seg : segment_manager)
    (m : Mem) : Res Bool :=
  let m1 := m.store T this size
  let m2 := m1.store T (this + T.bytes) (seg.calc_offset this)
  let r := seg.advance (toSize (_data_bytes T V m2 this))
  if r.1 = false then
    { mem := m2, seg := r.2,
      out := .error (out_of_space r.2 (toSize (_data_bytes T V m2 this))) }
  else
    { mem := resize_loop T V this (data T m2 this) T.modulus.toNat 0 m2, seg := r.2,
      out := .ok true }

/-- The copy loop of `assign`, `SizeType i=0; for(auto& it:src) data()[i++] = it;`:
the memory and the counter after the elements `src`. -/
def assign_loop (T : IntTy) (V : ValTy) (this : Nat) : List (List Nat) → Int → Mem → Mem × Int
  | [], i, m => (m, i)
  | it :: rest, i, m =>
    assign_loop T V this rest (T.wrap (i + 1)) (m.write (at_ T V m this i) it)

/-- `vector::assign(src, segment)`, for `src` a `std::vector` or a `std::list`
(the two overloads have the same body). -/
def assign (T : IntTy) (V : ValTy) (this : Nat) (src : List (List Nat))
    (seg : segment_manager) (m : Mem) : Res Bool :=
  let r := resize T V this (T.wrap src.length) seg m
  match r.out with
  | .error e => { mem := r.mem, seg := r.seg, out := .error e }
  | .ok false => { mem := r.mem, seg := r.seg, out := .ok false }
  | .ok true =>
    { mem := (assign_loop T V this src 0 r.mem).1, seg := r.seg, out := .ok true }

/-- `vector::to_std(dst)`: the elements `at(0), ..., at(size() - 1)`. -/
def to_std (T : IntTy) (V : ValTy) (m : Mem) (this : Nat) : List (List Nat) :=
  (List.range (size T m this).toNat).map (fun i => m.read (at_ T V m this i) V.sizeof)

end vector

/-! ## `string<SizeType>`

The header is `m_size` at `this` and `m_offset` at `this + sizeof(SizeType)`. -/

namespace string

/-- `sizeof(string<SizeType>)`. -/
def sizeof (T : IntTy) : Nat := T.bytes + T.bytes

/-- The field `m_size` of the string at `this`. -/
def m_size (T : IntTy) (m : Mem) (this : Nat) : Int := m.load T this

/-- The field `m_offset` of the string at `this`. -/
def m_offset (T : IntTy) (m : Mem) (this : Nat) : Int := m.load T (this + T.bytes)

/-- `string::size()`. -/
def size (T : IntTy) (m : Mem) (this : Nat) : Int := m_size T m this

/-- `string::length()`. -/
def length (T : IntTy) (m : Mem) (this : Nat) : Int := m_size T m this

/-- `string::empty()`. -/
def empty (T : IntTy) (m : Mem) (this : Nat) : Bool := decide (m_size T m this = 0)

/-- The `size_t` value of `m_size + 1`: the sum is computed in the promoted type
of `SizeType`. -/
def size_plus_one (T : IntTy) (m : Mem) (this : Nat) : Nat :=
  toSize (T.promote.wrap (m_size T m this + 1))

/-- `string::_data_bytes()`: `(m_size != 0) ? ((m_size+1) * sizeof(char)) : 0`,
computed in `size_t` and returned as `SizeType`. -/
def _data_bytes (T : IntTy) (m : Mem) (this : Nat) : Int :=
  if m_size T m this ≠ 0 then T.wrap ((size_plus_one T m this * 1 % W : Nat) : Int) else T.wrap 0

/-- `string::_total_bytes()`. -/
def _total_bytes (T : IntTy) (m : Mem) (this : Nat) : Int :=
  T.wrap (toSize ((sizeof T : Int) + _data_bytes T m this))

/-- `string::_get_data_addr()`: `(char*)this + m_offset`. -/
def _get_data_addr (T : IntTy) (m : Mem) (this : Nat) : Nat :=
  toSize ((this : Int) + m_offset T m this)

/-- `string::data()`. -/
def data (T : IntTy) (m : Mem) (this : Nat) : Nat := _get_data_addr T m this

/-- `string::c_str()`. -/
def c_str (T : IntTy) (m : Mem) (this : Nat) : Nat := _get_data_addr T m this

/-- `string::operator[](index)`: the address of `data()[index]`. -/
def index (T : IntTy) (m : Mem) (this : Nat) (i : Int) : Nat :=
  toSize ((data T m this : Int) + i)

/-- `string::assign(src, segment)`; `src` is the bytes of the `std::string`. -/
def assign (T : IntTy) (this : Nat) (src : List Nat) (seg : segment_manager) (m : Mem) :
    Res Bool :=
  let m1 := m.store T this src.length
  if m_size T m1 this = 0 then { mem := m1, seg := seg, out := .ok true }
  else
    let m2 := m1.store T (this + T.bytes) (seg.calc_offset this)
    let r := seg.alloc (size_plus_one T m2 this)
    if r.1 = 0 then
      let m3 := m2.store T this 0
      { mem := m3, seg := r.2, out := .error (out_of_space r.2 (size_plus_one T m3 this)) }
    else
      let m3 := m2.write r.1 (src.take (toSize (m_size T m2 this)))
      let m4 := m3.write (toSize ((r.1 : Int) + m_size T m3 this)) [0]
      { mem := m4, seg := r.2, out := .ok true }

/-- `string::to_std(dst)`: `dst.assign(data(), size())`. -/
def to_std (T : IntTy) (m : Mem) (this : Nat) : List Nat :=
  m.read (data T m this) (toSize (size T m this))

end string

/-! ## `var_element<ValueType, SizeType>`

The header is the single field `m_bytes`; the embedded value follows it. -/

namespace var_element

/-- `sizeof(var_element<ValueType, SizeType>)`. -/
def sizeof (T : IntTy) : Nat := T.bytes

/-- The field `m_bytes` of the element at `this`. -/
def m_bytes (T : IntTy) (m : Mem) (this : Nat) : Int := m.load T this

/-- `var_element::_data_bytes()`. -/
def _data_bytes (T : IntTy) (m : Mem) (this : Nat) : Int := m_bytes T m this

/-- `var_element::_total_bytes()`: `sizeof(SelfType) + _data_bytes()` is computed in
`size_t` and returned as `SizeType`. -/
def _total_bytes (T : IntTy) (m : Mem) (this : Nat) : Int :=
  T.wrap (toSize ((sizeof T : Int) + _data_bytes T m this))

/-- `var_element::_set_data_size(bytes)`. -/
def _set_data_size (T : IntTy) (m : Mem) (this : Nat) (bytes : Int) : Mem :=
  m.store T this bytes

/-- `var_element::_get_data_addr()`: `(char*)this + sizeof(SelfType)`. -/
def _get_data_addr (T : IntTy) (this : Nat) : Nat := toSize ((this : Int) + sizeof T)

/-- `var_element::data()`. -/
def data (T : IntTy) (this : Nat) : Nat := _get_data_addr T this

/-- `var_element::object()`: the address of the embedded value. -/
def object (T : IntTy) (this : Nat) : Nat := data T this

end var_element

/-! ## `var_vector<ValueType, SizeType>`

The header is `m_size` at `this` and `m_offset` at `this + sizeof(SizeType)`. -/

namespace var_vector

/-- `sizeof(var_vector<ValueType, SizeType>)`. -/
def sizeof (T : IntTy) : Nat := T.bytes + T.bytes

/-- The field `m_size` of the vector at `this`. -/
def m_size (T : IntTy) (m : Mem) (this : Nat) : Int := m.load T this

/-- The field `m_offset` of the vector at `this`. -/
def m_offset (T : IntTy) (m : Mem) (this : Nat) : Int := m.load T (this + T.bytes)

/-- `var_vector::size()`. -/
def size (T : IntTy) (m : Mem) (this : Nat) : Int := m_size T m this

/-- `var_vector::empty()`. -/
def empty (T : IntTy) (m : Mem) (this : Nat) : Bool := decide (m_size T m this = 0)

/-- `var_vector::_get_data_addr()`: `(char*)this + m_offset`. -/
def _get_data_addr (T : IntTy) (m : Mem) (this : Nat) : Nat :=
  toSize ((this : Int) + m_offset T m this)

/-- One step of the walk of `_get_element`:
`element->_get_data_addr() + element->_data_bytes()`. -/
def next_element (T : IntTy) (m : Mem) (element : Nat) : Nat :=
  toSize ((var_element._get_data_addr T element : Int) + var_element._data_bytes T m element)

/-- `var_vector::_get_element(index)`: the loop body runs once for each `i` with
`0 <= i < index`. -/
def _get_element (T : IntTy) (m : Mem) (this : Nat) (index : Int) : Nat :=
  (next_element T m)^[index.toNat] (_get_data_addr T m this)

/-- `var_vector::prepare_append_elements(segment)`. -/
def prepare_append_elements (T : IntTy) (this : Nat) (seg : segment_manager) (m : Mem) : Mem :=
  let m1 := m.store T this 0
  m1.store T (this + T.bytes) ((seg.current : Int) - this)

/-- `var_vector::begin_append_element(segment)`: the result is the new element. -/
def begin_append_element (T : IntTy) (V : ValTy) (seg : segment_manager) (m : Mem) : Res Nat :=
  let new_element := seg.current
  let r := seg.advance ((var_element.sizeof T + V.sizeof) % W)
  if r.1 = false then
    { mem := m, seg := r.2,
      out := .error (out_of_space r.2 ((var_element.sizeof T + V.sizeof) % W)) }
  else
    let m1 := m.store T new_element 0
    let m2 := m1.write (var_element.data T new_element) V.initBytes
    { mem := m2, seg := r.2, out := .ok new_element }

/-- `var_vector::end_append_element(element, segment)`. -/
def end_append_element (T : IntTy) (this element : Nat) (seg : segment_manager) (m : Mem) :
    Res Bool :=
  let size := toSize ((seg.current : Int) - toSize ((element : Int) + var_element.sizeof T))
  let m1 := var_element._set_data_size T m element size
  let m2 := m1.store T this (m_size T m1 this + 1)
  { mem := m2, seg := seg, out := .ok true }

/-- The fields of `var_vector::_iterator`. -/
structure _iterator where
  element_ : Nat
  index_ : Int
  size_ : Int
  deriving DecidableEq, Repr

/-- `var_vector::end()`. -/
def «end» (T : IntTy) (m : Mem) (this : Nat) : _iterator :=
  { element_ := 0, index_ := m_size T m this, size_ := m_size T m this }

/-- `var_vector::begin()`. -/
def «begin» (T : IntTy) (m : Mem) (this : Nat) : _iterator :=
  if empty T m this then «end» T m this
  else { element_ := _get_data_addr T m this, index_ := 0, size_ := m_size T m this }

/-- `var_vector::_iterator::operator++()`. -/
def _iterator.next (T : IntTy) (m : Mem) (it : _iterator) : _iterator :=
  if it.element_ ≠ 0 then
    let index1 := T.wrap (it.index_ + 1)
    if index1 = it.size_ then { element_ := 0, index_ := index1, size_ := it.size_ }
    else
      { element_ := toSize ((it.element_ : Int) + var_element._total_bytes T m it.element_),
        index_ := index1, size_ := it.size_ }
  else it

/-- `var_vector::at(index)` and `operator[](index)`: the address of
`_get_element(index)->object()`. -/
def at_ (T : IntTy) (m : Mem) (this : Nat) (index : Int) : Nat :=
  var_element.object T (_get_element T m this index)

/-- `var_vector::front()`. -/
def front (T : IntTy) (m : Mem) (this : Nat) : Nat :=
  var_element.object T (_get_element T m this 0)

/-- `var_vector::back()`. -/
def back (T : IntTy) (m : Mem) (this : Nat) : Nat :=
  var_element.object T (_get_element T m this (T.wrap (m_size T m this - 1)))

end var_vector

/-! ## Auxiliary notions for the proofs -/

/-- The memory `m2` differs from `m` at most at the addresses in `[lo, hi)`. -/
def Mem.frame (lo hi : Nat) (m m2 : Mem) : Prop := ∀ x, x < lo ∨ hi ≤ x → m2 x = m x

/-! ## Concrete inputs -/

/-- The element type `Point2D` of the demonstration: two `int32_t` set to zero by
the default constructor. -/
def Point2D : ValTy := { sizeof := 8, init := fun _ => 0 }

/-- A buffer filled with zero bytes. -/
def mem0 : Mem := fun _ => 0

/-- The bytes of the string `road`. -/
def road : List Nat := [114, 111, 97, 100]

/-! ## Builds of a `var_vector` -/

/-- What the caller does between `begin_append_element` (which returned `element`
and left the segment `s` and the memory `m`) and `end_append_element`: nested
allocations that leave the segment `s1` and the memory `m1`.  They take bytes from
the same segment, so the cursor only moves forward inside the buffer, and they
write into the element's value and into the bytes they allocated. -/
def NestedAlloc (T : IntTy) (element : Nat) (s : segment_manager) (m : Mem)
    (s1 : segment_manager) (m1 : Mem) : Prop :=
  s1.m_buffer = s.m_buffer ∧ s1.m_capacity = s.m_capacity ∧ s1.m_end = s.m_end ∧
    s.m_current ≤ s1.m_current ∧ s1.m_current ≤ s1.m_end ∧
    Mem.frame (element + var_element.sizeof T) s1.m_current m m1

/-- The builds of the `var_vector` at `this` from the segment `s0` and the memory
`m0`: `prepare_append_elements`, then any number of appends made back to back, each
a `begin_append_element`, the caller's nested allocations and `end_append_element`.
`Appended T V this s0 m0 es s m` holds when such a build leaves the segment `s` and
the memory `m`; `es` lists, in append order, the element returned by each
`begin_append_element` and the cursor at the matching `end_append_element`. -/
inductive Appended (T : IntTy) (V : ValTy) (this : Nat) (s0 : segment_manager) (m0 : Mem) :
    List (Nat × Nat) → segment_manager → Mem → Prop
  | prepare :
      Appended T V this s0 m0 [] s0 (var_vector.prepare_append_elements T this s0 m0)
  | append (es : List (Nat × Nat)) (s : segment_manager) (m : Mem) (element : Nat)
      (s1 : segment_manager) (m1 : Mem) :
      Appended T V this s0 m0 es s m →
      (var_vector.begin_append_element T V s m).out = .ok element →
      NestedAlloc T element (var_vector.begin_append_element T V s m).seg
        (var_vector.begin_append_element T V s m).mem s1 m1 →
      Appended T V this s0 m0 (es ++ [(element, s1.m_current)])
        (var_vector.end_append_element T this element s1 m1).seg
        (var_vector.end_append_element T this element s1 m1).mem

/-- The elements `es` lie back to back from address `a` up to the cursor `c`, each
at least a header and a value long, and each header holds the distance from the
element's payload start to the element's end, converted to the size type. -/
def laid_out (T : IntTy) (V : ValTy) (m : Mem) : Nat → List (Nat × Nat) → Nat → Prop
  | a, [], c => a = c
  | a, (h, e) :: rest, c =>
    h = a ∧ h + var_element.sizeof T + V.sizeof ≤ e ∧
      var_element.m_bytes T m h = T.wrap ((e : Int) - (h + var_element.sizeof T : Nat)) ∧
      laid_out T V m e rest c

/-- A caller's append of one element whose nested allocation is `extra` more bytes
taken with `segment.alloc`: the segment and memory after `end_append_element`. -/
def append_blank (T : IntTy) (V : ValTy) (this : Nat) (extra : Nat)
    (sm : segment_manager × Mem) : segment_manager × Mem :=
  let b := var_vector.begin_append_element T V sm.1 sm.2
  match b.out with
  | .error _ => (b.seg, b.mem)
  | .ok element =>
    let e := var_vector.end_append_element T this element (b.seg.alloc extra).2 b.mem
    (e.seg, e.mem)

/-- The value type `mmo::string<SizeType>`: two fields set to zero by the constructor. -/
def string_ty (T : IntTy) : ValTy := { sizeof := string.sizeof T, init := fun _ => 0 }

/-- A caller's append of one `string<SizeType>` element that is assigned `src`
between `begin_append_element` and `end_append_element`. -/
def append_string (T : IntTy) (this : Nat) (src : List Nat)
    (sm : segment_manager × Mem) : segment_manager × Mem :=
  let b := var_vector.begin_append_element T (string_ty T) sm.1 sm.2
  match b.out with
  | .error _ => (b.seg, b.mem)
  | .ok element =>
    let a := string.assign T (var_element.object T element) src b.seg b.mem
    let e := var_vector.end_append_element T this element a.seg a.mem
    (e.seg, e.mem)

/-- The `k`-th position of the forward iteration `it = begin(); ++it; ...`. -/
def var_vector.visit (T : IntTy) (m : Mem) (this : Nat) (k : Nat) : var_vector._iterator :=
  (var_vector._iterator.next T m)^[k] (var_vector.begin T m this)

/-- A 256-byte segment at `0x1000` whose first four bytes hold a header. -/
def seg256 : segment_manager := { m_buffer := 4096, m_capacity := 256, m_current := 4100, m_end := 4352 }

/-- A 50000-byte segment at `0x1000` whose first four bytes hold a header. -/
def seg50000 : segment_manager :=
  { m_buffer := 4096, m_capacity := 50000, m_current := 4100, m_end := 54096 }

/-- A four-byte value type set to zero by its constructor. -/
def Word : ValTy := { sizeof := 4, init := fun _ => 0 }

/-! ## `construct<T>` -/

/-- `construct<T>(segment)`: `alloc(sizeof(T))`, a `throw` of `no_enough_memory` with
the formatted message when it returns `NULL`, otherwise the placement
`::new(p)T()`.  The type `T` is given by its `sizeof` and by what its default
constructor does to the memory of the object at `p`. -/
def construct (sizeof_T : Nat) (ctor : Mem → Nat → Mem) (seg : segment_manager) (m : Mem) :
    Res Nat :=
  let r := seg.alloc sizeof_T
  if r.1 = 0 then
    { mem := m, seg := r.2, out := .error (out_of_space r.2 sizeof_T) }
  else
    { mem := ctor m r.1, seg := r.2, out := .ok r.1 }

/-! ## `hash_node<KeyType, ValueType, SizeType>`

The node is `next` at `n`, `key` at `n + sizeof(SizeType)` and `value` after the key. -/

/-- A `KeyType`: its `sizeof` and `std::hash<KeyType>` on its values.  A key is its
object representation, a list of `sizeof` bytes; two keys are equal when their
bytes are. -/
structure KeyTy where
  sizeof : Nat
  hash : List Nat → Nat

/-- The list `k` is the object representation of a key of type `K`. -/
def KeyTy.isKey (K : KeyTy) (k : List Nat) : Prop := k.length = K.sizeof ∧ ∀ b ∈ k, b < 256

instance (K : KeyTy) (k : List Nat) : Decidable (K.isKey k) := by
  unfold KeyTy.isKey; exact inferInstance

namespace hash_node

/-- `sizeof(hash_node<KeyType, ValueType, SizeType>)`. -/
def sizeof (T : IntTy) (K : KeyTy) (V : ValTy) : Nat := T.bytes + K.sizeof + V.sizeof

/-- `n->next.get()`. -/
def next (T : IntTy) (m : Mem) (n : Nat) : Nat := offset_ptr.get n (m.load T n)

/-- The address of `n->key`. -/
def key_addr (T : IntTy) (n : Nat) : Nat := n + T.bytes

/-- The value of `n->key`. -/
def key (T : IntTy) (K : KeyTy) (m : Mem) (n : Nat) : List Nat :=
  m.read (key_addr T n) K.sizeof

/-- The address of `n->value`. -/
def value_addr (T : IntTy) (K : KeyTy) (n : Nat) : Nat := n + T.bytes + K.sizeof

/-- The value of `n->value`. -/
def value (T : IntTy) (K : KeyTy) (V : ValTy) (m : Mem) (n : Nat) : List Nat :=
  m.read (value_addr T K n) V.sizeof

/-- The constructor `hash_node()` of the node at `n`: the members `next` and `value`
are default-constructed, the key is left as it is, then `next = NULL`. -/
def ctor (T : IntTy) (K : KeyTy) (V : ValTy) (m : Mem) (n : Nat) : Mem :=
  let m1 := m.store T n (offset_ptr.mk_default T n)
  let m2 := m1.write (value_addr T K n) V.initBytes
  m2.store T n (offset_ptr.of_raw T n 0)

/-- The three assignments `v->value = value; v->key = key; v->next = NULL;`. -/
def fill (T : IntTy) (K : KeyTy) (m : Mem) (v : Nat) (key value : List Nat) : Mem :=
  let m1 := m.write (value_addr T K v) value
  let m2 := m1.write (key_addr T v) key
  m2.store T v (offset_ptr.of_raw T v 0)

end hash_node

/-! ## `hash_map<KeyType, ValueType, SizeType>`

The header is `m_size`, `m_key_table_size`, `m_capacity`, `m_key_table` (each
`sizeof(SizeType)` bytes) and `m_default_value`. -/

namespace hash_map

/-- `sizeof(hash_map<KeyType, ValueType, SizeType>)`. -/
def sizeof (T : IntTy) (V : ValTy) : Nat := 4 * T.bytes + V.sizeof

/-- The field `m_size`. -/
def m_size (T : IntTy) (m : Mem) (this : Nat) : Int := m.load T this

/-- The field `m_key_table_size`. -/
def m_key_table_size (T : IntTy) (m : Mem) (this : Nat) : Int := m.load T (this + T.bytes)

/-- The field `m_capacity`. -/
def m_capacity (T : IntTy) (m : Mem) (this : Nat) : Int := m.load T (this + 2 * T.bytes)

/-- The address of the member `m_key_table`. -/
def key_table_addr (T : IntTy) (this : Nat) : Nat := this + 3 * T.bytes

/-- `m_key_table.get()`: the address of the bucket array. -/
def m_key_table (T : IntTy) (m : Mem) (this : Nat) : Nat :=
  offset_ptr.get (key_table_addr T this) (m.load T (key_table_addr T this))

/-- The address of the member `m_default_value`. -/
def m_default_value (T : IntTy) (this : Nat) : Nat := this + 4 * T.bytes

/-- The constructor `hash_map()` of the map at `this`. -/
def ctor (T : IntTy) (V : ValTy) (m : Mem) (this : Nat) : Mem :=
  let m1 := m.store T this 0
  let m2 := m1.store T (this + T.bytes) 0
  let m3 := m2.store T (this + 2 * T.bytes) 0
  let m4 := m3.store T (key_table_addr T this) (offset_ptr.mk_default T (key_table_addr T this))
  let m5 := m4.write (m_default_value T this) V.initBytes
  m5.store T (key_table_addr T this) (offset_ptr.of_raw T (key_table_addr T this) 0)

/-- `hash_map::predict_capacity_bytes(capacity, hash_size)`: the sum is computed in
`size_t` and returned as `SizeType`. -/
def predict_capacity_bytes (T : IntTy) (K : KeyTy) (V : ValTy) (capacity hash_size : Int) : Int :=
  let hash_size1 := if hash_size ≤ 0 then capacity else hash_size
  T.wrap (((sizeof T V + T.bytes * toSize hash_size1 + hash_node.sizeof T K V * toSize capacity)
    % W : Nat) : Int)

/-- `hash_map::capacity()`. -/
def capacity (T : IntTy) (m : Mem) (this : Nat) : Int := m_capacity T m this

/-- `hash_map::hash_size()`. -/
def hash_size (T : IntTy) (m : Mem) (this : Nat) : Int := m_key_table_size T m this

/-- `hash_map::size()`. -/
def size (T : IntTy) (m : Mem) (this : Nat) : Int := m_size T m this

/-- `hash_map::empty()`. -/
def empty (T : IntTy) (m : Mem) (this : Nat) : Bool := decide (m_size T m this = 0)

/-- The address of `pNodes[index]`, for `pNodes = m_key_table.get()`. -/
def slot_addr (T : IntTy) (m : Mem) (this : Nat) (index : Int) : Nat :=
  toSize ((m_key_table T m this : Int) + index * T.bytes)

/-- `hash_map::seek(index)`. -/
def seek (T : IntTy) (m : Mem) (this : Nat) (index : Int) : Nat :=
  if index < m_key_table_size T m this then
    offset_ptr.get (slot_addr T m this index) (m.load T (slot_addr T m this index))
  else 0

/-- `hash_map::key2index(key)`: `SizeType(key_hash(key)) % m_key_table_size`, the
remainder of the truncating division. -/
def key2index (T : IntTy) (K : KeyTy) (m : Mem) (this : Nat) (key : List Nat) : Int :=
  if m_key_table_size T m this ≠ 0 then
    T.wrap (Int.tmod (T.wrap (K.hash key)) (m_key_table_size T m this))
  else 1

/-- The loop `for(SizeType i=0;i<capacity;i++) pNodes[i]=NULL;` of `init_hash`. -/
def init_loop (T : IntTy) (pNodes : Nat) (capacity : Int) (m : Mem) : Mem :=
  (List.range capacity.toNat).foldl
    (fun (mm : Mem) (i : Nat) =>
      mm.store T (toSize ((pNodes : Int) + (i : Int) * T.bytes))
        (offset_ptr.of_raw T (toSize ((pNodes : Int) + (i : Int) * T.bytes)) 0))
    m

/-- The exception thrown by `init_hash` and `add`. -/
def no_memory : mmo_exception :=
  { code := no_enough_memory, msg := "mmo_exception:: no enough memory!" }

/-- `hash_map::init_hash(capacity, segment, hash_size)`. -/
def init_hash (T : IntTy) (this : Nat) (capacity : Int) (seg : segment_manager)
    (hash_size : Int) (m : Mem) : Res Bool :=
  if m_key_table_size T m this ≠ 0 then { mem := m, seg := seg, out := .ok false }
  else
    let m1 := m.store T (this + 2 * T.bytes) capacity
    let m2 := m1.store T (this + T.bytes) (if hash_size ≤ 0 then capacity else hash_size)
    let r := seg.alloc (toSize (m_key_table_size T m2 this) * T.bytes % W)
    if r.1 = 0 then
      let m3 := m2.store T (this + 2 * T.bytes) 0
      let m4 := m3.store T (this + T.bytes) 0
      { mem := m4, seg := r.2, out := .error no_memory }
    else
      let m3 := m2.store T (key_table_addr T this) (offset_ptr.of_raw T (key_table_addr T this) r.1)
      { mem := init_loop T r.1 capacity m3, seg := r.2, out := .ok true }

/-- The branch `if(n == NULL)` of `add`, after a successful `alloc` returned `v`:
the node is filled, `m_size` is incremented and the bucket slot is set. -/
def link_head (T : IntTy) (K : KeyTy) (m : Mem) (this : Nat) (index : Int) (v : Nat)
    (key value : List Nat) : Mem :=
  let m1 := hash_node.fill T K m v key value
  let m2 := m1.store T this (m_size T m1 this + 1)
  m2.store T (slot_addr T m2 this index) (offset_ptr.of_raw T (slot_addr T m2 this index) v)

/-- The branch `if(n->next == NULL)` of `add`, after a successful `alloc` returned
`v`: the node is filled, `n->next` is set and `m_size` is incremented. -/
def link_tail (T : IntTy) (K : KeyTy) (m : Mem) (this : Nat) (n : Nat) (v : Nat)
    (key value : List Nat) : Mem :=
  let m1 := hash_node.fill T K m v key value
  let m2 := m1.store T n (offset_ptr.of_raw T n v)
  m2.store T this (m_size T m2 this + 1)

/-- The loop `while(n != NULL && n->key != key)` of `add` from the node `n` on, and
the final `return false`.  The first argument bounds the number of iterations;
`none` means that the bound was reached. -/
def add_walk (T : IntTy) (K : KeyTy) (V : ValTy) (this : Nat) (key value : List Nat)
    (seg : segment_manager) (m : Mem) : Nat → Nat → Option (Res Bool)
  | 0, _ => none
  | fuel + 1, n =>
    if n ≠ 0 ∧ hash_node.key T K m n ≠ key then
      if hash_node.next T m n = 0 then
        let r := seg.alloc (hash_node.sizeof T K V)
        if r.1 = 0 then some { mem := m, seg := r.2, out := .error no_memory }
        else some { mem := link_tail T K m this n r.1 key value, seg := r.2, out := .ok true }
      else add_walk T K V this key value seg m fuel (hash_node.next T m n)
    else some { mem := m, seg := seg, out := .ok false }

/-- `hash_map::add(key, value, segment)`; `fuel` bounds the iterations of the chain
walk. -/
def add (T : IntTy) (K : KeyTy) (V : ValTy) (fuel : Nat) (this : Nat) (key value : List Nat)
    (seg : segment_manager) (m : Mem) : Option (Res Bool) :=
  if m_size T m this ≥ m_capacity T m this then some { mem := m, seg := seg, out := .ok false }
  else
    let index := key2index T K m this key
    let n := seek T m this index
    if n = 0 then
      let r := seg.alloc (hash_node.sizeof T K V)
      if r.1 = 0 then some { mem := m, seg := r.2, out := .error no_memory }
      else
        some { mem := link_head T K m this index r.1 key value, seg := r.2, out := .ok true }
    else add_walk T K V this key value seg m fuel n

/-- The fields of `hash_map::iresult`. -/
structure iresult where
  result : Bool
  pvalue : Nat
  deriving DecidableEq, Repr

/-- The loop `while(n != NULL && n->key != key)` of `insert` from the node `n` on,
and the final `return iresult(false,n)`. -/
def insert_walk (T : IntTy) (K : KeyTy) (V : ValTy) (this : Nat) (key value : List Nat)
    (seg : segment_manager) (m : Mem) : Nat → Nat → Option (Res iresult)
  | 0, _ => none
  | fuel + 1, n =>
    if n ≠ 0 ∧ hash_node.key T K m n ≠ key then
      if hash_node.next T m n = 0 then
        let c := construct (hash_node.sizeof T K V) (hash_node.ctor T K V) seg m
        match c.out with
        | .error e => some { mem := c.mem, seg := c.seg, out := .error e }
        | .ok v =>
          if v = 0 then some { mem := c.mem, seg := c.seg, out := .ok ⟨false, 0⟩ }
          else
            some { mem := link_tail T K c.mem this n v key value, seg := c.seg,
                   out := .ok ⟨true, v⟩ }
      else insert_walk T K V this key value seg m fuel (hash_node.next T m n)
    else some { mem := m, seg := seg, out := .ok ⟨false, n⟩ }

/-- `hash_map::insert(key, value, segment)`; `fuel` bounds the iterations of the
chain walk. -/
def insert (T : IntTy) (K : KeyTy) (V : ValTy) (fuel : Nat) (this : Nat) (key value : List Nat)
    (seg : segment_manager) (m : Mem) : Option (Res iresult) :=
  if m_size T m this ≥ m_capacity T m this then
    some { mem := m, seg := seg, out := .ok ⟨false, 0⟩ }
  else
    let index := key2index T K m this key
    let n := seek T m this index
    if n = 0 then
      let c := construct (hash_node.sizeof T K V) (hash_node.ctor T K V) seg m
      match c.out with
      | .error e => some { mem := c.mem, seg := c.seg, out := .error e }
      | .ok v =>
        if v = 0 then some { mem := c.mem, seg := c.seg, out := .ok ⟨false, 0⟩ }
        else
          some { mem := link_head T K c.mem this index v key value, seg := c.seg,
                 out := .ok ⟨true, v⟩ }
    else insert_walk T K V this key value seg m fuel n

/-- The loop `while(n != NULL && n->key != key) n = n->next.get();` of `operator[]`,
`find` and `get`: the node it stops at, or `none` when the bound is reached. -/
def walk (T : IntTy) (K : KeyTy) (key : List Nat) (m : Mem) : Nat → Nat → Option Nat
  | 0, _ => none
  | fuel + 1, n =>
    if n ≠ 0 ∧ hash_node.key T K m n ≠ key then walk T K key m fuel (hash_node.next T m n)
    else some n

/-- `hash_map::get(key)`: the address of the value found, `0` for `NULL`. -/
def get (T : IntTy) (K : KeyTy) (fuel : Nat) (m : Mem) (this : Nat) (key : List Nat) :
    Option Nat :=
  (walk T K key m fuel (seek T m this (key2index T K m this key))).map
    (fun n => if n = 0 then 0 else hash_node.value_addr T K n)

/-- `hash_map::operator[](key)`: the address of the value it returns a reference to. -/
def index (T : IntTy) (K : KeyTy) (fuel : Nat) (m : Mem) (this : Nat) (key : List Nat) :
    Option Nat :=
  (walk T K key m fuel (seek T m this (key2index T K m this key))).map
    (fun n => if n = 0 then m_default_value T this else hash_node.value_addr T K n)

/-- The fields of `hash_map::iterator`; the member `node` is represented by the
address it resolves to (the iterator is an object outside the segment). -/
structure iterator where
  index : Int
  node : Nat
  self : Nat
  deriving DecidableEq, Repr

/-- `hash_map::end()`. -/
def «end» (T : IntTy) (m : Mem) (this : Nat) : iterator :=
  { index := m_key_table_size T m this, node := 0, self := this }

/-- The loop `while(node == NULL && index < hash_size()) node = seek(++index);` of
`begin` and `operator++`; it ends within `hash_size() - index` iterations, which
bound is the first argument. -/
def skip (T : IntTy) (m : Mem) (this : Nat) : Nat → Int → Nat → Int × Nat
  | 0, index, node => (index, node)
  | fuel + 1, index, node =>
    if node = 0 ∧ index < m_key_table_size T m this then
      skip T m this fuel (T.wrap (index + 1)) (seek T m this (T.wrap (index + 1)))
    else (index, node)

/-- `hash_map::begin()`. -/
def «begin» (T : IntTy) (m : Mem) (this : Nat) : iterator :=
  if empty T m this then «end» T m this
  else
    let r := skip T m this (m_key_table_size T m this).toNat 0 (seek T m this 0)
    { index := r.1, node := r.2, self := this }

/-- `hash_map::iterator::operator++()`. -/
def iterator.next (T : IntTy) (m : Mem) (it : iterator) : iterator :=
  if it.node ≠ 0 ∧ hash_node.next T m it.node ≠ 0 then
    { it with node := hash_node.next T m it.node }
  else
    let node1 := if it.node ≠ 0 then hash_node.next T m it.node else it.node
    let r := skip T m it.self (m_key_table_size T m it.self - it.index).toNat it.index node1
    { index := r.1, node := r.2, self := it.self }

/-- `hash_map::find(key)`. -/
def find (T : IntTy) (K : KeyTy) (fuel : Nat) (m : Mem) (this : Nat) (key : List Nat) :
    Option iterator :=
  (walk T K key m fuel (seek T m this (key2index T K m this key))).map
    (fun n => if n = 0 then «end» T m this
      else { index := key2index T K m this key, node := n, self := this })

end hash_map

/-! ## Concrete inputs for the hash map -/

/-- The key type `int32_t` with the hash of the GNU standard library, the conversion of the
key to `size_t`. -/
def int32_key : KeyTy :=
  { sizeof := 4, hash := fun k => toSize (IntTy.i32.decode k) }

/-- The object representation of an `int32_t` key. -/
def key32 (k : Int) : List Nat := IntTy.i32.encode k

/-- The value type `char`. -/
def Char1 : ValTy := { sizeof := 1, init := fun _ => 0 }

/-! ## The state of a built `hash_map` -/

/-- The memory `m2` holds the same bytes as `m` at the addresses in `[lo, hi)`. -/
def Mem.agree (lo hi : Nat) (m m2 : Mem) : Prop := ∀ x, lo ≤ x → x < hi → m2 x = m x

/-- The memory `m2` differs from `m` at most inside the ranges `[r.1, r.2)` of `rs`. -/
def Mem.frames (rs : List (Nat × Nat)) (m m2 : Mem) : Prop :=
  ∀ x, (∀ r ∈ rs, x < r.1 ∨ r.2 ≤ x) → m2 x = m x

/-- A node of a built map: its address, its key and its value. -/
structure Node where
  addr : Nat
  key : List Nat
  val : List Nat
  deriving DecidableEq, Repr

/-- The nodes `l` are linked, in this order, from the node pointer `p` on, the last
one having a null `next`; each holds its key and its value. -/
def is_chain (T : IntTy) (K : KeyTy) (V : ValTy) (m : Mem) : Nat → List Node → Prop
  | p, [] => p = 0
  | p, nd :: rest =>
    p = nd.addr ∧ nd.addr ≠ 0 ∧ hash_node.key T K m nd.addr = nd.key ∧
      hash_node.value T K V m nd.addr = nd.val ∧
      is_chain T K V m (hash_node.next T m nd.addr) rest

/-- The bucket index `key2index` computes for `key` in a table of `B` buckets. -/
def bucket_of (T : IntTy) (K : KeyTy) (B : Nat) (key : List Nat) : Int :=
  T.wrap (Int.tmod (T.wrap (K.hash key)) B)

/-- The nodes of `nodes` whose key belongs to bucket `i`, in the order of `nodes`. -/
def chain_of (T : IntTy) (K : KeyTy) (B : Nat) (nodes : List Node) (i : Nat) : List Node :=
  nodes.filter (fun nd => decide (bucket_of T K B nd.key = i))

/-- The map at `this` is a well-formed table of `B` buckets and capacity `C` that
holds the nodes `nodes`, listed in insertion order: the header fields, the bucket
array between the header and the nodes, every chain linked in insertion order,
the nodes laid out one after the other below the cursor, all keys distinct,
every displacement inside the segment representable in the size type, room
for a node in the address space after the buffer, and every null slot and null
`next` field holding the displacement 1. -/
structure HMInv (T : IntTy) (K : KeyTy) (V : ValTy) (this B C : Nat) (nodes : List Node)
    (s : segment_manager) (m : Mem) : Prop where
  valid : s.valid
  this_pos : 0 < this
  wide : 2 ≤ T.bytes
  tbl_lo : this + hash_map.sizeof T V ≤ hash_map.m_key_table T m this
  tbl_hi : hash_map.m_key_table T m this + B * T.bytes ≤ s.m_current
  extent : (s.m_end : Int) - this ≤ T.hi
  top : s.m_end + hash_node.sizeof T K V < W
  size_eq : hash_map.m_size T m this = nodes.length
  kts_eq : hash_map.m_key_table_size T m this = B
  cap_eq : hash_map.m_capacity T m this = C
  le_cap : nodes.length ≤ C
  buckets : C = 0 ∨ 0 < B
  chains : ∀ i, i < B → is_chain T K V m (hash_map.seek T m this i) (chain_of T K B nodes i)
  bounded : ∀ nd ∈ nodes,
    hash_map.m_key_table T m this + B * T.bytes ≤ nd.addr ∧
      nd.addr + hash_node.sizeof T K V ≤ s.m_current ∧
      0 ≤ bucket_of T K B nd.key ∧ K.isKey nd.key ∧ V.isVal nd.val
  disjoint : nodes.Pairwise (fun x y => x.addr + hash_node.sizeof T K V ≤ y.addr)
  keys_nodup : (nodes.map Node.key).Nodup
  null_slots : ∀ i, i < B → hash_map.seek T m this i = 0 →
    m.load T (hash_map.m_key_table T m this + i * T.bytes) = 1
  null_next : ∀ nd ∈ nodes, hash_node.next T m nd.addr = 0 → m.load T nd.addr = 1

/-- The memory `m2` is `m` after a new node at `cur` with `key` and `value` was
filled, the pointer field at `P` was set to it and `m_size` became `n + 1`; the
`next` field of the new node holds the null displacement 1. -/
def Linked (T : IntTy) (K : KeyTy) (V : ValTy) (m m2 : Mem) (this P cur : Nat)
    (key value : List Nat) (n : Nat) : Prop :=
  Mem.frames [(cur, cur + hash_node.sizeof T K V), (P, P + T.bytes), (this, this + T.bytes)]
      m m2 ∧
    m2.load T this = (n : Int) + 1 ∧ offset_ptr.get P (m2.load T P) = cur ∧
    hash_node.key T K m2 cur = key ∧ hash_node.value T K V m2 cur = value ∧
    hash_node.next T m2 cur = 0 ∧ m2.load T cur = 1

/-! ## Maps built by `init_hash`, `add` and `insert` -/

/-- The conditions under which `init_hash(C, s, hs)` is called on the map at `this`
to give a table of `B` buckets: the segment is well formed, the freshly
constructed header lies in it below the cursor, the size type has at least two
bytes, the end of the segment is within the maximum of the size type from the
header, no address computed wraps around, the bucket count is not above the
capacity, and the bucket array fits the free bytes. -/
structure InitOk (T : IntTy) (K : KeyTy) (V : ValTy) (this B C : Nat) (hs : Int)
    (s : segment_manager) (m : Mem) : Prop where
  valid : s.valid
  this_pos : 0 < this
  wide : 2 ≤ T.bytes
  header : this + hash_map.sizeof T V ≤ s.m_current
  extent : (s.m_end : Int) - this ≤ T.hi
  top : s.m_end + hash_node.sizeof T K V < W
  fresh_table : hash_map.m_key_table_size T m this = 0
  fresh_size : hash_map.m_size T m this = 0
  cap_rep : T.rep C
  count : (B : Int) = if hs ≤ 0 then (C : Int) else hs
  count_le : B ≤ C
  fits : s.m_current + B * T.bytes ≤ s.m_end
  no_wrap : s.m_current + C * T.bytes < W

/-- The states `(s, m)` of the segment and the memory in which the map at `this`,
with `B` buckets and capacity `C`, has been initialised by `init_hash` and then
built by `add` and `insert` calls whose keys have a bucket index that is not
negative.  `nodes` lists, in call order, the node created by each call that
returned true: its address, and the key and the value passed to the call. -/
inductive Built (T : IntTy) (K : KeyTy) (V : ValTy) (this B C : Nat) :
    List Node → segment_manager → Mem → Prop
  | init (hs : Int) (s : segment_manager) (m : Mem) :
      InitOk T K V this B C hs s m →
      Built T K V this B C [] (hash_map.init_hash T this C s hs m).seg
        (hash_map.init_hash T this C s hs m).mem
  | add_true (nodes : List Node) (s : segment_manager) (m : Mem) (key value : List Nat)
      (fuel : Nat) (r : Res Bool) :
      Built T K V this B C nodes s m → K.isKey key → V.isVal value →
      0 ≤ bucket_of T K B key → nodes.length < fuel →
      hash_map.add T K V fuel this key value s m = some r → r.out = .ok true →
      Built T K V this B C (nodes ++ [⟨s.m_current, key, value⟩]) r.seg r.mem
  | add_other (nodes : List Node) (s : segment_manager) (m : Mem) (key value : List Nat)
      (fuel : Nat) (r : Res Bool) :
      Built T K V this B C nodes s m → K.isKey key → V.isVal value →
      0 ≤ bucket_of T K B key → nodes.length < fuel →
      hash_map.add T K V fuel this key value s m = some r → r.out ≠ .ok true →
      Built T K V this B C nodes r.seg r.mem
  | insert_true (nodes : List Node) (s : segment_manager) (m : Mem) (key value : List Nat)
      (fuel : Nat) (r : Res hash_map.iresult) (p : Nat) :
      Built T K V this B C nodes s m → K.isKey key → V.isVal value →
      0 ≤ bucket_of T K B key → nodes.length < fuel →
      hash_map.insert T K V fuel this key value s m = some r → r.out = .ok ⟨true, p⟩ →
      Built T K V this B C (nodes ++ [⟨s.m_current, key, value⟩]) r.seg r.mem
  | insert_other (nodes : List Node) (s : segment_manager) (m : Mem) (key value : List Nat)
      (fuel : Nat) (r : Res hash_map.iresult) :
      Built T K V this B C nodes s m → K.isKey key → V.isVal value →
      0 ≤ bucket_of T K B key → nodes.length < fuel →
      hash_map.insert T K V fuel this key value s m = some r →
      (∀ p, r.out ≠ .ok ⟨true, p⟩) →
      Built T K V this B C nodes r.seg r.mem

/-- The nodes of the buckets `j`, `j + 1`, ... up to the last one: bucket after
bucket, each bucket in the order of `nodes`. -/
def order_from (T : IntTy) (K : KeyTy) (B : Nat) (nodes : List Node) (j : Nat) : List Node :=
  (List.range' j (B - j)).flatMap (chain_of T K B nodes)

/-- The order of iteration: the nodes of bucket `0`, then those of bucket `1`, and
so on, each bucket in the order of `nodes`. -/
def order_of (T : IntTy) (K : KeyTy) (B : Nat) (nodes : List Node) : List Node :=
  order_from T K B nodes 0

/-- The iterator positioned on the first node of `l`, or `end()` when there is
none, in a map of `B` buckets. -/
def iter_at (T : IntTy) (K : KeyTy) (B this : Nat) : List Node → hash_map.iterator
  | [] => { index := B, node := 0, self := this }
  | nd :: _ => { index := bucket_of T K B nd.key, node := nd.addr, self := this }

/-- The iterator `begin()` after `k` applications of `operator++`. -/
def hash_map.visit (T : IntTy) (m : Mem) (this : Nat) : Nat → hash_map.iterator
  | 0 => hash_map.begin T m this
  | k + 1 => (hash_map.visit T m this k).next T m

/-! ## Concrete maps -/

/-- The map `hash_map<int32_t, char, int16_t>` constructed as the first object of a
256-byte segment at `0x1000`. -/
def demo0 : Res Nat :=
  construct (hash_map.sizeof .i16 Char1) (hash_map.ctor .i16 Char1)
    (segment_manager.reset 4096 256) mem0

/-- The map of `demo0` after `init_hash(3, segment, 3)`. -/
def demo1 : Res Bool := hash_map.init_hash .i16 4096 3 demo0.seg 3 demo0.mem

/-- The state after `add(k, v, segment)` on the map of `demo0` in the state `st`. -/
def demo_add (st : Res Bool) (k : Int) (v : Nat) : Res Bool :=
  (hash_map.add .i16 int32_key Char1 4 4096 (key32 k) [v] st.seg st.mem).getD st

/-- The map of `demo1` after `add(100, 'a')`. -/
def demo2 : Res Bool := demo_add demo1 100 97

/-- The map of `demo2` after `add(101, 'b')`. -/
def demo3 : Res Bool := demo_add demo2 101 98

/-- The map of `demo3` after `add(100, 'c')`. -/
def demo4 : Res Bool := demo_add demo3 100 99

/-- The map of `demo4` after `add(102, 'd')`. -/
def demo5 : Res Bool := demo_add demo4 102 100

/-- The map of `demo5` after `add(103, 'e')`. -/
def demo6 : Res Bool := demo_add demo5 103 101

/-- The map `hash_map<int32_t, char, int8_t>` constructed as the first object of a
100-byte segment at `0x1000`. -/
def tiny0 : Res Nat :=
  construct (hash_map.sizeof .i8 Char1) (hash_map.ctor .i8 Char1)
    (segment_manager.reset 4096 100) mem0

/-- The map of `tiny0` after `init_hash(3, segment, 3)`. -/
def tiny1 : Res Bool := hash_map.init_hash .i8 4096 3 tiny0.seg 3 tiny0.mem

/-- The state after `add(k, v, segment)` on the map of `tiny0` in the state `st`. -/
def tiny_add (st : Res Bool) (k : Int) (v : Nat) : Res Bool :=
  (hash_map.add .i8 int32_key Char1 4 4096 (key32 k) [v] st.seg st.mem).getD st

/-- The map of `tiny1` after `add(2, 'a')`. -/
def tiny2 : Res Bool := tiny_add tiny1 2 97

/-- The map of `tiny2` after `add(2, 'c')`. -/
def tiny3 : Res Bool := tiny_add tiny2 2 99

/-- The map `hash_map<int32_t, char, int8_t>` constructed as the first object of a
512-byte segment at `0x1000`. -/
def far0 : Res Nat :=
  construct (hash_map.sizeof .i8 Char1) (hash_map.ctor .i8 Char1)
    (segment_manager.reset 4096 512) mem0

/-- The map of `far0` after `init_hash(3, segment, 2)`. -/
def far1 : Res Bool := hash_map.init_hash .i8 4096 3 far0.seg 2 far0.mem

/-- The state after `add(k, v, segment)` on the map of `far0` in the state `st`. -/
def far_add (st : Res Bool) (k : Int) (v : Nat) : Res Bool :=
  (hash_map.add .i8 int32_key Char1 4 4096 (key32 k) [v] st.seg st.mem).getD st

/-- The map of `far1` after `add(258, 'a')`. -/
def far2 : Res Bool := far_add far1 258 97

/-- The state of `far2` after 252 bytes were taken from the segment for something
else. -/
def far3 : Res Bool := { far2 with seg := (far2.seg.alloc 252).2 }

/-- The map of `far3` after `add(1, 'b')`. -/
def far4 : Res Bool := far_add far3 1 98

/-- The map of `far4` after `add(3, 'c')`. -/
def far5 : Res Bool := far_add far4 3 99

/-! ## Concrete inputs for the size computations -/

/-- A two-byte value type set to zero by its constructor. -/
def Short : ValTy := { sizeof := 2, init := fun _ => 0 }

/-- The map `hash_map<int32_t, int16_t, int16_t>` constructed as the first object of
a segment at `0x1000` of 26 bytes, the value of `predict_capacity_bytes(1, 4)`. -/
def slim0 : Res Nat :=
  construct (hash_map.sizeof .i16 Short) (hash_map.ctor .i16 Short)
    (segment_manager.reset 4096 26) mem0

/-- The map of `slim0` after `init_hash(1, segment, 4)`. -/
def slim1 : Res Bool := hash_map.init_hash .i16 4096 1 slim0.seg 4 slim0.mem

/-- The state after `add(k, v, segment)` on the map of `slim0` in the state `st`. -/
def slim_add (st : Res Bool) (k : Int) (v : List Nat) : Res Bool :=
  (hash_map.add .i16 int32_key Short 4 4096 (key32 k) v st.seg st.mem).getD st

/-- The map of `slim1` after `add(-3, 7)`. -/
def slim2 : Res Bool := slim_add slim1 (-3) [7, 0]

/-- The map of `slim2` after `add(0, 8)`. -/
def slim3 : Res Bool := slim_add slim2 0 [8, 0]

/-- A 256-byte segment at `0x10000` whose first four bytes hold a header. -/
def seg_high : segment_manager :=
  { m_buffer := 65536, m_capacity := 256, m_current := 65540, m_end := 65792 }

/-! ## Concrete builds of a `var_vector` -/

/-- The `var_vector<Word, int16_t>` at `0x1000` in `seg256` after
`prepare_append_elements`. -/
def vec_a0 : segment_manager × Mem :=
  (seg256, var_vector.prepare_append_elements .i16 4096 seg256 mem0)

/-- The build `vec_a0` after the append of an element without nested allocation. -/
def vec_a1 : segment_manager × Mem := append_blank .i16 Word 4096 0 vec_a0

/-- The build `vec_a1` after the append of an element with 3 nested bytes. -/
def vec_a2 : segment_manager × Mem := append_blank .i16 Word 4096 3 vec_a1

/-- The `var_vector<Word, int16_t>` at `0x1000` in `seg50000` after
`prepare_append_elements`. -/
def big_a0 : segment_manager × Mem :=
  (seg50000, var_vector.prepare_append_elements .i16 4096 seg50000 mem0)

/-- The build `big_a0` after the append of an element with 32762 nested bytes. -/
def big_a1 : segment_manager × Mem := append_blank .i16 Word 4096 32762 big_a0

/-- The build `big_a1` after the append of an element without nested allocation. -/
def big_a2 : segment_manager × Mem := append_blank .i16 Word 4096 0 big_a1

/-- The build `big_a0` after the append of an element with 40000 nested bytes. -/
def big_b1 : segment_manager × Mem := append_blank .i16 Word 4096 40000 big_a0

/-- The `var_vector<string<int16_t>, int16_t>` at `0x1000` in `seg256` after
`prepare_append_elements`. -/
def str_a0 : segment_manager × Mem :=
  (seg256, var_vector.prepare_append_elements .i16 4096 seg256 mem0)

/-- The build `str_a0` after the append of the string `road`. -/
def str_a1 : segment_manager × Mem := append_string .i16 4096 road str_a0

/-- The build `str_a1` after the append of the empty string. -/
def str_a2 : segment_manager × Mem := append_string .i16 4096 [] str_a1

/-- The build `str_a2` after the append of a string of 10 bytes. -/
def str_a3 : segment_manager × Mem :=
  append_string .i16 4096 [48, 49, 50, 51, 52, 53, 54, 55, 56, 57] str_a2

/-! ## A segment saved and loaded at another address -/

/-- What `save` and `load` of the demonstration do with the bytes of the segment `s`:
`fwrite(segment.data(), segment.size(), 1, fp)`, then `fread` into a zeroed buffer at
the address `buf2`. -/
def load_copy (s : segment_manager) (buf2 : Nat) (m : Mem) : Mem :=
  fun x => if buf2 ≤ x ∧ x < buf2 + s.size then m (s.data + (x - buf2)) else 0

/-- The memory `m2` holds from the address `buf2` on the `size()` bytes that the
segment `s` holds from `data()` on in the memory `m`. -/
def Copied (s : segment_manager) (buf2 : Nat) (m m2 : Mem) : Prop :=
  ∀ k, k < s.size → m2 (buf2 + k) = m (s.data + k)

/-- The address, in the copy at `buf2`, of the object that lies at `x` in the segment `s`. -/
def moved (s : segment_manager) (buf2 x : Nat) : Nat := buf2 + (x - s.m_buffer)

/-- The pointer, in the copy at `buf2`, to the object that the pointer `x` points to in
the segment `s`; a null pointer stays null. -/
def reloc (s : segment_manager) (buf2 x : Nat) : Nat := if x = 0 then 0 else moved s buf2 x

/-- The segment manager over the copy at `buf2` of the segment `s`, with the same
number of used bytes. -/
def copy_segment (s : segment_manager) (buf2 : Nat) : segment_manager :=
  { m_buffer := buf2, m_capacity := s.m_capacity, m_current := moved s buf2 s.m_current,
    m_end := moved s buf2 s.m_end }

/-- A node of a built map in the copy at `buf2`. -/
def Node.moved (s : segment_manager) (buf2 : Nat) (nd : Node) : Node :=
  { addr := mmo.moved s buf2 nd.addr, key := nd.key, val := nd.val }

/-! ## Concrete builds and their copies -/

/-- Two `Point2D` values assigned to the `vector<Point2D, int16_t>` whose header is the
first object of a 256-byte segment at `0x1000`. -/
def pts_a : Res Bool :=
  vector.assign .i16 Point2D 4096 [[10, 0, 0, 0, 20, 0, 0, 0], [11, 0, 0, 0, 21, 0, 0, 0]]
    seg256 mem0

/-- The bytes of `road` assigned to the `string<int16_t>` whose header is the first
object of a 256-byte segment at `0x1000`. -/
def road_a : Res Bool := string.assign .i16 4096 road seg256 mem0

/-- A 50000-byte segment at `0x1000` whose first 40000 bytes are used; the first four
hold a header. -/
def seg_late : segment_manager :=
  { m_buffer := 4096, m_capacity := 50000, m_current := 44096, m_end := 54096 }

/-- One `Word` assigned to the `vector<Word, int16_t>` whose header is the first object
of `seg_late`, 40000 bytes before the cursor. -/
def late_a : Res Bool := vector.assign .i16 Word 4096 [[1, 2, 3, 4]] seg_late mem0

/-! # Theorems -/

/-! ## Arithmetic lemmas -/

theorem toSize_lt (v : Int) : toSize v < W := by
  unfold toSize W; omega

theorem toSize_of_nat (n : Nat) (h : n < W) : toSize (n : Int) = n := by
  unfold toSize W at *; omega

theorem and_negBool_true (x : Nat) (h : x < W) : x &&& negBool true = x := by
  have h1 : W - 1 = 2 ^ 64 - 1 := by unfold W; norm_num
  simp only [negBool, if_true, h1, Nat.and_pow_two_sub_one_eq_mod]
  unfold W at h; omega

theorem and_negBool_false (x : Nat) : x &&& negBool false = 0 := by
  simp [negBool]

theorem wrap_of_rep (T : IntTy) (x : Int) (h : T.rep x) : T.wrap x = x := by
  unfold IntTy.rep at h
  cases T <;> simp only [IntTy.wrap, IntTy.lo, IntTy.hi, IntTy.modulus] at * <;> omega

theorem wrap_rep (T : IntTy) (x : Int) : T.rep (T.wrap x) := by
  unfold IntTy.rep
  cases T <;> simp only [IntTy.wrap, IntTy.lo, IntTy.hi, IntTy.modulus] at * <;> omega

/-! ## Memory lemmas -/

theorem write_of_out (m : Mem) (a : Nat) (bs : List Nat) (x : Nat)
    (h : x < a ∨ a + bs.length ≤ x) : m.write a bs x = m x := by
  have : ¬ (a ≤ x ∧ x < a + bs.length) := by omega
  simp [Mem.write, this]

theorem write_of_in (m : Mem) (a : Nat) (bs : List Nat) (k : Nat) (h : k < bs.length) :
    m.write a bs (a + k) = bs.getD k 0 % 256 := by
  have : (a ≤ a + k ∧ a + k < a + bs.length) := by omega
  simp [Mem.write, this]

theorem read_length (m : Mem) (a n : Nat) : (m.read a n).length = n := by
  simp [Mem.read]

theorem read_congr (m m2 : Mem) (a n : Nat) (h : ∀ k, k < n → m2 (a + k) = m (a + k)) :
    m2.read a n = m.read a n := by
  unfold Mem.read
  apply List.map_congr_left
  intro k hk
  exact h k (List.mem_range.mp hk)

theorem read_getElem (m : Mem) (a n k : Nat) (h : k < (m.read a n).length) :
    (m.read a n)[k] = m (a + k) := by
  simp [Mem.read]

theorem read_write_same (m : Mem) (a : Nat) (bs : List Nat) (h : ∀ b ∈ bs, b < 256) :
    (m.write a bs).read a bs.length = bs := by
  apply List.ext_getElem
  · simp [Mem.read]
  · intro k h1 h2
    simp only [Mem.read, List.getElem_map, List.getElem_range]
    have hk : k < bs.length := by simpa [Mem.read] using h1
    rw [write_of_in m a bs k hk]
    rw [List.getD_eq_getElem _ _ hk]
    exact Nat.mod_eq_of_lt (h _ (List.getElem_mem _))

theorem encode_length (T : IntTy) (v : Int) : (T.encode v).length = T.bytes := by
  simp [IntTy.encode]

theorem encode_lt (T : IntTy) (v : Int) : ∀ b ∈ T.encode v, b < 256 := by
  intro b hb
  simp only [IntTy.encode, List.mem_map] at hb
  obtain ⟨k, _, rfl⟩ := hb
  exact Nat.mod_lt _ (by norm_num)

theorem decode_encode (T : IntTy) (v : Int) : T.decode (T.encode v) = T.wrap v := by
  cases T <;>
    simp only [IntTy.decode, IntTy.encode, IntTy.bytes, IntTy.modulus, IntTy.wrap, IntTy.lo,
      List.range_succ, List.range_zero, List.map_append, List.map_cons, List.map_nil,
      List.nil_append, List.cons_append, IntTy.leNat] <;>
    omega

theorem frame_refl (lo hi : Nat) (m : Mem) : Mem.frame lo hi m m := fun _ _ => rfl

theorem frame_trans (lo hi : Nat) (m m2 m3 : Mem) (h1 : Mem.frame lo hi m m2)
    (h2 : Mem.frame lo hi m2 m3) : Mem.frame lo hi m m3 :=
  fun x hx => (h2 x hx).trans (h1 x hx)

theorem frame_mono (lo hi lo2 hi2 : Nat) (m m2 : Mem) (h : Mem.frame lo hi m m2)
    (hlo : lo2 ≤ lo) (hhi : hi ≤ hi2) : Mem.frame lo2 hi2 m m2 :=
  fun x hx => h x (by omega)

theorem frame_write (m : Mem) (a : Nat) (bs : List Nat) (lo hi : Nat)
    (hlo : lo ≤ a) (hhi : a + bs.length ≤ hi) : Mem.frame lo hi m (m.write a bs) :=
  fun x hx => write_of_out m a bs x (by omega)

theorem frame_store (m : Mem) (T : IntTy) (a : Nat) (v : Int) (lo hi : Nat)
    (hlo : lo ≤ a) (hhi : a + T.bytes ≤ hi) : Mem.frame lo hi m (m.store T a v) := by
  unfold Mem.store
  exact frame_write m a _ lo hi hlo (by rw [encode_length]; exact hhi)

theorem read_frame (lo hi : Nat) (m m2 : Mem) (h : Mem.frame lo hi m m2) (a n : Nat)
    (hd : a + n ≤ lo ∨ hi ≤ a) : m2.read a n = m.read a n :=
  read_congr m m2 a n (fun k hk => h (a + k) (by omega))

theorem load_congr (m m2 : Mem) (T : IntTy) (a : Nat)
    (h : ∀ k, k < T.bytes → m2 (a + k) = m (a + k)) : m2.load T a = m.load T a := by
  unfold Mem.load
  rw [read_congr m m2 a T.bytes h]

theorem load_frame (lo hi : Nat) (m m2 : Mem) (h : Mem.frame lo hi m m2) (T : IntTy) (a : Nat)
    (hd : a + T.bytes ≤ lo ∨ hi ≤ a) : m2.load T a = m.load T a :=
  load_congr m m2 T a (fun k hk => h (a + k) (by omega))

theorem load_store_same (m : Mem) (T : IntTy) (a : Nat) (v : Int) :
    (m.store T a v).load T a = T.wrap v := by
  unfold Mem.load Mem.store
  have h := read_write_same m a (T.encode v) (encode_lt T v)
  rw [encode_length] at h
  rw [h, decode_encode]

theorem load_store_other (m : Mem) (T T2 : IntTy) (a b : Nat) (v : Int)
    (hd : b + T2.bytes ≤ a ∨ a + T.bytes ≤ b) : (m.store T a v).load T2 b = m.load T2 b :=
  load_frame a (a + T.bytes) m _ (frame_store m T a v a (a + T.bytes) (le_refl _) (le_refl _))
    T2 b hd

theorem load_write_other (m : Mem) (T : IntTy) (a b : Nat) (bs : List Nat)
    (hd : b + T.bytes ≤ a ∨ a + bs.length ≤ b) : (m.write a bs).load T b = m.load T b :=
  load_frame a (a + bs.length) m _ (frame_write m a bs a (a + bs.length) (le_refl _) (le_refl _))
    T b hd

theorem read_write_other (m : Mem) (a b n : Nat) (bs : List Nat)
    (hd : b + n ≤ a ∨ a + bs.length ≤ b) : (m.write a bs).read b n = m.read b n :=
  read_frame a (a + bs.length) m _ (frame_write m a bs a (a + bs.length) (le_refl _) (le_refl _))
    b n hd

theorem load_rep (m : Mem) (T : IntTy) (a : Nat) : T.rep (m.load T a) := wrap_rep T _

theorem bytes_pos (T : IntTy) : 0 < T.bytes := by cases T <;> decide

theorem toSize_of_nonneg (v : Int) (h0 : 0 ≤ v) (h1 : v < (W : Int)) : toSize v = v.toNat := by
  unfold toSize W at *; omega

theorem initBytes_length (V : ValTy) : V.initBytes.length = V.sizeof := by
  simp [ValTy.initBytes]

/-! ## `offset_ptr`: encoding and decoding -/

theorem raw_to_offset_of_ne (T : IntTy) (A B : Nat) (hB0 : B ≠ 0)
    (hrep : T.rep ((B : Int) - A)) : offset_ptr.raw_to_offset T A B = (B : Int) - A := by
  unfold offset_ptr.raw_to_offset
  have h0 : decide (B ≠ 0) = true := by simp [hB0]
  rw [h0, and_negBool_true _ (toSize_lt _)]
  have h1 : T.wrap (toSize (((toSize ((B : Int) - A - 1) : Nat) : Int) + 1))
      = T.wrap ((B : Int) - A) := by
    unfold toSize W at *
    cases T <;> simp only [IntTy.wrap, IntTy.lo, IntTy.hi, IntTy.modulus] at * <;> omega
  rw [h1, wrap_of_rep T _ hrep]

theorem raw_to_offset_null (T : IntTy) (A : Nat) : offset_ptr.raw_to_offset T A 0 = 1 := by
  unfold offset_ptr.raw_to_offset
  have h0 : decide ((0 : Nat) ≠ 0) = false := by simp
  rw [h0, and_negBool_false]
  unfold toSize W
  cases T <;> simp [IntTy.wrap, IntTy.lo, IntTy.hi, IntTy.modulus]

theorem offset_to_raw_of_ne (base : Nat) (off : Int) (h : off ≠ 1) :
    offset_ptr.offset_to_raw base off = toSize ((base : Int) + off) := by
  unfold offset_ptr.offset_to_raw
  have h0 : decide (off ≠ 1) = true := by simp [h]
  rw [h0, and_negBool_true _ (toSize_lt _)]

theorem offset_to_raw_one (base : Nat) : offset_ptr.offset_to_raw base 1 = 0 := by
  unfold offset_ptr.offset_to_raw
  have h0 : decide ((1 : Int) ≠ 1) = false := by simp
  rw [h0, and_negBool_false]

/-- C2: the displacement stored for a non-null pointee `B` by a pointer at `A`
(`B - A` representable in the offset type and different from `1`) resolves at
`A + d` to `B + d` for every shift `d` (addresses modulo `2 ^ 64`), and for a
shift `d ≠ 0` of the pointer alone it does not resolve to `B`. -/
theorem offset_ptr_uniform_relocation (T : IntTy) (A B : Nat) (d : Int)
    (hB0 : B ≠ 0) (hrep : T.rep ((B : Int) - A)) (hne : (B : Int) - A ≠ 1) :
    offset_ptr.offset_to_raw (toSize ((A : Int) + d)) (offset_ptr.raw_to_offset T A B)
      = toSize ((B : Int) + d) ∧
    (d ≠ 0 → -(W : Int) < d → d < (W : Int) →
      offset_ptr.offset_to_raw (toSize ((A : Int) + d)) (offset_ptr.raw_to_offset T A B) ≠ B) := by
  rw [raw_to_offset_of_ne T A B hB0 hrep, offset_to_raw_of_ne _ _ hne]
  unfold toSize W at *
  refine ⟨by omega, fun h1 h2 h3 => by omega⟩

/-- C2, at a 16-bit signed pointer stored at `0x1000` with pointee `0x1004`, moved by `0x100`. -/
theorem offset_ptr_uniform_relocation_witness :
    offset_ptr.offset_to_raw (toSize (((4096 : Nat) : Int) + 256))
        (offset_ptr.raw_to_offset IntTy.i16 4096 4100) = toSize (((4100 : Nat) : Int) + 256) ∧
    ((256 : Int) ≠ 0 → -(W : Int) < 256 → (256 : Int) < (W : Int) →
      offset_ptr.offset_to_raw (toSize (((4096 : Nat) : Int) + 256))
        (offset_ptr.raw_to_offset IntTy.i16 4096 4100) ≠ (4100 : Nat)) :=
  offset_ptr_uniform_relocation IntTy.i16 4096 4100 256 (by decide) (by decide) (by decide)

/-- C3: a pointer stored at `A` that is constructed or assigned from the raw address
`B` (`B ≠ 0`, `B - A ≠ 1`, `B - A` representable), or from another pointer that
resolves to `B`, resolves through `get` to `B`; constructed or assigned from null
(or from a null pointer, or by default) it stores displacement `1` and resolves to null. -/
theorem offset_ptr_round_trip (T : IntTy) (A : Nat) :
    (∀ B : Nat, B < W → B ≠ 0 → (B : Int) - A ≠ 1 → T.rep ((B : Int) - A) →
      offset_ptr.get A (offset_ptr.of_raw T A B) = B ∧
      ∀ (A2 : Nat) (off2 : Int), offset_ptr.get A2 off2 = B →
        offset_ptr.get A (offset_ptr.of_ptr T A A2 off2) = B) ∧
    (offset_ptr.mk_default T A = 1 ∧ offset_ptr.of_raw T A 0 = 1 ∧
      offset_ptr.get A (offset_ptr.of_raw T A 0) = 0) ∧
    (∀ (A2 : Nat) (off2 : Int), offset_ptr.get A2 off2 = 0 →
      offset_ptr.of_ptr T A A2 off2 = 1 ∧
      offset_ptr.get A (offset_ptr.of_ptr T A A2 off2) = 0) := by
  have key : ∀ B : Nat, B < W → B ≠ 0 → (B : Int) - A ≠ 1 → T.rep ((B : Int) - A) →
      offset_ptr.get A (offset_ptr.of_raw T A B) = B := by
    intro B hB hB0 hne hrep
    unfold offset_ptr.get offset_ptr.of_raw
    rw [raw_to_offset_of_ne T A B hB0 hrep, offset_to_raw_of_ne _ _ hne]
    unfold toSize W at *; omega
  refine ⟨fun B hB hB0 hne hrep => ⟨key B hB hB0 hne hrep, ?_⟩, ?_, ?_⟩
  · intro A2 off2 h
    unfold offset_ptr.of_ptr; rw [h]; exact key B hB hB0 hne hrep
  · unfold offset_ptr.mk_default offset_ptr.of_raw offset_ptr.get
    rw [raw_to_offset_null, offset_to_raw_one]; simp
  · intro A2 off2 h
    unfold offset_ptr.of_ptr
    rw [h]
    unfold offset_ptr.get
    rw [raw_to_offset_null, offset_to_raw_one]; simp

/-! ## `segment_manager`: the bump allocator -/

theorem get_free_memory_of_le (s : segment_manager) (h : s.m_current ≤ s.m_end)
    (he : s.m_end < W) : s.get_free_memory = s.m_end - s.m_current := by
  unfold segment_manager.get_free_memory toSize W at *; omega

theorem size_of_le (s : segment_manager) (h : s.m_buffer ≤ s.m_current)
    (he : s.m_current < W) : s.size = s.m_current - s.m_buffer := by
  unfold segment_manager.size toSize W at *; omega

theorem alloc_of_fits (s : segment_manager) (size : Nat)
    (h : s.m_current + size ≤ s.m_end) (he : s.m_end < W) :
    s.alloc size = (s.m_current, { s with m_current := s.m_current + size }) := by
  have hmod : (s.m_current + size) % W = s.m_current + size := by
    apply Nat.mod_eq_of_lt; omega
  have hle : ¬ (s.m_current + size > s.m_end) := by omega
  simp only [segment_manager.alloc, hmod, hle, if_false]

theorem advance_of_fits (s : segment_manager) (size : Nat)
    (h : s.m_current + size ≤ s.m_end) (he : s.m_end < W) :
    s.advance size = (true, { s with m_current := s.m_current + size }) := by
  have hmod : (s.m_current + size) % W = s.m_current + size := by
    apply Nat.mod_eq_of_lt; omega
  simp [segment_manager.advance, segment_manager.enough, hmod, h]

theorem alloc_of_exceeds (s : segment_manager) (size : Nat)
    (h : s.m_end < s.m_current + size) (he : s.m_current + size < W) :
    s.alloc size = (0, s) := by
  have hmod : (s.m_current + size) % W = s.m_current + size := Nat.mod_eq_of_lt he
  simp [segment_manager.alloc, hmod, h]

theorem advance_of_exceeds (s : segment_manager) (size : Nat)
    (h : s.m_end < s.m_current + size) (he : s.m_current + size < W) :
    s.advance size = (false, s) := by
  have hmod : (s.m_current + size) % W = s.m_current + size := Nat.mod_eq_of_lt he
  have h2 : ¬ (s.m_current + size ≤ s.m_end) := by omega
  simp [segment_manager.advance, segment_manager.enough, hmod, h2]

/-- C4 (amended): on every segment state whose cursor is not above the end of the
buffer (the end being an address, below `2 ^ 64`), for every
`size ≤ get_free_memory()`, `alloc(size)` returns the cursor held before the call,
which is not null when the cursor is not null, and leaves the cursor `size` bytes
further on (nothing else changes); `advance(size)` returns true and leaves the same
segment. -/
theorem alloc_success (s : segment_manager) (size : Nat) (hle : s.m_current ≤ s.m_end)
    (he : s.m_end < W) (hsz : size ≤ s.get_free_memory) :
    (s.alloc size).1 = s.m_current ∧ (s.m_current ≠ 0 → (s.alloc size).1 ≠ 0) ∧
    (s.alloc size).2.m_current = s.m_current + size ∧
    (s.alloc size).2 = { s with m_current := s.m_current + size } ∧
    (s.advance size).1 = true ∧ (s.advance size).2 = (s.alloc size).2 := by
  rw [get_free_memory_of_le s hle he] at hsz
  have hfit : s.m_current + size ≤ s.m_end := by omega
  rw [alloc_of_fits s size hfit he, advance_of_fits s size hfit he]
  exact ⟨rfl, fun h => h, rfl, rfl, rfl, rfl⟩

/-- C4 (amended), on the 256-byte buffer at `0x1000` with 16 bytes used, for `size = 240`. -/
theorem alloc_success_witness :
    ((segment_manager.mk 4096 256 4112 4352).alloc 240).1 = 4112 ∧
    ((segment_manager.mk 4096 256 4112 4352).alloc 240).1 ≠ 0 ∧
    ((segment_manager.mk 4096 256 4112 4352).alloc 240).2.m_current = 4112 + 240 ∧
    ((segment_manager.mk 4096 256 4112 4352).alloc 240).2
      = { (segment_manager.mk 4096 256 4112 4352) with m_current := 4112 + 240 } ∧
    ((segment_manager.mk 4096 256 4112 4352).advance 240).1 = true ∧
    ((segment_manager.mk 4096 256 4112 4352).advance 240).2
      = ((segment_manager.mk 4096 256 4112 4352).alloc 240).2 :=
  have h := alloc_success (segment_manager.mk 4096 256 4112 4352) 240 (by decide) (by decide)
    (by decide)
  ⟨h.1, h.2.1 (by decide), h.2.2.1, h.2.2.2.1, h.2.2.2.2.1, h.2.2.2.2.2⟩

/-- C4 fails as stated: on the default-constructed `segment_manager()` the free bytes
are `0`, so `size = 0` is within them, and `alloc(0)` returns the cursor held before
the call, which is null; the segment is left as it was and `advance(0)` returns
true. -/
theorem alloc_returns_null_cursor :
    segment_manager.ctor.get_free_memory = 0 ∧
    (0 : Nat) ≤ segment_manager.ctor.get_free_memory ∧
    (segment_manager.ctor.alloc 0).1 = segment_manager.ctor.m_current ∧
    (segment_manager.ctor.alloc 0).1 = 0 ∧
    (segment_manager.ctor.alloc 0).2 = segment_manager.ctor ∧
    (segment_manager.ctor.advance 0).1 = true := by
  decide

/-- C5: on the fresh 256-byte segment at `0x1000` the request `size = 2 ^ 64 - 1`
exceeds the 256 free bytes, yet `m_current + size` wraps to `0xfff`, which is not
above `m_end`: `alloc` returns the non-null `0x1000`, `advance` returns true, and
both move the cursor to `0xfff`, one byte before the buffer. -/
theorem alloc_overflow_succeeds :
    (segment_manager.reset 4096 256).valid ∧
    (segment_manager.reset 4096 256).get_free_memory = 256 ∧
    (segment_manager.reset 4096 256).get_free_memory < W - 1 ∧
    ((segment_manager.reset 4096 256).alloc (W - 1)).1 = 4096 ∧
    ((segment_manager.reset 4096 256).alloc (W - 1)).2.m_current = 4095 ∧
    ((segment_manager.reset 4096 256).advance (W - 1)).1 = true ∧
    ((segment_manager.reset 4096 256).advance (W - 1)).2.m_current = 4095 := by
  decide

/-! ## `vector`: `resize` and `assign` -/

theorem wrap_toSize (T : IntTy) (x : Int) : T.wrap (toSize x) = T.wrap x := by
  unfold toSize W
  cases T <;> simp only [IntTy.wrap, IntTy.lo, IntTy.hi, IntTy.modulus] at * <;> omega

theorem wrap_wrap (T : IntTy) (x : Int) : T.wrap (T.wrap x) = T.wrap x :=
  wrap_of_rep T _ (wrap_rep T x)

theorem hi_lt_W (T : IntTy) : T.hi < (W : Int) := by
  unfold W; cases T <;> simp [IntTy.hi]

theorem lo_le_zero (T : IntTy) : T.lo ≤ 0 := by
  cases T <;> simp [IntTy.lo]

theorem toSize_add_mul (p i vs : Nat) (h : p + i * vs < W) :
    toSize ((p : Int) + (i : Int) * (vs : Int)) = p + i * vs := by
  have : ((p : Int) + (i : Int) * (vs : Int)) = ((p + i * vs : Nat) : Int) := by push_cast; ring
  rw [this, toSize_of_nat _ h]

theorem modulus_toNat_pos (T : IntTy) : T.hi < T.modulus := by
  cases T <;> simp [IntTy.hi, IntTy.modulus]

/-- The value-initialisation loop of `resize` writes only inside the payload. -/
theorem resize_loop_frame (T : IntTy) (V : ValTy) (this p n : Nat)
    (hdisj : this + vector.sizeof T ≤ p ∨ p + n * V.sizeof ≤ this)
    (hp : p + n * V.sizeof < W) (hn : T.rep n) :
    ∀ (fuel i : Nat) (m : Mem), vector.m_size T m this = n → i ≤ n →
      Mem.frame p (p + n * V.sizeof) m (vector.resize_loop T V this p fuel i m) := by
  intro fuel
  induction fuel with
  | zero => intro i m _ _; exact frame_refl _ _ _
  | succ fuel ih =>
    intro i m hm hi
    unfold vector.resize_loop
    rw [hm]
    by_cases hlt : (i : Int) < (n : Int)
    · rw [if_pos hlt]
      have hlt2 : i + 1 ≤ n := by omega
      have hmul := Nat.mul_le_mul_right V.sizeof hlt2
      rw [Nat.add_mul, Nat.one_mul] at hmul
      have haddr : toSize ((p : Int) + (i : Int) * (V.sizeof : Int)) = p + i * V.sizeof :=
        toSize_add_mul p i V.sizeof (by omega)
      rw [haddr]
      have hw : T.wrap ((i : Int) + 1) = ((i + 1 : Nat) : Int) := by
        rw [wrap_of_rep]
        · push_cast; rfl
        · have := lo_le_zero T
          unfold IntTy.rep at *; omega
      rw [hw]
      have hfw : Mem.frame p (p + n * V.sizeof) m (m.write (p + i * V.sizeof) V.initBytes) :=
        frame_write m _ _ _ _ (by omega) (by rw [initBytes_length]; omega)
      have hm2 : vector.m_size T (m.write (p + i * V.sizeof) V.initBytes) this = n := by
        rw [← hm]
        unfold vector.m_size vector.sizeof at *
        exact load_frame _ _ _ _ hfw T this (by omega)
      exact frame_trans _ _ _ _ _ hfw (ih (i + 1) _ hm2 hlt2)
    · rw [if_neg hlt]; exact frame_refl _ _ _

/-- The copy loop of `assign` stores the source elements one after the other from
the payload start and writes nowhere else. -/
theorem assign_loop_spec (T : IntTy) (V : ValTy) (this p n : Nat)
    (hdisj : this + vector.sizeof T ≤ p ∨ p + n * V.sizeof ≤ this)
    (hp : p + n * V.sizeof < W) (hn : T.rep n) :
    ∀ (rest : List (List Nat)) (i : Nat) (m : Mem), vector.data T m this = p →
      i + rest.length = n → (∀ v ∈ rest, V.isVal v) →
      Mem.frame (p + i * V.sizeof) (p + n * V.sizeof) m
          (vector.assign_loop T V this rest i m).1 ∧
        ∀ (j : Nat) (h : j < rest.length),
          (vector.assign_loop T V this rest i m).1.read (p + (i + j) * V.sizeof) V.sizeof
            = rest[j] := by
  intro rest
  induction rest with
  | nil =>
    intro i m _ _ _
    exact ⟨frame_refl _ _ _, fun j h => absurd h (by simp)⟩
  | cons it rest ih =>
    intro i m hd hlen hval
    have hit : V.isVal it := hval it (List.mem_cons_self _ _)
    have hlen2 : i + 1 + rest.length = n := by simp at hlen; omega
    have hlt2 : i + 1 ≤ n := by omega
    have hmul := Nat.mul_le_mul_right V.sizeof hlt2
    rw [Nat.add_mul, Nat.one_mul] at hmul
    unfold vector.assign_loop
    have haddr : vector.at_ T V m this i = p + i * V.sizeof := by
      unfold vector.at_; rw [hd]
      exact toSize_add_mul p i V.sizeof (by omega)
    rw [haddr]
    have hw : T.wrap ((i : Int) + 1) = ((i + 1 : Nat) : Int) := by
      rw [wrap_of_rep]
      · push_cast; rfl
      · have := lo_le_zero T
        unfold IntTy.rep at *; omega
    rw [hw]
    have hfw : Mem.frame (p + i * V.sizeof) (p + (i + 1) * V.sizeof) m
        (m.write (p + i * V.sizeof) it) :=
      frame_write m _ _ _ _ (le_refl _) (by rw [hit.1, Nat.add_mul]; omega)
    have hd2 : vector.data T (m.write (p + i * V.sizeof) it) this = p := by
      have hl := load_frame _ _ _ _ hfw T (this + T.bytes)
        (by unfold vector.sizeof at hdisj; rw [Nat.add_mul]; omega)
      unfold vector.data vector._get_data_addr vector.m_offset at *
      rw [hl]; exact hd
    obtain ⟨ihf, ihr⟩ := ih (i + 1) _ hd2 hlen2 (fun v hv => hval v (List.mem_cons_of_mem _ hv))
    refine ⟨?_, ?_⟩
    · exact frame_trans _ _ _ _ _ (frame_mono _ _ _ _ _ _ hfw (le_refl _) (by rw [Nat.add_mul]; omega))
        (frame_mono _ _ _ _ _ _ ihf (by rw [Nat.add_mul]; omega) (le_refl _))
    · intro j hj
      cases j with
      | zero =>
        simp only [Nat.add_zero, List.getElem_cons_zero]
        rw [read_frame _ _ _ _ ihf (p + i * V.sizeof) V.sizeof (by rw [Nat.add_mul]; omega)]
        have := read_write_same m (p + i * V.sizeof) it hit.2
        rw [hit.1] at this
        exact this
      | succ j =>
        simp only [List.getElem_cons_succ]
        have := ihr j (by simpa using hj)
        rw [show i + (j + 1) = i + 1 + j by omega]
        exact this

theorem resize_spec (T : IntTy) (V : ValTy) (this n : Nat) (seg : segment_manager) (m : Mem)
    (hv : seg.valid)
    (hdisj : this + vector.sizeof T ≤ seg.m_current ∨ seg.m_current + n * V.sizeof ≤ this)
    (hn : T.rep n) (hbytes : T.rep ((n * V.sizeof : Nat) : Int))
    (hoff : T.rep ((seg.m_current : Int) - this))
    (hfree : n * V.sizeof ≤ seg.get_free_memory) :
    (vector.resize T V this (T.wrap n) seg m).out = .ok true ∧
    (vector.resize T V this (T.wrap n) seg m).seg
      = { seg with m_current := seg.m_current + n * V.sizeof } ∧
    vector.m_size T (vector.resize T V this (T.wrap n) seg m).mem this = n ∧
    vector.data T (vector.resize T V this (T.wrap n) seg m).mem this = seg.m_current := by
  obtain ⟨h1, h2, h3, _, h5⟩ := hv
  rw [get_free_memory_of_le seg h3 h5] at hfree
  have hfit : seg.m_current + n * V.sizeof ≤ seg.m_end := by omega
  -- the header after the two stores
  have hsz : vector.m_size T ((m.store T this (T.wrap n)).store T (this + T.bytes)
      (seg.calc_offset this)) this = n := by
    unfold vector.m_size
    rw [load_store_other _ _ _ _ _ _ (by omega), load_store_same, wrap_wrap, wrap_of_rep T _ hn]
  have hof : vector.m_offset T ((m.store T this (T.wrap n)).store T (this + T.bytes)
      (seg.calc_offset this)) this = (seg.m_current : Int) - this := by
    unfold vector.m_offset segment_manager.calc_offset
    rw [load_store_same, wrap_toSize, wrap_of_rep T _ hoff]
  have hdat : vector.data T ((m.store T this (T.wrap n)).store T (this + T.bytes)
      (seg.calc_offset this)) this = seg.m_current := by
    unfold vector.data vector._get_data_addr
    rw [hof]
    unfold toSize W at *; omega
  have hnW : toSize (n : Int) = n := by
    apply toSize_of_nat
    have := hi_lt_W T
    unfold IntTy.rep at hn; omega
  have hdb : vector._data_bytes T V ((m.store T this (T.wrap n)).store T (this + T.bytes)
      (seg.calc_offset this)) this = ((n * V.sizeof : Nat) : Int) := by
    unfold vector._data_bytes
    rw [hsz, hnW, Nat.mod_eq_of_lt (by omega), wrap_of_rep T _ hbytes]
  have hdbs : toSize (vector._data_bytes T V ((m.store T this (T.wrap n)).store T (this + T.bytes)
      (seg.calc_offset this)) this) = n * V.sizeof := by
    rw [hdb]; exact toSize_of_nat _ (by omega)
  have hadv := advance_of_fits seg (n * V.sizeof) hfit h5
  have hfr := resize_loop_frame T V this seg.m_current n hdisj (by omega) hn T.modulus.toNat 0
    _ hsz (Nat.zero_le _)
  have heq : vector.resize T V this (T.wrap n) seg m =
      { mem := vector.resize_loop T V this seg.m_current T.modulus.toNat 0
          ((m.store T this (T.wrap n)).store T (this + T.bytes) (seg.calc_offset this)),
        seg := { seg with m_current := seg.m_current + n * V.sizeof }, out := .ok true } := by
    simp only [vector.resize, hdbs, hadv, hdat]
    simp
  rw [heq]
  refine ⟨rfl, rfl, ?_, ?_⟩
  · show vector.m_size T (vector.resize_loop T V this seg.m_current T.modulus.toNat 0 _) this = n
    have hl := load_frame _ _ _ _ hfr T this (by unfold vector.sizeof at hdisj; omega)
    unfold vector.m_size at hsz ⊢
    simp only [Nat.cast_zero] at hl
    rw [hl]; exact hsz
  · show vector.data T (vector.resize_loop T V this seg.m_current T.modulus.toNat 0 _) this = _
    have hl := load_frame _ _ _ _ hfr T (this + T.bytes)
      (by unfold vector.sizeof at hdisj; omega)
    unfold vector.data vector._get_data_addr vector.m_offset at hdat ⊢
    simp only [Nat.cast_zero] at hl
    rw [hl]; exact hdat

/-- C6: for a source `src` of values of the element type whose length, byte size
and header-to-cursor distance are representable in the size type, a segment over a
real buffer with at least `src.size() * sizeof(ValueType)` free bytes and a header
that does not overlap the span the payload will take, `assign` returns true; after
it `size()` is `src.size()`, the payload starts at the cursor held before the call,
and for every `i < src.size()` the element `at(i)` (also `operator[](i)`) lies at
payload start plus `i * sizeof(ValueType)` and holds `src[i]`. -/
theorem vector_assign_spec (T : IntTy) (V : ValTy) (this : Nat) (src : List (List Nat))
    (seg : segment_manager) (m : Mem)
    (hv : seg.valid)
    (hdisj : this + vector.sizeof T ≤ seg.m_current ∨
      seg.m_current + src.length * V.sizeof ≤ this)
    (hsrc : ∀ v ∈ src, V.isVal v)
    (hn : T.rep src.length) (hbytes : T.rep ((src.length * V.sizeof : Nat) : Int))
    (hoff : T.rep ((seg.m_current : Int) - this))
    (hfree : src.length * V.sizeof ≤ seg.get_free_memory) :
    (vector.assign T V this src seg m).out = .ok true ∧
    vector.size T (vector.assign T V this src seg m).mem this = src.length ∧
    vector.data T (vector.assign T V this src seg m).mem this = seg.m_current ∧
    ∀ (i : Nat) (h : i < src.length),
      vector.at_ T V (vector.assign T V this src seg m).mem this i
        = seg.m_current + i * V.sizeof ∧
      (vector.assign T V this src seg m).mem.read
        (vector.at_ T V (vector.assign T V this src seg m).mem this i) V.sizeof = src[i] ∧
      (vector.assign T V this src seg m).mem.read
        (vector.index T V (vector.assign T V this src seg m).mem this i) V.sizeof = src[i] := by
  obtain ⟨hr1, hr2, hr3, hr4⟩ := resize_spec T V this src.length seg m hv hdisj hn hbytes hoff hfree
  obtain ⟨h1, h2, h3, _, h5⟩ := hv
  rw [get_free_memory_of_le seg h3 h5] at hfree
  have hfit : seg.m_current + src.length * V.sizeof < W := by omega
  obtain ⟨lf, lr⟩ := assign_loop_spec T V this seg.m_current src.length hdisj hfit hn src 0
    (vector.resize T V this (T.wrap src.length) seg m).mem hr4 (by simp) hsrc
  simp only [Nat.zero_mul, Nat.add_zero, Nat.zero_add, Nat.cast_zero] at lf lr
  have heq : vector.assign T V this src seg m =
      { mem := (vector.assign_loop T V this src 0
          (vector.resize T V this (T.wrap src.length) seg m).mem).1,
        seg := (vector.resize T V this (T.wrap src.length) seg m).seg, out := .ok true } := by
    simp only [vector.assign, hr1]
  rw [heq]
  have hsz : vector.m_size T (vector.assign_loop T V this src 0
      (vector.resize T V this (T.wrap src.length) seg m).mem).1 this = src.length := by
    have hl := load_frame _ _ _ _ lf T this (by unfold vector.sizeof at hdisj; omega)
    unfold vector.m_size at hr3 ⊢
    rw [hl]; exact hr3
  have hdat : vector.data T (vector.assign_loop T V this src 0
      (vector.resize T V this (T.wrap src.length) seg m).mem).1 this = seg.m_current := by
    have hl := load_frame _ _ _ _ lf T (this + T.bytes)
      (by unfold vector.sizeof at hdisj; omega)
    unfold vector.data vector._get_data_addr vector.m_offset at hr4 ⊢
    rw [hl]; exact hr4
  refine ⟨rfl, hsz, hdat, ?_⟩
  intro i hi
  have hmul := Nat.mul_le_mul_right V.sizeof (Nat.le_of_lt hi)
  have haddr : vector.at_ T V (vector.assign_loop T V this src 0
      (vector.resize T V this (T.wrap src.length) seg m).mem).1 this i
        = seg.m_current + i * V.sizeof := by
    unfold vector.at_; rw [hdat]
    exact toSize_add_mul _ i V.sizeof (by omega)
  have haddr2 : vector.index T V (vector.assign_loop T V this src 0
      (vector.resize T V this (T.wrap src.length) seg m).mem).1 this i
        = seg.m_current + i * V.sizeof := haddr
  refine ⟨haddr, ?_, ?_⟩
  · show Mem.read _ (vector.at_ T V (vector.assign_loop T V this src 0
      (vector.resize T V this (T.wrap src.length) seg m).mem).1 this i) _ = _
    rw [haddr]; exact lr i hi
  · show Mem.read _ (vector.index T V (vector.assign_loop T V this src 0
      (vector.resize T V this (T.wrap src.length) seg m).mem).1 this i) _ = _
    rw [haddr2]; exact lr i hi


/-- C6, for two `Point2D` values assigned to a vector whose header is the first object of a
256-byte segment. -/
theorem vector_assign_spec_witness :
    (vector.assign .i16 Point2D 4096 [[10, 0, 0, 0, 20, 0, 0, 0], [11, 0, 0, 0, 21, 0, 0, 0]]
      (segment_manager.mk 4096 256 4100 4352) mem0).out = .ok true ∧
    vector.size .i16 (vector.assign .i16 Point2D 4096
      [[10, 0, 0, 0, 20, 0, 0, 0], [11, 0, 0, 0, 21, 0, 0, 0]]
      (segment_manager.mk 4096 256 4100 4352) mem0).mem 4096 = 2 :=
  have h := vector_assign_spec .i16 Point2D 4096
    [[10, 0, 0, 0, 20, 0, 0, 0], [11, 0, 0, 0, 21, 0, 0, 0]]
    (segment_manager.mk 4096 256 4100 4352) mem0 (by decide) (by decide) (by decide) (by decide)
    (by decide) (by decide) (by decide)
  ⟨h.1, h.2.1⟩

/-! ## `string`: `assign` -/

theorem alloc_fst (s : segment_manager) (size : Nat) (h : (s.alloc size).1 ≠ 0) :
    (s.alloc size).1 = s.m_current := by
  unfold segment_manager.alloc at *
  split
  · rename_i hc; rw [if_pos hc] at h; exact absurd rfl h
  · rfl

/-- The length field of a string after the two stores that start `assign`. -/
theorem string_size_after_stores (T : IntTy) (this n : Nat) (seg : segment_manager) (m : Mem)
    (hn : T.rep n) :
    string.m_size T ((m.store T this n).store T (this + T.bytes) (seg.calc_offset this)) this
      = n := by
  unfold string.m_size
  rw [load_store_other _ _ _ _ _ _ (by omega), load_store_same, wrap_of_rep T _ hn]

/-- The displacement field of a string after the two stores that start `assign`. -/
theorem string_offset_after_stores (T : IntTy) (this n : Nat) (seg : segment_manager) (m : Mem)
    (hoff : T.rep ((seg.m_current : Int) - this)) :
    string.m_offset T ((m.store T this n).store T (this + T.bytes) (seg.calc_offset this)) this
      = (seg.m_current : Int) - this := by
  unfold string.m_offset segment_manager.calc_offset
  rw [load_store_same, wrap_toSize, wrap_of_rep T _ hoff]

/-- What a non-throwing `assign` of a non-empty source leaves: the memory and the segment. -/
theorem string_assign_eq (T : IntTy) (this : Nat) (src : List Nat) (seg : segment_manager)
    (m : Mem) (hv : seg.valid) (hne : src ≠ [])
    (hdisj : this + string.sizeof T ≤ seg.m_current ∨ seg.m_current + src.length + 1 ≤ this)
    (hn : T.rep src.length)
    (hfit : seg.m_current + src.length + 1 ≤ seg.m_end)
    (halloc : (seg.alloc (toSize (T.promote.wrap ((src.length : Int) + 1)))).1 ≠ 0) :
    string.assign T this src seg m =
      { mem := ((((m.store T this src.length).store T (this + T.bytes)
          (seg.calc_offset this)).write seg.m_current src).write
            (seg.m_current + src.length) [0]),
        seg := (seg.alloc (toSize (T.promote.wrap ((src.length : Int) + 1)))).2,
        out := .ok true } := by
  obtain ⟨h1, h2, h3, _, h5⟩ := hv
  have hsz := string_size_after_stores T this src.length seg m hn
  have hlen : 0 < src.length := List.length_pos.mpr hne
  have hsz1 : string.m_size T (m.store T this src.length) this = src.length := by
    unfold string.m_size
    rw [load_store_same, wrap_of_rep T _ hn]
  have hnW : toSize (src.length : Int) = src.length := toSize_of_nat _ (by omega)
  have hsz3 : string.m_size T (((m.store T this src.length).store T (this + T.bytes)
      (seg.calc_offset this)).write seg.m_current src) this = src.length := by
    have hl := load_write_other ((m.store T this src.length).store T (this + T.bytes)
      (seg.calc_offset this)) T seg.m_current this src
      (by unfold string.sizeof at hdisj; omega)
    unfold string.m_size at hsz ⊢
    rw [hl]; exact hsz
  have hspo : string.size_plus_one T ((m.store T this src.length).store T (this + T.bytes)
      (seg.calc_offset this)) this = toSize (T.promote.wrap ((src.length : Int) + 1)) := by
    unfold string.size_plus_one; rw [hsz]
  have hne0 : (src.length : Int) ≠ 0 := by omega
  have haddr : toSize ((seg.m_current : Int) + (src.length : Int)) = seg.m_current + src.length := by
    have : ((seg.m_current : Int) + (src.length : Int)) = ((seg.m_current + src.length : Nat) : Int) := by
      push_cast; rfl
    rw [this, toSize_of_nat _ (by omega)]
  have hc : seg.m_current ≠ 0 := by omega
  simp only [string.assign, hsz1, hne0, if_false, hspo, halloc, alloc_fst _ _ halloc, hsz, hnW,
    List.take_length, hsz3, haddr, hc]

/-- The reads of a string whose header holds the length of `src` and the distance to
`cur`, after `src` and the terminator are stored at `cur`. -/
theorem string_reads_after_assign (T : IntTy) (this : Nat) (src : List Nat) (cur : Nat)
    (m0 : Mem)
    (hdisj : this + string.sizeof T ≤ cur ∨ cur + src.length + 1 ≤ this)
    (hW : cur + src.length + 1 ≤ W)
    (hsz : string.m_size T m0 this = src.length) :
    string.m_size T ((m0.write cur src).write (cur + src.length) [0]) this = src.length ∧
    (string.m_offset T m0 this = (cur : Int) - this →
      string.c_str T ((m0.write cur src).write (cur + src.length) [0]) this = cur) ∧
    ((∀ b ∈ src, b < 256) →
      ((m0.write cur src).write (cur + src.length) [0]).read cur src.length = src) ∧
    ((m0.write cur src).write (cur + src.length) [0]) (cur + src.length) = 0 := by
  have hfr : Mem.frame cur (cur + src.length + 1) m0
      ((m0.write cur src).write (cur + src.length) [0]) :=
    frame_trans _ _ _ _ _ (frame_write m0 cur src _ _ (le_refl _) (by omega))
      (frame_write _ (cur + src.length) [0] _ _ (by omega) (by simp))
  refine ⟨?_, ?_, ?_, ?_⟩
  · have hl := load_frame _ _ _ _ hfr T this (by unfold string.sizeof at hdisj; omega)
    unfold string.m_size at hsz ⊢
    rw [hl]; exact hsz
  · intro hof
    have hl := load_frame _ _ _ _ hfr T (this + T.bytes)
      (by unfold string.sizeof at hdisj; omega)
    unfold string.c_str string._get_data_addr
    unfold string.m_offset at hof ⊢
    rw [hl, hof]
    unfold toSize W at *; omega
  · intro hsrc
    rw [read_write_other _ _ _ _ _ (by omega)]
    exact read_write_same m0 cur src hsrc
  · have := write_of_in (m0.write cur src) (cur + src.length) [0] 0 (by simp)
    simpa using this

/-- C7: for a non-empty source `src` of bytes whose length and header-to-cursor
distance are representable in the size type, a segment over a real buffer with at
least `src.size() + 1` free bytes and a header outside the span the payload will
take, after `assign` has returned true `size()` and `length()` are `src.size()`,
`c_str()` is the cursor held before the call, the `size()` bytes from `c_str()` are
`src` in order, `c_str()[size()]` is the zero byte, and `to_std` gives `src`. -/
theorem string_assign_spec (T : IntTy) (this : Nat) (src : List Nat) (seg : segment_manager)
    (m : Mem) (hv : seg.valid) (hne : src ≠ []) (hsrc : ∀ b ∈ src, b < 256)
    (hdisj : this + string.sizeof T ≤ seg.m_current ∨ seg.m_current + src.length + 1 ≤ this)
    (hn : T.rep src.length) (hoff : T.rep ((seg.m_current : Int) - this))
    (hfree : src.length + 1 ≤ seg.get_free_memory)
    (hret : (string.assign T this src seg m).out = .ok true) :
    string.size T (string.assign T this src seg m).mem this = src.length ∧
    string.length T (string.assign T this src seg m).mem this = src.length ∧
    string.c_str T (string.assign T this src seg m).mem this = seg.m_current ∧
    (string.assign T this src seg m).mem.read
      (string.c_str T (string.assign T this src seg m).mem this) src.length = src ∧
    (string.assign T this src seg m).mem
      (string.index T (string.assign T this src seg m).mem this
        (string.size T (string.assign T this src seg m).mem this)) = 0 ∧
    string.to_std T (string.assign T this src seg m).mem this = src := by
  have hv2 := hv
  obtain ⟨h1, h2, h3, _, h5⟩ := hv
  rw [get_free_memory_of_le seg h3 h5] at hfree
  have hfit : seg.m_current + src.length + 1 ≤ seg.m_end := by omega
  have hsz := string_size_after_stores T this src.length seg m hn
  have hof := string_offset_after_stores T this src.length seg m hoff
  have halloc : (seg.alloc (toSize (T.promote.wrap ((src.length : Int) + 1)))).1 ≠ 0 := by
    intro h0
    have hlen : 0 < src.length := List.length_pos.mpr hne
    have hsz1 : string.m_size T (m.store T this src.length) this = src.length := by
      unfold string.m_size
      rw [load_store_same, wrap_of_rep T _ hn]
    have hne0 : (src.length : Int) ≠ 0 := by omega
    have hspo : string.size_plus_one T ((m.store T this src.length).store T (this + T.bytes)
        (seg.calc_offset this)) this = toSize (T.promote.wrap ((src.length : Int) + 1)) := by
      unfold string.size_plus_one; rw [hsz]
    simp [string.assign, hsz1, hne0, hspo, h0] at hret
  rw [string_assign_eq T this src seg m hv2 hne hdisj hn hfit halloc]
  obtain ⟨r1, r2, r3, r4⟩ := string_reads_after_assign T this src seg.m_current _ hdisj
    (by omega) hsz
  have r2 := r2 hof
  have r3 := r3 hsrc
  have hnW : toSize (src.length : Int) = src.length := toSize_of_nat _ (by omega)
  have haddr : toSize ((seg.m_current : Int) + (src.length : Int)) = seg.m_current + src.length := by
    have : ((seg.m_current : Int) + (src.length : Int)) = ((seg.m_current + src.length : Nat) : Int) := by
      push_cast; rfl
    rw [this, toSize_of_nat _ (by omega)]
  have r2d : string.data T ((((m.store T this src.length).store T (this + T.bytes)
      (seg.calc_offset this)).write seg.m_current src).write (seg.m_current + src.length) [0])
      this = seg.m_current := r2
  refine ⟨r1, r1, r2, ?_, ?_, ?_⟩
  · show Mem.read _ (string.c_str T _ this) _ = _
    rw [r2]; exact r3
  · show Mem.write _ _ _ (string.index T _ this (string.size T _ this)) = 0
    unfold string.index string.size
    rw [r1, r2d, haddr]
    exact r4
  · show string.to_std T _ this = src
    unfold string.to_std string.size
    rw [r1, r2d, hnW]
    exact r3

theorem rep_promote (T : IntTy) (x : Int) (h : T.rep x) : T.promote.rep x := by
  unfold IntTy.rep at *
  cases T <;> simp only [IntTy.promote, IntTy.lo, IntTy.hi] at * <;> omega

/-- A non-empty `assign` whose `m_size + 1` fits the size type and the segment. -/
theorem string_assign_fits (T : IntTy) (this : Nat) (src : List Nat) (seg : segment_manager)
    (m : Mem) (hv : seg.valid) (hne : src ≠ [])
    (hdisj : this + string.sizeof T ≤ seg.m_current ∨ seg.m_current + src.length + 1 ≤ this)
    (hn1 : T.rep ((src.length : Int) + 1))
    (hfree : src.length + 1 ≤ seg.get_free_memory) :
    string.assign T this src seg m =
      { mem := ((((m.store T this src.length).store T (this + T.bytes)
          (seg.calc_offset this)).write seg.m_current src).write
            (seg.m_current + src.length) [0]),
        seg := { seg with m_current := seg.m_current + (src.length + 1) },
        out := .ok true } ∧
    string._data_bytes T ((((m.store T this src.length).store T (this + T.bytes)
          (seg.calc_offset this)).write seg.m_current src).write
            (seg.m_current + src.length) [0]) this = (src.length : Int) + 1 := by
  have hv2 := hv
  obtain ⟨h1, h2, h3, _, h5⟩ := hv
  rw [get_free_memory_of_le seg h3 h5] at hfree
  have hfit : seg.m_current + src.length + 1 ≤ seg.m_end := by omega
  have hn : T.rep src.length := by
    have := lo_le_zero T
    unfold IntTy.rep at *; omega
  have hp : T.promote.wrap ((src.length : Int) + 1) = ((src.length + 1 : Nat) : Int) := by
    rw [wrap_of_rep _ _ (rep_promote T _ hn1)]; push_cast; rfl
  have hts : toSize (T.promote.wrap ((src.length : Int) + 1)) = src.length + 1 := by
    rw [hp]; exact toSize_of_nat _ (by omega)
  have hal := alloc_of_fits seg (src.length + 1) (by omega) h5
  have halloc : (seg.alloc (toSize (T.promote.wrap ((src.length : Int) + 1)))).1 ≠ 0 := by
    rw [hts, hal]; show seg.m_current ≠ 0; omega
  have heq := string_assign_eq T this src seg m hv2 hne hdisj hn hfit halloc
  rw [hts, hal] at heq
  refine ⟨heq, ?_⟩
  have hsz := string_size_after_stores T this src.length seg m hn
  obtain ⟨r1, _, _, _⟩ := string_reads_after_assign T this src seg.m_current _
    hdisj (by omega) hsz
  have hlen : 0 < src.length := List.length_pos.mpr hne
  have hne0 : (src.length : Int) ≠ 0 := by omega
  unfold string._data_bytes string.size_plus_one
  rw [r1, hts, if_pos hne0, Nat.mul_one, Nat.mod_eq_of_lt (by omega)]
  rw [wrap_of_rep T _ (by push_cast; exact hn1)]
  push_cast; rfl

/-- C8 (amended): a non-empty source of length `n` with `n + 1` representable in the
size type, assigned into a segment over a real buffer with at least `n + 1` free
bytes to a header outside the payload span: `assign` returns true, the cursor is
`n + 1` bytes further on and `_data_bytes()` is `n + 1` afterwards.  The empty
source: `assign` returns true, `size()` is `0`, the segment is unchanged and so is
the stored displacement. -/
theorem string_assign_bytes (T : IntTy) (this : Nat) (src : List Nat) (seg : segment_manager)
    (m : Mem) (hv : seg.valid) :
    (src ≠ [] → T.rep ((src.length : Int) + 1) → src.length + 1 ≤ seg.get_free_memory →
      (this + string.sizeof T ≤ seg.m_current ∨ seg.m_current + src.length + 1 ≤ this) →
      (string.assign T this src seg m).out = .ok true ∧
      (string.assign T this src seg m).seg.m_current = seg.m_current + (src.length + 1) ∧
      string._data_bytes T (string.assign T this src seg m).mem this = (src.length : Int) + 1) ∧
    (src = [] →
      (string.assign T this src seg m).out = .ok true ∧
      string.size T (string.assign T this src seg m).mem this = 0 ∧
      (string.assign T this src seg m).seg = seg ∧
      string.m_offset T (string.assign T this src seg m).mem this = string.m_offset T m this) := by
  constructor
  · intro hne hn1 hfree hdisj
    obtain ⟨heq, hdb⟩ := string_assign_fits T this src seg m hv hne hdisj hn1 hfree
    rw [heq]
    exact ⟨rfl, rfl, hdb⟩
  · intro he
    subst he
    have hsz1 : string.m_size T (m.store T this ((([] : List Nat).length : Nat) : Int)) this = 0 := by
      unfold string.m_size
      rw [load_store_same]
      exact wrap_of_rep T _ ⟨lo_le_zero T, by cases T <;> simp [IntTy.hi]⟩
    have heq : string.assign T this [] seg m
        = { mem := m.store T this ((([] : List Nat).length : Nat) : Int), seg := seg,
            out := .ok true } := by
      simp only [string.assign, hsz1, if_true]
    rw [heq]
    refine ⟨rfl, hsz1, rfl, ?_⟩
    show string.m_offset T (m.store T this _) this = _
    unfold string.m_offset
    exact load_store_other _ _ _ _ _ _ (by omega)


/-- C7, for the four bytes of `road` assigned to a string whose header is the first object of
a 256-byte segment. -/
theorem string_assign_spec_witness :
    string.size .i16 (string.assign .i16 4096 road (segment_manager.mk 4096 256 4100 4352) mem0).mem
      4096 = 4 ∧
    string.to_std .i16 (string.assign .i16 4096 road (segment_manager.mk 4096 256 4100 4352) mem0).mem
      4096 = road :=
  have h := string_assign_spec .i16 4096 road (segment_manager.mk 4096 256 4100 4352) mem0
    (by decide) (by decide) (by decide) (by decide) (by decide) (by decide) (by decide) (by rfl)
  ⟨h.1, h.2.2.2.2.2⟩

/-- C8 (amended), for the four bytes of `road` and for the empty source. -/
theorem string_assign_bytes_witness :
    (string.assign .i16 4096 road (segment_manager.mk 4096 256 4100 4352) mem0).seg.m_current
      = 4100 + (4 + 1) ∧
    (string.assign .i16 4096 [] (segment_manager.mk 4096 256 4100 4352) mem0).seg
      = segment_manager.mk 4096 256 4100 4352 :=
  have h := string_assign_bytes .i16 4096 road (segment_manager.mk 4096 256 4100 4352) mem0
    (by decide)
  have h2 := string_assign_bytes .i16 4096 [] (segment_manager.mk 4096 256 4100 4352) mem0
    (by decide)
  ⟨(h.1 (by decide) (by decide) (by decide) (by decide)).2.1, (h2.2 rfl).2.2.1⟩


/-- C3, at a 16-bit signed pointer stored at `0x1000`: set from the raw address `0x1004`, from
a pointer stored at `5000` that resolves to `0x1004`, and from null. -/
theorem offset_ptr_round_trip_witness :
    offset_ptr.get 4096 (offset_ptr.of_raw .i16 4096 4100) = 4100 ∧
    offset_ptr.get 4096 (offset_ptr.of_ptr .i16 4096 5000 (-900)) = 4100 ∧
    offset_ptr.of_ptr .i16 4096 5000 1 = 1 :=
  have h := offset_ptr_round_trip .i16 4096
  ⟨(h.1 4100 (by decide) (by decide) (by decide) (by decide)).1,
   (h.1 4100 (by decide) (by decide) (by decide) (by decide)).2 5000 (-900) (by decide),
   (h.2.2 5000 1 (by decide)).1⟩

/-- A non-empty `assign` whose length fits the size type, whose `m_size + 1` fits the
promoted type and whose payload fits the segment: it returns true, takes
`src.size() + 1` bytes, and `_data_bytes()` is `src.size() + 1` converted to the
size type. -/
theorem string_assign_promoted (T : IntTy) (this : Nat) (src : List Nat)
    (seg : segment_manager) (m : Mem) (hv : seg.valid) (hne : src ≠ [])
    (hdisj : this + string.sizeof T ≤ seg.m_current ∨ seg.m_current + src.length + 1 ≤ this)
    (hn : T.rep src.length) (hp1 : T.promote.rep ((src.length : Int) + 1))
    (hfree : src.length + 1 ≤ seg.get_free_memory) :
    (string.assign T this src seg m).out = .ok true ∧
    (string.assign T this src seg m).seg.m_current = seg.m_current + (src.length + 1) ∧
    string._data_bytes T (string.assign T this src seg m).mem this
      = T.wrap ((src.length : Int) + 1) := by
  have hv2 := hv
  obtain ⟨h1, h2, h3, _, h5⟩ := hv
  rw [get_free_memory_of_le seg h3 h5] at hfree
  have hfit : seg.m_current + src.length + 1 ≤ seg.m_end := by omega
  have hp : T.promote.wrap ((src.length : Int) + 1) = ((src.length + 1 : Nat) : Int) := by
    rw [wrap_of_rep _ _ hp1]; push_cast; rfl
  have hts : toSize (T.promote.wrap ((src.length : Int) + 1)) = src.length + 1 := by
    rw [hp]; exact toSize_of_nat _ (by omega)
  have hal := alloc_of_fits seg (src.length + 1) (by omega) h5
  have halloc : (seg.alloc (toSize (T.promote.wrap ((src.length : Int) + 1)))).1 ≠ 0 := by
    rw [hts, hal]; show seg.m_current ≠ 0; omega
  have heq := string_assign_eq T this src seg m hv2 hne hdisj hn hfit halloc
  rw [hts, hal] at heq
  rw [heq]
  refine ⟨rfl, rfl, ?_⟩
  have hsz := string_size_after_stores T this src.length seg m hn
  obtain ⟨r1, _, _, _⟩ := string_reads_after_assign T this src seg.m_current _
    hdisj (by omega) hsz
  have hlen : 0 < src.length := List.length_pos.mpr hne
  have hne0 : (src.length : Int) ≠ 0 := by omega
  show string._data_bytes T _ this = _
  unfold string._data_bytes string.size_plus_one
  rw [r1, hts, if_pos hne0, Nat.mul_one, Nat.mod_eq_of_lt (by omega)]
  push_cast; rfl

/-- With the 16-bit signed size type, `assign` of any source of 32767 bytes into a
segment with 39996 free bytes returns true and takes 32768 bytes, and
`_data_bytes()` is `-32768` afterwards. -/
theorem string_data_bytes_at_max (src : List Nat) (hlen : src.length = 32767) :
    (string.assign .i16 4096 src (segment_manager.mk 4096 40000 4100 44096) mem0).out
      = .ok true ∧
    (string.assign .i16 4096 src (segment_manager.mk 4096 40000 4100 44096) mem0).seg.m_current
      = 4100 + (32767 + 1) ∧
    string._data_bytes .i16
      (string.assign .i16 4096 src (segment_manager.mk 4096 40000 4100 44096) mem0).mem 4096
      = -32768 := by
  have hne : src ≠ [] := by
    intro h; rw [h] at hlen; simp at hlen
  obtain ⟨h1, h2, h3⟩ := string_assign_promoted .i16 4096 src
    (segment_manager.mk 4096 40000 4100 44096) mem0 (by decide) hne (by rw [hlen]; decide)
    (by rw [hlen]; decide) (by rw [hlen]; decide) (by rw [hlen]; decide)
  rw [hlen] at h2 h3
  exact ⟨h1, h2, h3⟩


/-- C8 fails as stated: with the 16-bit signed size type a source of 32767 bytes is
assigned successfully and moves the cursor by 32768 bytes, but `_data_bytes()`
afterwards is `-32768`. -/
theorem string_data_bytes_overflow :
    (string.assign .i16 4096 (List.replicate 32767 65)
      (segment_manager.mk 4096 40000 4100 44096) mem0).out = .ok true ∧
    (string.assign .i16 4096 (List.replicate 32767 65)
      (segment_manager.mk 4096 40000 4100 44096) mem0).seg.m_current = 4100 + (32767 + 1) ∧
    string._data_bytes .i16 (string.assign .i16 4096 (List.replicate 32767 65)
      (segment_manager.mk 4096 40000 4100 44096) mem0).mem 4096 = -32768 :=
  string_data_bytes_at_max (List.replicate 32767 65) (List.length_replicate _ _)

/-! ## `hash_map`: memory footprints -/

theorem agree_refl (lo hi : Nat) (m : Mem) : Mem.agree lo hi m m := fun _ _ _ => rfl

theorem agree_of_frames (rs : List (Nat × Nat)) (m m2 : Mem) (h : Mem.frames rs m m2)
    (lo hi : Nat) (hd : ∀ r ∈ rs, hi ≤ r.1 ∨ r.2 ≤ lo) : Mem.agree lo hi m m2 := by
  intro x hx1 hx2
  apply h
  intro r hr
  rcases hd r hr with h1 | h1 <;> omega

theorem frames_refl (rs : List (Nat × Nat)) (m : Mem) : Mem.frames rs m m := fun _ _ => rfl

theorem frames_write (m : Mem) (a : Nat) (bs : List Nat) :
    Mem.frames [(a, a + bs.length)] m (m.write a bs) := by
  intro x hx
  have := hx (a, a + bs.length) (List.mem_singleton.mpr rfl)
  exact write_of_out m a bs x this

theorem frames_store (m : Mem) (T : IntTy) (a : Nat) (v : Int) :
    Mem.frames [(a, a + T.bytes)] m (m.store T a v) := by
  have := frames_write m a (T.encode v)
  rw [encode_length] at this
  exact this

theorem frames_trans (rs rs2 : List (Nat × Nat)) (m m2 m3 : Mem) (h1 : Mem.frames rs m m2)
    (h2 : Mem.frames rs2 m2 m3) : Mem.frames (rs ++ rs2) m m3 := by
  intro x hx
  rw [h2 x (fun r hr => hx r (List.mem_append_right _ hr)),
    h1 x (fun r hr => hx r (List.mem_append_left _ hr))]

theorem frames_mono (rs rs2 : List (Nat × Nat)) (m m2 : Mem) (h : Mem.frames rs m m2)
    (hsub : ∀ r ∈ rs, ∃ r2 ∈ rs2, r2.1 ≤ r.1 ∧ r.2 ≤ r2.2) : Mem.frames rs2 m m2 := by
  intro x hx
  apply h
  intro r hr
  obtain ⟨r2, hr2, h1, h2⟩ := hsub r hr
  rcases hx r2 hr2 with h3 | h3 <;> omega

theorem load_agree (lo hi : Nat) (m m2 : Mem) (h : Mem.agree lo hi m m2) (T : IntTy) (a : Nat)
    (h1 : lo ≤ a) (h2 : a + T.bytes ≤ hi) : m2.load T a = m.load T a :=
  load_congr m m2 T a (fun k hk => h (a + k) (by omega) (by omega))

theorem read_agree (lo hi : Nat) (m m2 : Mem) (h : Mem.agree lo hi m m2) (a n : Nat)
    (h1 : lo ≤ a) (h2 : a + n ≤ hi) : m2.read a n = m.read a n :=
  read_congr m m2 a n (fun k hk => h (a + k) (by omega) (by omega))

theorem agree_mono (lo hi lo2 hi2 : Nat) (m m2 : Mem) (h : Mem.agree lo hi m m2)
    (h1 : lo ≤ lo2) (h2 : hi2 ≤ hi) : Mem.agree lo2 hi2 m m2 :=
  fun x hx1 hx2 => h x (by omega) (by omega)

/-- The fields of a node depend on the bytes of the node only. -/
theorem node_agree (T : IntTy) (K : KeyTy) (V : ValTy) (m m2 : Mem) (n : Nat)
    (h : Mem.agree n (n + hash_node.sizeof T K V) m m2) :
    hash_node.next T m2 n = hash_node.next T m n ∧
    hash_node.key T K m2 n = hash_node.key T K m n ∧
    hash_node.value T K V m2 n = hash_node.value T K V m n := by
  unfold hash_node.sizeof at h
  refine ⟨?_, ?_, ?_⟩
  · unfold hash_node.next
    rw [load_agree _ _ _ _ h T n (le_refl _) (by omega)]
  · unfold hash_node.key hash_node.key_addr
    exact read_agree _ _ _ _ h _ _ (by omega) (by omega)
  · unfold hash_node.value hash_node.value_addr
    exact read_agree _ _ _ _ h _ _ (by omega) (by omega)

/-- A chain survives every change of memory outside its nodes. -/
theorem is_chain_agree (T : IntTy) (K : KeyTy) (V : ValTy) (m m2 : Mem) :
    ∀ (l : List Node) (p : Nat), is_chain T K V m p l →
      (∀ nd ∈ l, Mem.agree nd.addr (nd.addr + hash_node.sizeof T K V) m m2) →
      is_chain T K V m2 p l := by
  intro l
  induction l with
  | nil => intro p h _; exact h
  | cons nd rest ih =>
    intro p h hag
    obtain ⟨h1, h2, h3, h4, h5⟩ := h
    obtain ⟨a1, a2, a3⟩ := node_agree T K V m m2 nd.addr (hag nd (List.mem_cons_self _ _))
    refine ⟨h1, h2, a2.trans h3, a3.trans h4, ?_⟩
    rw [a1]
    exact ih _ h5 (fun x hx => hag x (List.mem_cons_of_mem _ hx))

/-! ## `hash_map`: bucket indices and node stores -/

theorem tmod_bounds (a : Int) (B : Nat) (hB : 0 < B) :
    -(B : Int) < Int.tmod a B ∧ Int.tmod a B < B := by
  refine ⟨?_, Int.tmod_lt_of_pos a (by omega)⟩
  rcases a with n | n
  · have := @Int.tmod_nonneg (Int.ofNat n) (B : Int) (Int.ofNat_nonneg n)
    omega
  · have h : Int.tmod (Int.negSucc n) (B : Int) = -(((n + 1) % B : Nat) : Int) := rfl
    rw [h]
    have := Nat.mod_lt (n + 1) hB
    omega

theorem bucket_of_lt (T : IntTy) (K : KeyTy) (B : Nat) (key : List Nat) (hB : 0 < B)
    (hrep : T.rep B) (h0 : 0 ≤ bucket_of T K B key) :
    bucket_of T K B key = Int.tmod (T.wrap (K.hash key)) B ∧ bucket_of T K B key < B := by
  obtain ⟨h1, h2⟩ := tmod_bounds (T.wrap (K.hash key)) B hB
  have hw : T.wrap (Int.tmod (T.wrap (K.hash key)) B) = Int.tmod (T.wrap (K.hash key)) B := by
    apply wrap_of_rep
    have hx := wrap_rep T (K.hash key)
    have hl0 := lo_le_zero T
    by_cases hw0 : 0 ≤ T.wrap (K.hash key)
    · have := @Int.tmod_nonneg (T.wrap (K.hash key)) (B : Int) hw0
      unfold IntTy.rep at *
      omega
    · unfold IntTy.rep at *
      cases T <;> simp only [IntTy.lo, IntTy.hi] at * <;> omega
  unfold bucket_of at *
  rw [hw] at h0 ⊢
  exact ⟨rfl, h2⟩

theorem of_raw_get (T : IntTy) (P cur : Nat) (hc : cur < W) (h0 : cur ≠ 0)
    (hrep : T.rep ((cur : Int) - P)) (h1 : (cur : Int) - P ≠ 1) :
    offset_ptr.get P (T.wrap (offset_ptr.of_raw T P cur)) = cur := by
  unfold offset_ptr.of_raw offset_ptr.get
  rw [raw_to_offset_of_ne T P cur h0 hrep, wrap_of_rep T _ hrep, offset_to_raw_of_ne _ _ h1]
  unfold toSize W at *; omega

theorem of_raw_null_get (T : IntTy) (P : Nat) :
    offset_ptr.get P (T.wrap (offset_ptr.of_raw T P 0)) = 0 := by
  unfold offset_ptr.of_raw offset_ptr.get
  rw [raw_to_offset_null]
  have : T.wrap 1 = 1 := wrap_of_rep T 1 (by unfold IntTy.rep; cases T <;> simp [IntTy.lo, IntTy.hi])
  rw [this, offset_to_raw_one]

/-- The node at `v` after `fill`: its fields, and what else changed. -/
theorem fill_spec (T : IntTy) (K : KeyTy) (V : ValTy) (m : Mem) (v : Nat) (key value : List Nat)
    (hk : K.isKey key) (hv : V.isVal value) :
    Mem.frames [(v, v + hash_node.sizeof T K V)] m (hash_node.fill T K m v key value) ∧
    hash_node.key T K (hash_node.fill T K m v key value) v = key ∧
    hash_node.value T K V (hash_node.fill T K m v key value) v = value ∧
    hash_node.next T (hash_node.fill T K m v key value) v = 0 := by
  have hb := bytes_pos T
  refine ⟨?_, ?_, ?_, ?_⟩
  · unfold hash_node.fill
    have f1 := frames_write m (hash_node.value_addr T K v) value
    have f2 := frames_write (m.write (hash_node.value_addr T K v) value) (hash_node.key_addr T v) key
    have f3 := frames_store ((m.write (hash_node.value_addr T K v) value).write
      (hash_node.key_addr T v) key) T v (offset_ptr.of_raw T v 0)
    have f := frames_trans _ _ _ _ _ (frames_trans _ _ _ _ _ f1 f2) f3
    apply frames_mono _ _ _ _ f
    intro r hr
    refine ⟨(v, v + hash_node.sizeof T K V), List.mem_singleton.mpr rfl, ?_⟩
    simp only [List.mem_append, List.mem_singleton, List.cons_append, List.nil_append,
      List.mem_cons, List.mem_nil_iff, or_false] at hr
    unfold hash_node.value_addr hash_node.key_addr hash_node.sizeof at *
    rw [hk.1, hv.1] at hr
    rcases hr with rfl | rfl | rfl <;> simp <;> omega
  · unfold hash_node.fill hash_node.key
    unfold Mem.store
    rw [read_write_other _ _ _ _ _ (by rw [encode_length]; unfold hash_node.key_addr; omega)]
    have := read_write_same (m.write (hash_node.value_addr T K v) value) (hash_node.key_addr T v)
      key hk.2
    rw [hk.1] at this
    exact this
  · unfold hash_node.fill hash_node.value
    unfold Mem.store
    rw [read_write_other _ _ _ _ _ (by rw [encode_length]; unfold hash_node.value_addr; omega)]
    rw [read_write_other _ _ _ _ _ (by unfold hash_node.value_addr hash_node.key_addr; rw [hk.1]; omega)]
    have := read_write_same m (hash_node.value_addr T K v) value hv.2
    rw [hv.1] at this
    exact this
  · unfold hash_node.fill hash_node.next
    rw [load_store_same]
    exact of_raw_null_get T v

theorem of_raw_null_raw (T : IntTy) (P : Nat) : T.wrap (offset_ptr.of_raw T P 0) = 1 := by
  unfold offset_ptr.of_raw
  rw [raw_to_offset_null]
  exact wrap_of_rep T 1 (by unfold IntTy.rep; cases T <;> simp [IntTy.lo, IntTy.hi])

/-- The `next` field of a filled node holds the null displacement. -/
theorem fill_next_raw (T : IntTy) (K : KeyTy) (m : Mem) (v : Nat) (key value : List Nat) :
    (hash_node.fill T K m v key value).load T v = 1 := by
  unfold hash_node.fill
  rw [load_store_same]
  exact of_raw_null_raw T v

theorem frames3_of (T : IntTy) (K : KeyTy) (V : ValTy) (m m1 m2 m3 : Mem) (this P cur : Nat)
    (f1 : Mem.frames [(cur, cur + hash_node.sizeof T K V)] m m1)
    (f2 : Mem.frames [(P, P + T.bytes)] m1 m2 ∧ Mem.frames [(this, this + T.bytes)] m2 m3 ∨
      Mem.frames [(this, this + T.bytes)] m1 m2 ∧ Mem.frames [(P, P + T.bytes)] m2 m3) :
    Mem.frames [(cur, cur + hash_node.sizeof T K V), (P, P + T.bytes), (this, this + T.bytes)]
      m m3 := by
  rcases f2 with ⟨g1, g2⟩ | ⟨g1, g2⟩
  · exact frames_trans _ _ _ _ _ (frames_trans _ _ _ _ _ f1 g1) g2
  · have f := frames_trans _ _ _ _ _ (frames_trans _ _ _ _ _ f1 g1) g2
    apply frames_mono _ _ _ _ f
    intro r hr
    refine ⟨r, ?_, le_refl _, le_refl _⟩
    simp only [List.mem_append, List.mem_singleton, List.cons_append, List.nil_append,
      List.mem_cons, List.mem_nil_iff, or_false] at hr ⊢
    tauto

/-- The effect of the tail branch of `add`. -/
theorem link_tail_linked (T : IntTy) (K : KeyTy) (V : ValTy) (m : Mem) (this P cur n : Nat)
    (key value : List Nat) (hk : K.isKey key) (hv : V.isVal value)
    (hP1 : this + T.bytes ≤ P) (hP2 : P + T.bytes ≤ cur) (hc : cur < W)
    (hrep : T.rep ((cur : Int) - P)) (h1 : (cur : Int) - P ≠ 1)
    (hsz : hash_map.m_size T m this = n) (hn : T.rep ((n : Int) + 1)) :
    Linked T K V m (hash_map.link_tail T K m this P cur key value) this P cur key value n := by
  have hb := bytes_pos T
  obtain ⟨f1, k1, v1, n1⟩ := fill_spec T K V m cur key value hk hv
  have f2 := frames_store (hash_node.fill T K m cur key value) T P (offset_ptr.of_raw T P cur)
  have hsz2 : hash_map.m_size T ((hash_node.fill T K m cur key value).store T P
      (offset_ptr.of_raw T P cur)) this = n := by
    rw [← hsz]
    unfold hash_map.m_size
    exact load_agree _ _ _ _ (agree_of_frames _ _ _ (frames_trans _ _ _ _ _ f1 f2) this
      (this + T.bytes) (by simp; omega)) T this (le_refl _) (le_refl _)
  unfold hash_map.link_tail
  simp only [hsz2]
  have f3 := frames_store ((hash_node.fill T K m cur key value).store T P
      (offset_ptr.of_raw T P cur)) T this ((n : Int) + 1)
  have ag : Mem.agree cur (cur + hash_node.sizeof T K V) (hash_node.fill T K m cur key value)
      (((hash_node.fill T K m cur key value).store T P (offset_ptr.of_raw T P cur)).store T this
        ((n : Int) + 1)) :=
    agree_of_frames _ _ _ (frames_trans _ _ _ _ _ f2 f3) _ _ (by simp; omega)
  obtain ⟨a1, a2, a3⟩ := node_agree T K V _ _ cur ag
  refine ⟨frames3_of T K V _ _ _ _ this P cur f1 (Or.inl ⟨f2, f3⟩), ?_, ?_, a2.trans k1,
    a3.trans v1, a1.trans n1,
    (load_agree _ _ _ _ ag T cur (le_refl _) (by unfold hash_node.sizeof; omega)).trans
      (fill_next_raw T K m cur key value)⟩
  · rw [load_store_same, wrap_of_rep T _ hn]
  · rw [load_store_other _ _ _ _ _ _ (by omega), load_store_same]
    exact of_raw_get T P cur hc (by omega) hrep h1

/-- The effect of the head branch of `add`. -/
theorem link_head_linked (T : IntTy) (K : KeyTy) (V : ValTy) (m : Mem) (this P cur n : Nat)
    (index : Int) (key value : List Nat) (hk : K.isKey key) (hv : V.isVal value)
    (hP1 : this + 4 * T.bytes ≤ P) (hP2 : P + T.bytes ≤ cur) (hc : cur < W)
    (hrep : T.rep ((cur : Int) - P)) (h1 : (cur : Int) - P ≠ 1)
    (hsz : hash_map.m_size T m this = n) (hn : T.rep ((n : Int) + 1))
    (hslot : hash_map.slot_addr T m this index = P) :
    Linked T K V m (hash_map.link_head T K m this index cur key value) this P cur key value n := by
  have hb := bytes_pos T
  obtain ⟨f1, k1, v1, n1⟩ := fill_spec T K V m cur key value hk hv
  have hsz1 : hash_map.m_size T (hash_node.fill T K m cur key value) this = n := by
    rw [← hsz]
    unfold hash_map.m_size
    exact load_agree _ _ _ _ (agree_of_frames _ _ _ f1 this
      (this + T.bytes) (by simp; omega)) T this (le_refl _) (le_refl _)
  have f2 := frames_store (hash_node.fill T K m cur key value) T this ((n : Int) + 1)
  have hslot2 : hash_map.slot_addr T ((hash_node.fill T K m cur key value).store T this
      ((n : Int) + 1)) this index = P := by
    rw [← hslot]
    unfold hash_map.slot_addr hash_map.m_key_table hash_map.key_table_addr
    rw [load_agree _ _ _ _ (agree_of_frames _ _ _ (frames_trans _ _ _ _ _ f1 f2) (this + 3 * T.bytes)
      (this + 3 * T.bytes + T.bytes) (by simp; omega)) T _ (le_refl _) (le_refl _)]
  unfold hash_map.link_head
  simp only [hsz1, hslot2]
  have f3 := frames_store ((hash_node.fill T K m cur key value).store T this
      ((n : Int) + 1)) T P (offset_ptr.of_raw T P cur)
  have ag : Mem.agree cur (cur + hash_node.sizeof T K V) (hash_node.fill T K m cur key value)
      (((hash_node.fill T K m cur key value).store T this ((n : Int) + 1)).store T P
        (offset_ptr.of_raw T P cur)) :=
    agree_of_frames _ _ _ (frames_trans _ _ _ _ _ f2 f3) _ _ (by simp; omega)
  obtain ⟨a1, a2, a3⟩ := node_agree T K V _ _ cur ag
  refine ⟨frames3_of T K V _ _ _ _ this P cur f1 (Or.inr ⟨f2, f3⟩), ?_, ?_, a2.trans k1,
    a3.trans v1, a1.trans n1,
    (load_agree _ _ _ _ ag T cur (le_refl _) (by unfold hash_node.sizeof; omega)).trans
      (fill_next_raw T K m cur key value)⟩
  · rw [load_store_other _ _ _ _ _ _ (by omega), load_store_same, wrap_of_rep T _ hn]
  · rw [load_store_same]
    exact of_raw_get T P cur hc (by omega) hrep h1

/-! ## `hash_map`: the invariant -/

/-- The header fields other than `m_size` depend on the header bytes after it only. -/
theorem header_agree (T : IntTy) (m m2 : Mem) (this : Nat)
    (h : Mem.agree (this + T.bytes) (this + 4 * T.bytes) m m2) :
    hash_map.m_key_table_size T m2 this = hash_map.m_key_table_size T m this ∧
    hash_map.m_capacity T m2 this = hash_map.m_capacity T m this ∧
    hash_map.m_key_table T m2 this = hash_map.m_key_table T m this := by
  refine ⟨?_, ?_, ?_⟩
  · unfold hash_map.m_key_table_size
    exact load_agree _ _ _ _ h T _ (by omega) (by omega)
  · unfold hash_map.m_capacity
    exact load_agree _ _ _ _ h T _ (by omega) (by omega)
  · unfold hash_map.m_key_table hash_map.key_table_addr
    rw [load_agree _ _ _ _ h T _ (by omega) (by omega)]

/-- The bucket slots of a well-formed map and what `seek` reads. -/
theorem inv_slot (T : IntTy) (K : KeyTy) (V : ValTy) (this B C : Nat) (nodes : List Node)
    (s : segment_manager) (m : Mem) (inv : HMInv T K V this B C nodes s m) (i : Nat)
    (hi : i < B) :
    hash_map.slot_addr T m this i = hash_map.m_key_table T m this + i * T.bytes ∧
    hash_map.seek T m this i = offset_ptr.get (hash_map.m_key_table T m this + i * T.bytes)
      (m.load T (hash_map.m_key_table T m this + i * T.bytes)) ∧
    hash_map.m_key_table T m this + i * T.bytes + T.bytes
      ≤ hash_map.m_key_table T m this + B * T.bytes := by
  obtain ⟨_, _, h3, _, h5⟩ := inv.valid
  have hmul := Nat.mul_le_mul_right T.bytes (show i + 1 ≤ B by omega)
  rw [Nat.add_mul, Nat.one_mul] at hmul
  have h1 : hash_map.slot_addr T m this i = hash_map.m_key_table T m this + i * T.bytes := by
    unfold hash_map.slot_addr
    exact toSize_add_mul _ i T.bytes (by have := inv.tbl_hi; omega)
  refine ⟨h1, ?_, by omega⟩
  unfold hash_map.seek
  rw [inv.kts_eq, h1, if_pos (by exact_mod_cast hi)]

/-- What `seek` reads depends on the header and on the slot. -/
theorem seek_agree (T : IntTy) (m m2 : Mem) (this : Nat) (index : Int)
    (h : Mem.agree (this + T.bytes) (this + 4 * T.bytes) m m2)
    (hs : Mem.agree (hash_map.slot_addr T m this index)
      (hash_map.slot_addr T m this index + T.bytes) m m2) :
    hash_map.seek T m2 this index = hash_map.seek T m this index := by
  obtain ⟨a1, _, a3⟩ := header_agree T m m2 this h
  have hsl : hash_map.slot_addr T m2 this index = hash_map.slot_addr T m this index := by
    unfold hash_map.slot_addr; rw [a3]
  unfold hash_map.seek
  rw [a1, hsl, load_agree _ _ _ _ hs T _ (le_refl _) (le_refl _)]

theorem chain_of_append (T : IntTy) (K : KeyTy) (B : Nat) (nodes : List Node) (nd : Node)
    (j : Nat) :
    chain_of T K B (nodes ++ [nd]) j
      = chain_of T K B nodes j ++ (if bucket_of T K B nd.key = j then [nd] else []) := by
  unfold chain_of
  rw [List.filter_append]
  by_cases h : bucket_of T K B nd.key = j <;> simp [List.filter, h]

/-- A chain whose last node gets a new `next` continues with the chain linked there. -/
theorem is_chain_snoc (T : IntTy) (K : KeyTy) (V : ValTy) (m m2 : Mem) (last : Node) (q : Nat)
    (rest : List Node)
    (hl : Mem.agree (last.addr + T.bytes) (last.addr + hash_node.sizeof T K V) m m2)
    (hq : hash_node.next T m2 last.addr = q) (hr : is_chain T K V m2 q rest) :
    ∀ (l : List Node) (p : Nat), is_chain T K V m p (l ++ [last]) →
      (∀ nd ∈ l, Mem.agree nd.addr (nd.addr + hash_node.sizeof T K V) m m2) →
      is_chain T K V m2 p (l ++ [last] ++ rest) := by
  intro l
  induction l with
  | nil =>
    intro p h _
    obtain ⟨h1, h2, h3, h4, _⟩ := h
    refine ⟨h1, h2, ?_, ?_, ?_⟩
    · rw [← h3]
      unfold hash_node.key hash_node.key_addr
      unfold hash_node.sizeof at hl
      exact read_agree _ _ _ _ hl _ _ (by omega) (by omega)
    · rw [← h4]
      unfold hash_node.value hash_node.value_addr
      unfold hash_node.sizeof at hl
      exact read_agree _ _ _ _ hl _ _ (by omega) (by omega)
    · rw [hq]; exact hr
  | cons nd l ih =>
    intro p h hag
    obtain ⟨h1, h2, h3, h4, h5⟩ := h
    obtain ⟨a1, a2, a3⟩ := node_agree T K V m m2 nd.addr (hag nd (List.mem_cons_self _ _))
    refine ⟨h1, h2, a2.trans h3, a3.trans h4, ?_⟩
    rw [a1]
    exact ih _ h5 (fun x hx => hag x (List.mem_cons_of_mem _ hx))

theorem seek_at (T : IntTy) (m : Mem) (this B i tbl : Nat)
    (hk : hash_map.m_key_table_size T m this = B) (ht : hash_map.m_key_table T m this = tbl)
    (hi : i < B) (hW : tbl + B * T.bytes < W) :
    hash_map.slot_addr T m this i = tbl + i * T.bytes ∧
    hash_map.seek T m this i = offset_ptr.get (tbl + i * T.bytes) (m.load T (tbl + i * T.bytes)) := by
  have hmul := Nat.mul_le_mul_right T.bytes (show i + 1 ≤ B by omega)
  rw [Nat.add_mul, Nat.one_mul] at hmul
  have h1 : hash_map.slot_addr T m this i = tbl + i * T.bytes := by
    unfold hash_map.slot_addr
    rw [ht]
    exact toSize_add_mul _ i T.bytes (by omega)
  refine ⟨h1, ?_⟩
  unfold hash_map.seek
  rw [hk, h1, if_pos (by exact_mod_cast hi)]

theorem pairwise_or {α : Type} (R : α → α → Prop) (l : List α) (h : l.Pairwise R) (x y : α)
    (hx : x ∈ l) (hy : y ∈ l) (hne : x ≠ y) : R x y ∨ R y x := by
  have h2 : l.Pairwise (fun a b => R a b ∨ R b a) := h.imp (fun hab => Or.inl hab)
  exact h2.forall (fun a b hab => hab.symm) hx hy hne

theorem slots_disjoint (tbl b i j : Nat) (h : i ≠ j) :
    tbl + i * b + b ≤ tbl + j * b ∨ tbl + j * b + b ≤ tbl + i * b := by
  rcases Nat.lt_or_gt_of_ne h with h1 | h1
  · left
    have := Nat.mul_le_mul_right b (show i + 1 ≤ j by omega)
    rw [Nat.add_mul, Nat.one_mul] at this
    omega
  · right
    have := Nat.mul_le_mul_right b (show j + 1 ≤ i by omega)
    rw [Nat.add_mul, Nat.one_mul] at this
    omega

/-- Linking a new node keeps the map well-formed. -/
theorem inv_linked (T : IntTy) (K : KeyTy) (V : ValTy) (this B C : Nat) (nodes : List Node)
    (s : segment_manager) (m : Mem) (inv : HMInv T K V this B C nodes s m)
    (key value : List Nat) (hk : K.isKey key) (hv : V.isVal value)
    (h0 : 0 ≤ bucket_of T K B key) (hnew : key ∉ nodes.map Node.key)
    (hlt : nodes.length < C)
    (hroom : s.m_current + hash_node.sizeof T K V ≤ s.m_end)
    (m2 : Mem) (P : Nat)
    (hP : (chain_of T K B nodes (bucket_of T K B key).toNat = [] ∧
            P = hash_map.m_key_table T m this + (bucket_of T K B key).toNat * T.bytes) ∨
          (∃ l last, chain_of T K B nodes (bucket_of T K B key).toNat = l ++ [last] ∧
            P = last.addr))
    (hL : Linked T K V m m2 this P s.m_current key value nodes.length) :
    HMInv T K V this B C (nodes ++ [⟨s.m_current, key, value⟩])
      { s with m_current := s.m_current + hash_node.sizeof T K V } m2 := by
  obtain ⟨v1, v2, v3, v4, v5⟩ := inv.valid
  have hb := inv.wide
  have hB : 0 < B := by
    rcases inv.buckets with h | h
    · omega
    · exact h
  have hrepB : T.rep B := by rw [← inv.kts_eq]; exact load_rep _ _ _
  obtain ⟨_, hiB⟩ := bucket_of_lt T K B key hB hrepB h0
  obtain ⟨i, hbi⟩ : ∃ i : Nat, bucket_of T K B key = (i : Int) :=
    ⟨(bucket_of T K B key).toNat, by omega⟩
  have hi : (bucket_of T K B key).toNat = i := by omega
  rw [hi] at hP
  have hiB2 : i < B := by omega
  have htl := inv.tbl_lo
  have hth := inv.tbl_hi
  unfold hash_map.sizeof at htl
  have hns : T.bytes ≤ hash_node.sizeof T K V := by unfold hash_node.sizeof; omega
  obtain ⟨hf, hsz, hget, hkey, hval, hnext, hraw⟩ := hL
  have hmulB := Nat.mul_le_mul_right T.bytes (show i + 1 ≤ B by omega)
  rw [Nat.add_mul, Nat.one_mul] at hmulB
  -- where the pointer field lies
  have hPb : hash_map.m_key_table T m this ≤ P ∧ P + T.bytes ≤ s.m_current := by
    rcases hP with ⟨_, rfl⟩ | ⟨l, last, hc, rfl⟩
    · omega
    · have hmem : last ∈ nodes := by
        have : last ∈ chain_of T K B nodes i := by rw [hc]; simp
        exact (List.mem_filter.mp this).1
      obtain ⟨b1, b2, _⟩ := inv.bounded last hmem
      omega
  have hPc : P = hash_map.m_key_table T m this + i * T.bytes ∨
      (hash_map.m_key_table T m this + B * T.bytes ≤ P ∧
        P + hash_node.sizeof T K V ≤ s.m_current) := by
    rcases hP with ⟨_, rfl⟩ | ⟨l, last, hc, rfl⟩
    · left; rfl
    · have hmem : last ∈ nodes := by
        have : last ∈ chain_of T K B nodes i := by rw [hc]; simp
        exact (List.mem_filter.mp this).1
      obtain ⟨b1, b2, _⟩ := inv.bounded last hmem
      right; omega
  have hhdr : Mem.agree (this + T.bytes) (this + 4 * T.bytes) m m2 :=
    agree_of_frames _ _ _ hf _ _ (by simp; omega)
  obtain ⟨a1, a2, a3⟩ := header_agree T m m2 this hhdr
  -- the old nodes other than the one whose `next` was set are unchanged
  have hnode : ∀ nd ∈ nodes, (P + T.bytes ≤ nd.addr ∨ nd.addr + hash_node.sizeof T K V ≤ P) →
      Mem.agree nd.addr (nd.addr + hash_node.sizeof T K V) m m2 := by
    intro nd hnd hd
    obtain ⟨b1, b2, _⟩ := inv.bounded nd hnd
    exact agree_of_frames _ _ _ hf _ _ (by simp; omega)
  have hnewchain : is_chain T K V m2 s.m_current [⟨s.m_current, key, value⟩] :=
    ⟨rfl, by show s.m_current ≠ 0; omega, hkey, hval, by rw [hnext]; rfl⟩
  refine
    { valid := ⟨v1, by show s.m_buffer ≤ s.m_current + _; omega, hroom, v4, v5⟩
      this_pos := inv.this_pos
      wide := inv.wide
      tbl_lo := by rw [a3]; exact inv.tbl_lo
      tbl_hi := by rw [a3]; show _ ≤ s.m_current + _; omega
      extent := inv.extent
      top := inv.top
      size_eq := by
        unfold hash_map.m_size; rw [hsz]; simp
      kts_eq := by rw [a1]; exact inv.kts_eq
      cap_eq := by rw [a2]; exact inv.cap_eq
      le_cap := by simp; omega
      buckets := inv.buckets
      chains := ?_
      bounded := ?_
      disjoint := ?_
      keys_nodup := ?_
      null_slots := ?_
      null_next := ?_ }
  · intro j hj
    rw [chain_of_append]
    obtain ⟨sl, sk⟩ := seek_at T m2 this B j (hash_map.m_key_table T m this)
      (by rw [a1]; exact inv.kts_eq) a3 hj (by omega)
    obtain ⟨sl0, sk0⟩ := seek_at T m this B j (hash_map.m_key_table T m this)
      inv.kts_eq rfl hj (by omega)
    have hmulj := Nat.mul_le_mul_right T.bytes (show j + 1 ≤ B by omega)
    rw [Nat.add_mul, Nat.one_mul] at hmulj
    by_cases hji : j = i
    · subst hji
      simp only [hbi, if_true]
      rcases hP with ⟨hc, rfl⟩ | ⟨l, last, hc, rfl⟩
      · rw [hc, List.nil_append, sk, hget]
        exact hnewchain
      · have hsame : hash_map.seek T m2 this j = hash_map.seek T m this j := by
          apply seek_agree T m m2 this j hhdr
          rw [sl0]
          have hlast : hash_map.m_key_table T m this + B * T.bytes ≤ last.addr := by
            rcases hPc with h | h
            · have hmem : last ∈ nodes := by
                have : last ∈ chain_of T K B nodes j := by rw [hc]; simp
                exact (List.mem_filter.mp this).1
              exact (inv.bounded last hmem).1
            · exact h.1
          exact agree_of_frames _ _ _ hf _ _ (by simp; omega)
        rw [hsame, hc]
        have hch := inv.chains j hj
        rw [hc] at hch
        have hpw : (l ++ [last]).Pairwise
            (fun x y => x.addr + hash_node.sizeof T K V ≤ y.addr) := by
          rw [← hc]; exact inv.disjoint.sublist (List.filter_sublist _)
        have hmeml : ∀ nd ∈ l, nd ∈ nodes := by
          intro nd hnd
          have : nd ∈ chain_of T K B nodes j := by rw [hc]; simp [hnd]
          exact (List.mem_filter.mp this).1
        apply is_chain_snoc T K V m m2 last s.m_current [⟨s.m_current, key, value⟩] ?_ hget
          hnewchain l _ hch
        · intro nd hnd
          apply hnode nd (hmeml nd hnd)
          right
          exact (List.pairwise_append.mp hpw).2.2 nd hnd last (by simp)
        · apply agree_of_frames _ _ _ hf _ _
          simp
          have hmem : last ∈ nodes := by
            have : last ∈ chain_of T K B nodes j := by rw [hc]; simp
            exact (List.mem_filter.mp this).1
          obtain ⟨b1, b2, _⟩ := inv.bounded last hmem
          omega
    · have hne : ¬ bucket_of T K B key = (j : Int) := by omega
      simp only [hne, if_false, List.append_nil]
      have hsame : hash_map.seek T m2 this j = hash_map.seek T m this j := by
        apply seek_agree T m m2 this j hhdr
        rw [sl0]
        apply agree_of_frames _ _ _ hf _ _
        simp
        rcases hP with ⟨_, rfl⟩ | ⟨l, last, hc, rfl⟩
        · have := slots_disjoint (hash_map.m_key_table T m this) T.bytes i j (Ne.symm hji)
          omega
        · have hmem : last ∈ nodes := by
            have : last ∈ chain_of T K B nodes i := by rw [hc]; simp
            exact (List.mem_filter.mp this).1
          have := (inv.bounded last hmem).1
          omega
      rw [hsame]
      apply is_chain_agree T K V m m2 _ _ (inv.chains j hj)
      intro nd hnd
      have hndn : nd ∈ nodes := (List.mem_filter.mp hnd).1
      have hndb : bucket_of T K B nd.key = (j : Int) := by
        have := (List.mem_filter.mp hnd).2
        simpa using this
      apply hnode nd hndn
      obtain ⟨b1, b2, _⟩ := inv.bounded nd hndn
      rcases hP with ⟨_, rfl⟩ | ⟨l, last, hc, rfl⟩
      · left; omega
      · have hmem : last ∈ chain_of T K B nodes i := by rw [hc]; simp
        have hlastn : last ∈ nodes := (List.mem_filter.mp hmem).1
        have hlastb : bucket_of T K B last.key = (i : Int) := by
          have := (List.mem_filter.mp hmem).2
          simpa using this
        have hne2 : nd ≠ last := by
          intro h; rw [h] at hndb; omega
        rcases pairwise_or _ _ inv.disjoint nd last hndn hlastn hne2 with h | h
        · right; exact h
        · left; omega
  · intro nd hnd
    rw [a3]
    rcases List.mem_append.mp hnd with h | h
    · obtain ⟨b1, b2, b3⟩ := inv.bounded nd h
      exact ⟨b1, by show _ ≤ s.m_current + _; omega, b3⟩
    · rw [List.mem_singleton.mp h]
      exact ⟨hth, le_refl _, h0, hk, hv⟩
  · rw [List.pairwise_append]
    refine ⟨inv.disjoint, List.pairwise_singleton _ _, ?_⟩
    intro a ha b hb2
    rw [List.mem_singleton.mp hb2]
    exact (inv.bounded a ha).2.1
  · rw [List.map_append, List.nodup_append]
    refine ⟨inv.keys_nodup, by simp, ?_⟩
    intro x hx hx2
    simp at hx2
    rw [hx2] at hx
    exact hnew hx
  · intro j hj hsk
    rw [a3]
    obtain ⟨sl, sk⟩ := seek_at T m2 this B j (hash_map.m_key_table T m this)
      (by rw [a1]; exact inv.kts_eq) a3 hj (by omega)
    obtain ⟨sl0, sk0⟩ := seek_at T m this B j (hash_map.m_key_table T m this)
      inv.kts_eq rfl hj (by omega)
    have hmulj := Nat.mul_le_mul_right T.bytes (show j + 1 ≤ B by omega)
    rw [Nat.add_mul, Nat.one_mul] at hmulj
    by_cases hPj : P = hash_map.m_key_table T m this + j * T.bytes
    · rw [sk, ← hPj, hget] at hsk
      omega
    · have hag : Mem.agree (hash_map.m_key_table T m this + j * T.bytes)
          (hash_map.m_key_table T m this + j * T.bytes + T.bytes) m m2 := by
        apply agree_of_frames _ _ _ hf _ _
        simp
        rcases hPc with h | h
        · have hji : i ≠ j := fun hx => hPj (by rw [h, hx])
          have := slots_disjoint (hash_map.m_key_table T m this) T.bytes i j hji
          omega
        · omega
      have hl := load_agree _ _ _ _ hag T _ (le_refl _) (le_refl _)
      rw [hl]
      apply inv.null_slots j hj
      rw [sk0, ← hl, ← sk]
      exact hsk
  · intro nd hnd hnx
    rcases List.mem_append.mp hnd with h | h
    · obtain ⟨b1, b2, _⟩ := inv.bounded nd h
      by_cases hPn : P = nd.addr
      · unfold hash_node.next at hnx
        rw [← hPn, hget] at hnx
        omega
      · have hd : P + T.bytes ≤ nd.addr ∨ nd.addr + hash_node.sizeof T K V ≤ P := by
          rcases hP with ⟨_, rfl⟩ | ⟨l, last, hc, rfl⟩
          · left; omega
          · have hmem : last ∈ nodes := by
              have : last ∈ chain_of T K B nodes i := by rw [hc]; simp
              exact (List.mem_filter.mp this).1
            have hne2 : nd ≠ last := fun hx => hPn (by rw [hx])
            rcases pairwise_or _ _ inv.disjoint nd last h hmem hne2 with h3 | h3
            · right; exact h3
            · left; omega
        have hag := hnode nd h hd
        obtain ⟨n1, _, _⟩ := node_agree T K V m m2 nd.addr hag
        rw [load_agree _ _ _ _ hag T nd.addr (le_refl _) (by omega)]
        apply inv.null_next nd h
        rw [← n1]
        exact hnx
    · rw [List.mem_singleton.mp h]
      exact hraw

/-- The head of a non-empty chain. -/
theorem is_chain_head (T : IntTy) (K : KeyTy) (V : ValTy) (m : Mem) (p : Nat) (nd : Node)
    (rest : List Node) (h : is_chain T K V m p (nd :: rest)) :
    p = nd.addr ∧ p ≠ 0 ∧ hash_node.key T K m p = nd.key ∧
      hash_node.value T K V m p = nd.val ∧
      is_chain T K V m (hash_node.next T m p) rest := by
  obtain ⟨h1, h2, h3, h4, h5⟩ := h
  subst h1
  exact ⟨rfl, h2, h3, h4, h5⟩

/-- The walk of `add` along a chain: a node with the key ends it with `false`;
otherwise the new node is linked after the last node of the chain. -/
theorem add_walk_spec (T : IntTy) (K : KeyTy) (V : ValTy) (this : Nat) (key value : List Nat)
    (seg : segment_manager) (m : Mem) (last : Node) :
    ∀ (l : List Node) (p fuel : Nat), is_chain T K V m p (l ++ [last]) →
      (l ++ [last]).length ≤ fuel →
      (key ∈ (l ++ [last]).map Node.key →
        hash_map.add_walk T K V this key value seg m fuel p
          = some { mem := m, seg := seg, out := .ok false }) ∧
      (key ∉ (l ++ [last]).map Node.key →
        hash_map.add_walk T K V this key value seg m fuel p
          = if (seg.alloc (hash_node.sizeof T K V)).1 = 0 then
              some { mem := m, seg := (seg.alloc (hash_node.sizeof T K V)).2,
                     out := .error hash_map.no_memory }
            else
              some { mem := hash_map.link_tail T K m this last.addr
                       (seg.alloc (hash_node.sizeof T K V)).1 key value,
                     seg := (seg.alloc (hash_node.sizeof T K V)).2, out := .ok true }) := by
  intro l
  induction l with
  | nil =>
    intro p fuel hc hf
    obtain ⟨h1, h2, h3, h4, h5⟩ := is_chain_head T K V m p last [] hc
    have h5' : hash_node.next T m p = 0 := h5
    obtain ⟨f, rfl⟩ : ∃ f, fuel = f + 1 := ⟨fuel - 1, by simp at hf; omega⟩
    constructor
    · intro hmem
      have hk : last.key = key := by simpa [eq_comm] using hmem
      unfold hash_map.add_walk
      rw [if_neg (by rw [h3, hk]; simp)]
    · intro hnm
      have hk : ¬ last.key = key := by simpa [eq_comm] using hnm
      unfold hash_map.add_walk
      rw [if_pos ⟨h2, by rw [h3]; exact hk⟩, if_pos h5', ← h1]
  | cons nd l ih =>
    intro p fuel hc hf
    obtain ⟨h1, h2, h3, h4, h5⟩ := is_chain_head T K V m p nd (l ++ [last]) hc
    obtain ⟨f, rfl⟩ : ∃ f, fuel = f + 1 := ⟨fuel - 1, by simp at hf; omega⟩
    have hnext : hash_node.next T m p ≠ 0 := by
      cases l with
      | nil => exact (is_chain_head T K V m _ last [] h5).2.1
      | cons x xs => exact (is_chain_head T K V m _ x (xs ++ [last]) h5).2.1
    obtain ⟨ih1, ih2⟩ := ih (hash_node.next T m p) f h5 (by simp at hf ⊢; omega)
    by_cases hk : nd.key = key
    · constructor
      · intro _
        unfold hash_map.add_walk
        rw [if_neg (by rw [h3, hk]; simp)]
      · intro hnm
        exact absurd (by simp [hk]) hnm
    · have hstep : hash_map.add_walk T K V this key value seg m (f + 1) p
          = hash_map.add_walk T K V this key value seg m f (hash_node.next T m p) := by
        conv => lhs; unfold hash_map.add_walk
        rw [if_pos ⟨h2, by rw [h3]; exact hk⟩, if_neg hnext]
      rw [hstep]
      constructor
      · intro hmem
        apply ih1
        simp only [List.cons_append, List.map_cons, List.mem_cons] at hmem
        rcases hmem with h | h
        · exact absurd h.symm hk
        · exact h
      · intro hnm
        apply ih2
        intro h
        apply hnm
        simp only [List.cons_append, List.map_cons, List.mem_cons]
        exact Or.inr h

theorem key2index_eq (T : IntTy) (K : KeyTy) (V : ValTy) (this B C : Nat) (nodes : List Node)
    (s : segment_manager) (m : Mem) (inv : HMInv T K V this B C nodes s m) (hB : 0 < B)
    (key : List Nat) : hash_map.key2index T K m this key = bucket_of T K B key := by
  unfold hash_map.key2index bucket_of
  rw [inv.kts_eq, if_pos (by omega)]

/-- The chain of the bucket of `key` holds `key` exactly when the map does. -/
theorem mem_chain_keys (T : IntTy) (K : KeyTy) (B : Nat) (nodes : List Node) (key : List Nat)
    (i : Nat) (hi : bucket_of T K B key = (i : Int)) :
    key ∈ (chain_of T K B nodes i).map Node.key ↔ key ∈ nodes.map Node.key := by
  unfold chain_of
  simp only [List.mem_map, List.mem_filter, decide_eq_true_eq]
  constructor
  · rintro ⟨nd, ⟨h1, _⟩, h3⟩; exact ⟨nd, h1, h3⟩
  · rintro ⟨nd, h1, h3⟩; exact ⟨nd, ⟨h1, by rw [h3]; exact hi⟩, h3⟩

theorem list_snoc_cases {α : Type} (l : List α) : l = [] ∨ ∃ l2 a, l = l2 ++ [a] := by
  rcases List.eq_nil_or_concat l with h | ⟨L, b, h⟩
  · exact Or.inl h
  · exact Or.inr ⟨L, b, by rw [h, List.concat_eq_append]⟩

/-- One `add` on a well-formed map, for a key whose bucket index is not negative. -/
theorem add_spec (T : IntTy) (K : KeyTy) (V : ValTy) (this B C : Nat) (nodes : List Node)
    (s : segment_manager) (m : Mem) (inv : HMInv T K V this B C nodes s m)
    (key value : List Nat) (hk : K.isKey key) (hv : V.isVal value)
    (h0 : 0 ≤ bucket_of T K B key) (fuel : Nat) (hfuel : nodes.length < fuel) :
    ((C ≤ nodes.length ∨ key ∈ nodes.map Node.key) →
      hash_map.add T K V fuel this key value s m = some { mem := m, seg := s, out := .ok false }) ∧
    (nodes.length < C → key ∉ nodes.map Node.key →
      s.m_end < s.m_current + hash_node.sizeof T K V →
      hash_map.add T K V fuel this key value s m
        = some { mem := m, seg := s, out := .error hash_map.no_memory }) ∧
    (nodes.length < C → key ∉ nodes.map Node.key →
      s.m_current + hash_node.sizeof T K V ≤ s.m_end →
      ∃ m2 P, hash_map.add T K V fuel this key value s m
          = some { mem := m2,
                   seg := { s with m_current := s.m_current + hash_node.sizeof T K V },
                   out := .ok true } ∧
        Linked T K V m m2 this P s.m_current key value nodes.length ∧
        hash_map.m_key_table T m this ≤ P ∧ P + T.bytes ≤ s.m_current ∧
        HMInv T K V this B C (nodes ++ [⟨s.m_current, key, value⟩])
          { s with m_current := s.m_current + hash_node.sizeof T K V } m2) := by
  obtain ⟨v1, v2, v3, v4, v5⟩ := inv.valid
  have hb := inv.wide
  have hrepC : T.rep C := by rw [← inv.cap_eq]; exact load_rep _ _ _
  have hrepB : T.rep B := by rw [← inv.kts_eq]; exact load_rep _ _ _
  have hcap : hash_map.add T K V fuel this key value s m
      = if (nodes.length : Int) ≥ C then some { mem := m, seg := s, out := .ok false }
        else
          if hash_map.seek T m this (hash_map.key2index T K m this key) = 0 then
            if (s.alloc (hash_node.sizeof T K V)).1 = 0 then
              some { mem := m, seg := (s.alloc (hash_node.sizeof T K V)).2,
                     out := .error hash_map.no_memory }
            else
              some { mem := hash_map.link_head T K m this (hash_map.key2index T K m this key)
                       (s.alloc (hash_node.sizeof T K V)).1 key value,
                     seg := (s.alloc (hash_node.sizeof T K V)).2, out := .ok true }
          else hash_map.add_walk T K V this key value s m fuel
            (hash_map.seek T m this (hash_map.key2index T K m this key)) := by
    unfold hash_map.add
    rw [inv.size_eq, inv.cap_eq]
  by_cases hfull : C ≤ nodes.length
  · refine ⟨fun _ => ?_, fun h => absurd hfull (by omega), fun h => absurd hfull (by omega)⟩
    rw [hcap, if_pos (by exact_mod_cast hfull)]
  have hlt : nodes.length < C := by omega
  have hB : 0 < B := by
    rcases inv.buckets with h | h
    · omega
    · exact h
  obtain ⟨_, hiB⟩ := bucket_of_lt T K B key hB hrepB h0
  obtain ⟨i, hbi⟩ : ∃ i : Nat, bucket_of T K B key = (i : Int) :=
    ⟨(bucket_of T K B key).toNat, by omega⟩
  have hi : (bucket_of T K B key).toNat = i := by omega
  have hiB2 : i < B := by omega
  rw [if_neg (by omega), key2index_eq T K V this B C nodes s m inv hB, hbi] at hcap
  have hch := inv.chains i hiB2
  have hmk := mem_chain_keys T K B nodes key i hbi
  have htl := inv.tbl_lo
  have hth := inv.tbl_hi
  have hext := inv.extent
  have htop := inv.top
  unfold hash_map.sizeof at htl
  have hns : T.bytes ≤ hash_node.sizeof T K V := by unfold hash_node.sizeof; omega
  have hlo := lo_le_zero T
  have hmulB := Nat.mul_le_mul_right T.bytes (show i + 1 ≤ B by omega)
  rw [Nat.add_mul, Nat.one_mul] at hmulB
  obtain ⟨sl0, sk0, _⟩ := inv_slot T K V this B C nodes s m inv i hiB2
  rcases list_snoc_cases (chain_of T K B nodes i) with hnil | ⟨l, last, hsn⟩
  · -- the bucket is empty
    rw [hnil] at hch hmk
    have hseek : hash_map.seek T m this (i : Int) = 0 := hch
    rw [if_pos hseek] at hcap
    have hnk : key ∉ nodes.map Node.key := by rw [← hmk]; simp
    refine ⟨fun h => ?_, fun _ _ hex => ?_, fun _ _ hroom => ?_⟩
    · rcases h with h | h
      · omega
      · exact absurd h hnk
    · rw [hcap, alloc_of_exceeds s _ hex (by omega)]
      simp
    · rw [alloc_of_fits s _ hroom v5] at hcap
      have hL := link_head_linked T K V m this
        (hash_map.m_key_table T m this + i * T.bytes) s.m_current nodes.length (i : Int)
        key value hk hv (by omega) (by omega) (by omega)
        (by unfold IntTy.rep; omega) (by omega) inv.size_eq
        (by unfold IntTy.rep at *; omega) sl0
      refine ⟨_, hash_map.m_key_table T m this + i * T.bytes, ?_, hL, by omega, by omega, ?_⟩
      · rw [hcap, if_neg (by show s.m_current ≠ 0; omega)]
      · exact inv_linked T K V this B C nodes s m inv key value hk hv h0 hnk hlt hroom _ _
          (Or.inl ⟨by rw [hi]; exact hnil, by rw [hi]⟩) hL
  · -- the bucket has a chain
    rw [hsn] at hch hmk
    have hseek : hash_map.seek T m this (i : Int) ≠ 0 := by
      cases l with
      | nil => exact (is_chain_head T K V m _ last [] hch).2.1
      | cons x xs => exact (is_chain_head T K V m _ x (xs ++ [last]) hch).2.1
    rw [if_neg hseek] at hcap
    have hlen : (l ++ [last]).length ≤ fuel := by
      have := (List.filter_sublist (l := nodes)
        (p := fun nd => decide (bucket_of T K B nd.key = (i : Int)))).length_le
      unfold chain_of at hsn
      rw [hsn] at this
      omega
    obtain ⟨w1, w2⟩ := add_walk_spec T K V this key value s m last l _ fuel hch hlen
    have hlastmem : last ∈ nodes := by
      have : last ∈ chain_of T K B nodes i := by rw [hsn]; simp
      exact (List.mem_filter.mp this).1
    obtain ⟨b1, b2, _⟩ := inv.bounded last hlastmem
    refine ⟨fun h => ?_, fun _ hnk hex => ?_, fun _ hnk hroom => ?_⟩
    · rcases h with h | h
      · omega
      · rw [hcap]; exact w1 (hmk.mpr h)
    · rw [hcap, w2 (fun h => hnk (hmk.mp h)), alloc_of_exceeds s _ hex (by omega)]
      simp
    · rw [w2 (fun h => hnk (hmk.mp h)), alloc_of_fits s _ hroom v5] at hcap
      have hL := link_tail_linked T K V m this last.addr s.m_current nodes.length
        key value hk hv (by omega) (by omega) (by omega)
        (by unfold IntTy.rep; omega) (by omega) inv.size_eq
        (by unfold IntTy.rep at *; omega)
      refine ⟨_, last.addr, ?_, hL, by omega, by omega, ?_⟩
      · rw [hcap, if_neg (by show s.m_current ≠ 0; omega)]
      · exact inv_linked T K V this B C nodes s m inv key value hk hv h0 hnk hlt hroom _ _
          (Or.inr ⟨l, last, by rw [hi]; exact hsn, rfl⟩) hL

/-- The lookup walk along a chain stops at the first node that holds the key, or at
null after the last node. -/
theorem walk_spec (T : IntTy) (K : KeyTy) (V : ValTy) (key : List Nat) (m : Mem) :
    ∀ (l : List Node) (p fuel : Nat), is_chain T K V m p l → l.length < fuel →
      hash_map.walk T K key m fuel p
        = some (match l.find? (fun nd => decide (nd.key = key)) with
                | some nd => nd.addr
                | none => 0) := by
  intro l
  induction l with
  | nil =>
    intro p fuel hc hf
    obtain ⟨f, rfl⟩ : ∃ f, fuel = f + 1 := ⟨fuel - 1, by simp at hf; omega⟩
    have hp : p = 0 := hc
    unfold hash_map.walk
    rw [if_neg (by simp [hp])]
    simp [hp]
  | cons nd l ih =>
    intro p fuel hc hf
    obtain ⟨h1, h2, h3, h4, h5⟩ := is_chain_head T K V m p nd l hc
    obtain ⟨f, rfl⟩ : ∃ f, fuel = f + 1 := ⟨fuel - 1, by simp at hf; omega⟩
    unfold hash_map.walk
    by_cases hk : nd.key = key
    · rw [if_neg (by rw [h3, hk]; simp)]
      simp [List.find?, hk, h1]
    · rw [if_pos ⟨h2, by rw [h3]; exact hk⟩, ih _ f h5 (by simp at hf; omega)]
      simp [List.find?, hk]

/-- In a well-formed map the first node of the bucket of `key` that holds `key` is
the node of the map with this key. -/
theorem find_chain (T : IntTy) (K : KeyTy) (B : Nat) (nodes : List Node) (key : List Nat)
    (i : Nat) (hi : bucket_of T K B key = (i : Int)) :
    (chain_of T K B nodes i).find? (fun nd => decide (nd.key = key))
      = nodes.find? (fun nd => decide (nd.key = key)) := by
  unfold chain_of
  induction nodes with
  | nil => rfl
  | cons nd rest ih =>
    by_cases hk : nd.key = key
    · have hb : bucket_of T K B nd.key = (i : Int) := by rw [hk]; exact hi
      rw [List.filter_cons_of_pos (by simpa using hb), List.find?_cons_of_pos _ (by simpa using hk),
        List.find?_cons_of_pos _ (by simpa using hk)]
    · by_cases hb : bucket_of T K B nd.key = (i : Int)
      · rw [List.filter_cons_of_pos (by simpa using hb),
          List.find?_cons_of_neg _ (by simpa using hk),
          List.find?_cons_of_neg _ (by simpa using hk)]
        exact ih
      · rw [List.filter_cons_of_neg (by simpa using hb),
          List.find?_cons_of_neg _ (by simpa using hk)]
        exact ih

/-- The lookups on a well-formed map, for a key whose bucket index is not negative:
`get` gives the address of the value of the node with this key, `operator[]` the
same address or that of the default value, `find` the iterator on the node or
`end()`. -/
theorem lookup_spec (T : IntTy) (K : KeyTy) (V : ValTy) (this B C : Nat) (nodes : List Node)
    (s : segment_manager) (m : Mem) (inv : HMInv T K V this B C nodes s m)
    (key : List Nat) (h0 : 0 ≤ bucket_of T K B key) (hB : 0 < B) (fuel : Nat)
    (hfuel : nodes.length < fuel) :
    hash_map.get T K fuel m this key
      = some (match nodes.find? (fun nd => decide (nd.key = key)) with
              | some nd => hash_node.value_addr T K nd.addr
              | none => 0) ∧
    hash_map.index T K fuel m this key
      = some (match nodes.find? (fun nd => decide (nd.key = key)) with
              | some nd => hash_node.value_addr T K nd.addr
              | none => hash_map.m_default_value T this) ∧
    hash_map.find T K fuel m this key
      = some (match nodes.find? (fun nd => decide (nd.key = key)) with
              | some nd => { index := bucket_of T K B key, node := nd.addr, self := this }
              | none => hash_map.end T m this) := by
  have hrepB : T.rep B := by rw [← inv.kts_eq]; exact load_rep _ _ _
  obtain ⟨_, hiB⟩ := bucket_of_lt T K B key hB hrepB h0
  obtain ⟨i, hbi⟩ : ∃ i : Nat, bucket_of T K B key = (i : Int) :=
    ⟨(bucket_of T K B key).toNat, by omega⟩
  have hiB2 : i < B := by omega
  have hlen : (chain_of T K B nodes i).length < fuel := by
    have := (List.filter_sublist (l := nodes)
      (p := fun nd => decide (bucket_of T K B nd.key = (i : Int)))).length_le
    unfold chain_of
    omega
  have hw := walk_spec T K V key m _ _ fuel (inv.chains i hiB2) hlen
  rw [find_chain T K B nodes key i hbi] at hw
  have hnz : ∀ nd, nodes.find? (fun nd => decide (nd.key = key)) = some nd → nd.addr ≠ 0 := by
    intro nd hnd
    have hmem := List.mem_of_find?_eq_some hnd
    have := (inv.bounded nd hmem).1
    have := inv.tbl_lo
    have := inv.this_pos
    omega
  unfold hash_map.get hash_map.index hash_map.find
  rw [key2index_eq T K V this B C nodes s m inv hB, hbi, hw]
  cases hf : nodes.find? (fun nd => decide (nd.key = key)) with
  | none => simp
  | some nd => simp [hnz nd hf]

/-- The loop of `init_hash` over `n` slots: every slot written holds the null
displacement 1 and resolves to null, and nothing outside these slots changes. -/
theorem init_loop_spec (T : IntTy) (tbl : Nat) (m : Mem) :
    ∀ n : Nat, tbl + n * T.bytes < W →
      Mem.frames [(tbl, tbl + n * T.bytes)] m (hash_map.init_loop T tbl (n : Int) m) ∧
      ∀ i, i < n →
        (hash_map.init_loop T tbl (n : Int) m).load T (tbl + i * T.bytes) = 1 ∧
        offset_ptr.get (tbl + i * T.bytes)
          ((hash_map.init_loop T tbl (n : Int) m).load T (tbl + i * T.bytes)) = 0 := by
  intro n
  induction n with
  | zero =>
    intro _
    refine ⟨?_, fun i hi => absurd hi (by omega)⟩
    have : hash_map.init_loop T tbl ((0 : Nat) : Int) m = m := by
      simp [hash_map.init_loop]
    rw [this]; exact frames_refl _ _
  | succ n ih =>
    intro hW
    have hW2 : tbl + n * T.bytes < W := by rw [Nat.add_mul] at hW; omega
    obtain ⟨f1, g1⟩ := ih hW2
    have haddr : toSize ((tbl : Int) + (n : Int) * (T.bytes : Int)) = tbl + n * T.bytes :=
      toSize_add_mul tbl n T.bytes hW2
    have hstep : hash_map.init_loop T tbl ((n + 1 : Nat) : Int) m
        = (hash_map.init_loop T tbl (n : Int) m).store T (tbl + n * T.bytes)
            (offset_ptr.of_raw T (tbl + n * T.bytes) 0) := by
      unfold hash_map.init_loop
      rw [Int.toNat_ofNat, Int.toNat_ofNat, List.range_succ, List.foldl_append]
      show Mem.store _ T (toSize ((tbl : Int) + (n : Int) * (T.bytes : Int))) _ = _
      rw [haddr]
    rw [hstep]
    have f2 := frames_store (hash_map.init_loop T tbl (n : Int) m) T (tbl + n * T.bytes)
      (offset_ptr.of_raw T (tbl + n * T.bytes) 0)
    refine ⟨?_, ?_⟩
    · apply frames_mono _ _ _ _ (frames_trans _ _ _ _ _ f1 f2)
      intro r hr
      refine ⟨(tbl, tbl + (n + 1) * T.bytes), List.mem_singleton.mpr rfl, ?_⟩
      simp only [List.mem_append, List.mem_singleton] at hr
      rw [Nat.add_mul]
      rcases hr with rfl | rfl
      · simp
      · simp; omega
    · intro i hi
      by_cases hin : i = n
      · subst hin
        rw [load_store_same]
        exact ⟨of_raw_null_raw T _, of_raw_null_get T _⟩
      · have hd := slots_disjoint tbl T.bytes i n hin
        rw [load_store_other _ _ _ _ _ _ (by omega)]
        exact g1 i (by omega)

/-- A successful `init_hash` on a freshly constructed header, for a bucket count not
above the capacity, leaves a well-formed empty map. -/
theorem init_hash_spec (T : IntTy) (K : KeyTy) (V : ValTy) (this C : Nat) (hs : Int)
    (s : segment_manager) (m : Mem) (B : Nat)
    (hv : s.valid) (hpos : 0 < this) (hwide : 2 ≤ T.bytes)
    (hhdr : this + hash_map.sizeof T V ≤ s.m_current)
    (hext : (s.m_end : Int) - this ≤ T.hi)
    (htop : s.m_end + hash_node.sizeof T K V < W)
    (hkts0 : hash_map.m_key_table_size T m this = 0) (hsz0 : hash_map.m_size T m this = 0)
    (hC : T.rep C) (hB : (B : Int) = if hs ≤ 0 then (C : Int) else hs) (hBC : B ≤ C)
    (hfit : s.m_current + B * T.bytes ≤ s.m_end) (hCW : s.m_current + C * T.bytes < W) :
    (hash_map.init_hash T this C s hs m).out = .ok true ∧
    (hash_map.init_hash T this C s hs m).seg
      = { s with m_current := s.m_current + B * T.bytes } ∧
    hash_map.m_key_table T (hash_map.init_hash T this C s hs m).mem this = s.m_current ∧
    Mem.frames [(this + T.bytes, this + 4 * T.bytes), (s.m_current, s.m_current + C * T.bytes)]
      m (hash_map.init_hash T this C s hs m).mem ∧
    HMInv T K V this B C [] { s with m_current := s.m_current + B * T.bytes }
      (hash_map.init_hash T this C s hs m).mem := by
  obtain ⟨v1, v2, v3, v4, v5⟩ := hv
  have hlo := lo_le_zero T
  have hhi := hi_lt_W T
  unfold hash_map.sizeof at hhdr
  have hrepB : T.rep B := by
    unfold IntTy.rep at *
    omega
  -- the header after the two stores
  have hk2 : hash_map.m_key_table_size T ((m.store T (this + 2 * T.bytes) C).store T
      (this + T.bytes) (if hs ≤ 0 then (C : Int) else hs)) this = B := by
    unfold hash_map.m_key_table_size
    rw [load_store_same, ← hB, wrap_of_rep T _ hrepB]
  have hBW : toSize (B : Int) = B := toSize_of_nat _ (by unfold IntTy.rep at hrepB; omega)
  have hal := alloc_of_fits s (B * T.bytes) hfit v5
  have heq : hash_map.init_hash T this C s hs m =
      { mem := hash_map.init_loop T s.m_current C
          (((m.store T (this + 2 * T.bytes) C).store T (this + T.bytes)
            (if hs ≤ 0 then (C : Int) else hs)).store T (hash_map.key_table_addr T this)
            (offset_ptr.of_raw T (hash_map.key_table_addr T this) s.m_current)),
        seg := { s with m_current := s.m_current + B * T.bytes }, out := .ok true } := by
    unfold hash_map.init_hash
    rw [if_neg (by rw [hkts0]; simp)]
    simp only [hk2, hBW, Nat.mod_eq_of_lt (show B * T.bytes < W by omega), hal]
    rw [if_neg (by omega)]
  rw [heq]
  obtain ⟨fl, gl⟩ := init_loop_spec T s.m_current
    (((m.store T (this + 2 * T.bytes) C).store T (this + T.bytes)
      (if hs ≤ 0 then (C : Int) else hs)).store T (hash_map.key_table_addr T this)
      (offset_ptr.of_raw T (hash_map.key_table_addr T this) s.m_current)) C hCW
  have f1 := frames_store m T (this + 2 * T.bytes) C
  have f2 := frames_store (m.store T (this + 2 * T.bytes) C) T (this + T.bytes)
    (if hs ≤ 0 then (C : Int) else hs)
  have f3 := frames_store ((m.store T (this + 2 * T.bytes) C).store T (this + T.bytes)
    (if hs ≤ 0 then (C : Int) else hs)) T (hash_map.key_table_addr T this)
    (offset_ptr.of_raw T (hash_map.key_table_addr T this) s.m_current)
  have hag : Mem.agree this (this + 4 * T.bytes)
      (((m.store T (this + 2 * T.bytes) C).store T (this + T.bytes)
        (if hs ≤ 0 then (C : Int) else hs)).store T (hash_map.key_table_addr T this)
        (offset_ptr.of_raw T (hash_map.key_table_addr T this) s.m_current))
      (hash_map.init_loop T s.m_current C
        (((m.store T (this + 2 * T.bytes) C).store T (this + T.bytes)
          (if hs ≤ 0 then (C : Int) else hs)).store T (hash_map.key_table_addr T this)
          (offset_ptr.of_raw T (hash_map.key_table_addr T this) s.m_current))) :=
    agree_of_frames _ _ _ fl _ _ (by simp; omega)
  have hsz : hash_map.m_size T (hash_map.init_loop T s.m_current C
      (((m.store T (this + 2 * T.bytes) C).store T (this + T.bytes)
        (if hs ≤ 0 then (C : Int) else hs)).store T (hash_map.key_table_addr T this)
        (offset_ptr.of_raw T (hash_map.key_table_addr T this) s.m_current))) this = 0 := by
    unfold hash_map.m_size hash_map.key_table_addr at *
    rw [load_agree _ _ _ _ hag T this (le_refl _) (by omega),
      load_store_other _ _ _ _ _ _ (by omega), load_store_other _ _ _ _ _ _ (by omega),
      load_store_other _ _ _ _ _ _ (by omega)]
    exact hsz0
  have hkts : hash_map.m_key_table_size T (hash_map.init_loop T s.m_current C
      (((m.store T (this + 2 * T.bytes) C).store T (this + T.bytes)
        (if hs ≤ 0 then (C : Int) else hs)).store T (hash_map.key_table_addr T this)
        (offset_ptr.of_raw T (hash_map.key_table_addr T this) s.m_current))) this = B := by
    unfold hash_map.m_key_table_size hash_map.key_table_addr at *
    rw [load_agree _ _ _ _ hag T _ (by omega) (by omega),
      load_store_other _ _ _ _ _ _ (by omega)]
    exact hk2
  have hcap : hash_map.m_capacity T (hash_map.init_loop T s.m_current C
      (((m.store T (this + 2 * T.bytes) C).store T (this + T.bytes)
        (if hs ≤ 0 then (C : Int) else hs)).store T (hash_map.key_table_addr T this)
        (offset_ptr.of_raw T (hash_map.key_table_addr T this) s.m_current))) this = C := by
    unfold hash_map.m_capacity hash_map.key_table_addr at *
    rw [load_agree _ _ _ _ hag T _ (by omega) (by omega),
      load_store_other _ _ _ _ _ _ (by omega), load_store_other _ _ _ _ _ _ (by omega),
      load_store_same, wrap_of_rep T _ hC]
  have htbl : hash_map.m_key_table T (hash_map.init_loop T s.m_current C
      (((m.store T (this + 2 * T.bytes) C).store T (this + T.bytes)
        (if hs ≤ 0 then (C : Int) else hs)).store T (hash_map.key_table_addr T this)
        (offset_ptr.of_raw T (hash_map.key_table_addr T this) s.m_current))) this
        = s.m_current := by
    unfold hash_map.m_key_table
    have hka : hash_map.key_table_addr T this = this + 3 * T.bytes := rfl
    rw [load_agree _ _ _ _ hag T _ (by rw [hka]; omega) (by rw [hka]; omega), load_store_same]
    apply of_raw_get T _ _ (by omega) (by omega)
    · rw [hka]; unfold IntTy.rep; push_cast; omega
    · rw [hka]; push_cast; omega
  refine ⟨rfl, rfl, htbl, ?_, ?_⟩
  · apply frames_mono _ _ _ _ (frames_trans _ _ _ _ _ (frames_trans _ _ _ _ _
      (frames_trans _ _ _ _ _ f1 f2) f3) fl)
    intro r hr
    simp only [List.mem_append, List.mem_singleton, hash_map.key_table_addr] at hr
    rcases hr with ((rfl | rfl) | rfl) | rfl
    · exact ⟨_, List.mem_cons_self _ _, by simp; omega, by simp; omega⟩
    · exact ⟨_, List.mem_cons_self _ _, by simp, by simp; omega⟩
    · exact ⟨_, List.mem_cons_self _ _, by simp; omega, by simp; omega⟩
    · exact ⟨_, List.mem_cons_of_mem _ (List.mem_singleton.mpr rfl), by simp, by simp⟩
  · have hmulBC := Nat.mul_le_mul_right T.bytes hBC
    refine
      { valid := ⟨v1, by show s.m_buffer ≤ s.m_current + _; omega, hfit, v4, v5⟩
        this_pos := hpos
        wide := hwide
        tbl_lo := by rw [htbl]; unfold hash_map.sizeof; omega
        tbl_hi := by rw [htbl]
        extent := hext
        top := htop
        size_eq := by rw [hsz]; rfl
        kts_eq := hkts
        cap_eq := hcap
        le_cap := Nat.zero_le _
        buckets := by
          by_cases h : hs ≤ 0
          · rw [if_pos h] at hB
            rcases Nat.eq_zero_or_pos C with h2 | h2
            · exact Or.inl h2
            · exact Or.inr (by omega)
          · rw [if_neg h] at hB
            exact Or.inr (by omega)
        chains := ?_
        bounded := fun nd hnd => absurd hnd (List.not_mem_nil _)
        disjoint := List.Pairwise.nil
        keys_nodup := List.nodup_nil
        null_slots := fun i hi _ => by rw [htbl]; exact (gl i (by omega)).1
        null_next := fun nd hnd => absurd hnd (List.not_mem_nil _) }
    intro i hi
    obtain ⟨_, sk⟩ := seek_at T _ this B i s.m_current hkts htbl hi (by omega)
    rw [sk, (gl i (by omega)).2]
    rfl

/-! ## `hash_map`: `insert` and the built maps -/

/-- Filling a node overwrites everything its constructor wrote. -/
theorem fill_ctor (T : IntTy) (K : KeyTy) (V : ValTy) (m : Mem) (v : Nat) (key value : List Nat)
    (hv : V.isVal value) :
    hash_node.fill T K (hash_node.ctor T K V m v) v key value = hash_node.fill T K m v key value := by
  funext x
  have h1 := hv.1
  have h2 := initBytes_length V
  have h3 := encode_length T (offset_ptr.mk_default T v)
  have h4 := encode_length T (offset_ptr.of_raw T v 0)
  simp only [hash_node.fill, hash_node.ctor, Mem.store, Mem.write, hash_node.value_addr,
    hash_node.key_addr, h1, h2, h3, h4]
  split_ifs <;> rfl

theorem link_head_ctor (T : IntTy) (K : KeyTy) (V : ValTy) (m : Mem) (this : Nat) (index : Int)
    (v : Nat) (key value : List Nat) (hv : V.isVal value) :
    hash_map.link_head T K (hash_node.ctor T K V m v) this index v key value
      = hash_map.link_head T K m this index v key value := by
  unfold hash_map.link_head
  rw [fill_ctor T K V m v key value hv]

theorem link_tail_ctor (T : IntTy) (K : KeyTy) (V : ValTy) (m : Mem) (this n : Nat)
    (v : Nat) (key value : List Nat) (hv : V.isVal value) :
    hash_map.link_tail T K (hash_node.ctor T K V m v) this n v key value
      = hash_map.link_tail T K m this n v key value := by
  unfold hash_map.link_tail
  rw [fill_ctor T K V m v key value hv]

/-- The walk of `insert` along a chain: a node with the key ends it with `false` and
this node; otherwise the new node is linked after the last node of the chain. -/
theorem insert_walk_spec (T : IntTy) (K : KeyTy) (V : ValTy) (this : Nat) (key value : List Nat)
    (hv : V.isVal value) (seg : segment_manager) (m : Mem) (last : Node) :
    ∀ (l : List Node) (p fuel : Nat), is_chain T K V m p (l ++ [last]) →
      (l ++ [last]).length ≤ fuel →
      (key ∈ (l ++ [last]).map Node.key →
        ∃ nd, nd ∈ l ++ [last] ∧ nd.key = key ∧
          hash_map.insert_walk T K V this key value seg m fuel p
            = some { mem := m, seg := seg, out := .ok ⟨false, nd.addr⟩ }) ∧
      (key ∉ (l ++ [last]).map Node.key →
        hash_map.insert_walk T K V this key value seg m fuel p
          = if (seg.alloc (hash_node.sizeof T K V)).1 = 0 then
              some { mem := m, seg := (seg.alloc (hash_node.sizeof T K V)).2,
                     out := .error (out_of_space (seg.alloc (hash_node.sizeof T K V)).2
                       (hash_node.sizeof T K V)) }
            else
              some { mem := hash_map.link_tail T K m this last.addr
                       (seg.alloc (hash_node.sizeof T K V)).1 key value,
                     seg := (seg.alloc (hash_node.sizeof T K V)).2,
                     out := .ok ⟨true, (seg.alloc (hash_node.sizeof T K V)).1⟩ }) := by
  intro l
  induction l with
  | nil =>
    intro p fuel hc hf
    obtain ⟨h1, h2, h3, h4, h5⟩ := is_chain_head T K V m p last [] hc
    have h5b : hash_node.next T m p = 0 := h5
    obtain ⟨f, rfl⟩ : ∃ f, fuel = f + 1 := ⟨fuel - 1, by simp at hf; omega⟩
    constructor
    · intro hmem
      have hk : last.key = key := by simpa [eq_comm] using hmem
      refine ⟨last, by simp, hk, ?_⟩
      unfold hash_map.insert_walk
      rw [if_neg (by rw [h3, hk]; simp), h1]
    · intro hnm
      have hk : ¬ last.key = key := by simpa [eq_comm] using hnm
      unfold hash_map.insert_walk
      rw [if_pos ⟨h2, by rw [h3]; exact hk⟩, if_pos h5b, ← h1]
      unfold construct
      by_cases ha : (seg.alloc (hash_node.sizeof T K V)).1 = 0
      · simp only [ha, if_true]
      · simp only [ha, if_false]
        rw [link_tail_ctor T K V m this p _ key value hv]
  | cons nd l ih =>
    intro p fuel hc hf
    obtain ⟨h1, h2, h3, h4, h5⟩ := is_chain_head T K V m p nd (l ++ [last]) hc
    obtain ⟨f, rfl⟩ : ∃ f, fuel = f + 1 := ⟨fuel - 1, by simp at hf; omega⟩
    have hnext : hash_node.next T m p ≠ 0 := by
      cases l with
      | nil => exact (is_chain_head T K V m _ last [] h5).2.1
      | cons x xs => exact (is_chain_head T K V m _ x (xs ++ [last]) h5).2.1
    obtain ⟨ih1, ih2⟩ := ih (hash_node.next T m p) f h5 (by simp at hf ⊢; omega)
    by_cases hk : nd.key = key
    · constructor
      · intro _
        refine ⟨nd, by simp, hk, ?_⟩
        unfold hash_map.insert_walk
        rw [if_neg (by rw [h3, hk]; simp), h1]
      · intro hnm
        exact absurd (by simp [hk]) hnm
    · have hstep : hash_map.insert_walk T K V this key value seg m (f + 1) p
          = hash_map.insert_walk T K V this key value seg m f (hash_node.next T m p) := by
        conv => lhs; unfold hash_map.insert_walk
        rw [if_pos ⟨h2, by rw [h3]; exact hk⟩, if_neg hnext]
      rw [hstep]
      constructor
      · intro hmem
        simp only [List.cons_append, List.map_cons, List.mem_cons] at hmem
        rcases hmem with h | h
        · exact absurd h.symm hk
        · obtain ⟨x, hx1, hx2, hx3⟩ := ih1 h
          exact ⟨x, by simp only [List.cons_append, List.mem_cons]; exact Or.inr hx1, hx2, hx3⟩
      · intro hnm
        apply ih2
        intro h
        apply hnm
        simp only [List.cons_append, List.map_cons, List.mem_cons]
        exact Or.inr h

/-- One `insert` on a well-formed map, for a key whose bucket index is not negative. -/
theorem insert_spec (T : IntTy) (K : KeyTy) (V : ValTy) (this B C : Nat) (nodes : List Node)
    (s : segment_manager) (m : Mem) (inv : HMInv T K V this B C nodes s m)
    (key value : List Nat) (hk : K.isKey key) (hv : V.isVal value)
    (h0 : 0 ≤ bucket_of T K B key) (fuel : Nat) (hfuel : nodes.length < fuel) :
    (C ≤ nodes.length →
      hash_map.insert T K V fuel this key value s m
        = some { mem := m, seg := s, out := .ok ⟨false, 0⟩ }) ∧
    (nodes.length < C → key ∈ nodes.map Node.key →
      ∃ nd, nd ∈ nodes ∧ nd.key = key ∧
        hash_map.insert T K V fuel this key value s m
          = some { mem := m, seg := s, out := .ok ⟨false, nd.addr⟩ }) ∧
    (nodes.length < C → key ∉ nodes.map Node.key →
      s.m_end < s.m_current + hash_node.sizeof T K V →
      hash_map.insert T K V fuel this key value s m
        = some { mem := m, seg := s,
                 out := .error (out_of_space s (hash_node.sizeof T K V)) }) ∧
    (nodes.length < C → key ∉ nodes.map Node.key →
      s.m_current + hash_node.sizeof T K V ≤ s.m_end →
      ∃ m2 P, hash_map.insert T K V fuel this key value s m
          = some { mem := m2,
                   seg := { s with m_current := s.m_current + hash_node.sizeof T K V },
                   out := .ok ⟨true, s.m_current⟩ } ∧
        Linked T K V m m2 this P s.m_current key value nodes.length ∧
        hash_map.m_key_table T m this ≤ P ∧ P + T.bytes ≤ s.m_current ∧
        HMInv T K V this B C (nodes ++ [⟨s.m_current, key, value⟩])
          { s with m_current := s.m_current + hash_node.sizeof T K V } m2) := by
  obtain ⟨v1, v2, v3, v4, v5⟩ := inv.valid
  have hb := inv.wide
  have hrepC : T.rep C := by rw [← inv.cap_eq]; exact load_rep _ _ _
  have hrepB : T.rep B := by rw [← inv.kts_eq]; exact load_rep _ _ _
  have hcap : hash_map.insert T K V fuel this key value s m
      = if (nodes.length : Int) ≥ C then some { mem := m, seg := s, out := .ok ⟨false, 0⟩ }
        else
          if hash_map.seek T m this (hash_map.key2index T K m this key) = 0 then
            if (s.alloc (hash_node.sizeof T K V)).1 = 0 then
              some { mem := m, seg := (s.alloc (hash_node.sizeof T K V)).2,
                     out := .error (out_of_space (s.alloc (hash_node.sizeof T K V)).2
                       (hash_node.sizeof T K V)) }
            else
              some { mem := hash_map.link_head T K m this (hash_map.key2index T K m this key)
                       (s.alloc (hash_node.sizeof T K V)).1 key value,
                     seg := (s.alloc (hash_node.sizeof T K V)).2,
                     out := .ok ⟨true, (s.alloc (hash_node.sizeof T K V)).1⟩ }
          else hash_map.insert_walk T K V this key value s m fuel
            (hash_map.seek T m this (hash_map.key2index T K m this key)) := by
    unfold hash_map.insert
    rw [inv.size_eq, inv.cap_eq]
    by_cases hc : (nodes.length : Int) ≥ C
    · rw [if_pos hc, if_pos hc]
    · rw [if_neg hc, if_neg hc]
      by_cases hs : hash_map.seek T m this (hash_map.key2index T K m this key) = 0
      · simp only [hs, if_true]
        unfold construct
        by_cases ha : (s.alloc (hash_node.sizeof T K V)).1 = 0
        · simp only [ha, if_true]
        · simp only [ha, if_false]
          rw [link_head_ctor T K V m this _ _ key value hv]
      · simp only [hs, if_false]
  by_cases hfull : C ≤ nodes.length
  · refine ⟨fun _ => ?_, fun h => absurd hfull (by omega), fun h => absurd hfull (by omega),
      fun h => absurd hfull (by omega)⟩
    rw [hcap, if_pos (by exact_mod_cast hfull)]
  have hlt : nodes.length < C := by omega
  have hB : 0 < B := by
    rcases inv.buckets with h | h
    · omega
    · exact h
  obtain ⟨_, hiB⟩ := bucket_of_lt T K B key hB hrepB h0
  obtain ⟨i, hbi⟩ : ∃ i : Nat, bucket_of T K B key = (i : Int) :=
    ⟨(bucket_of T K B key).toNat, by omega⟩
  have hi : (bucket_of T K B key).toNat = i := by omega
  have hiB2 : i < B := by omega
  rw [if_neg (by omega), key2index_eq T K V this B C nodes s m inv hB, hbi] at hcap
  have hch := inv.chains i hiB2
  have hmk := mem_chain_keys T K B nodes key i hbi
  have htl := inv.tbl_lo
  have hth := inv.tbl_hi
  have hext := inv.extent
  have htop := inv.top
  unfold hash_map.sizeof at htl
  have hns : T.bytes ≤ hash_node.sizeof T K V := by unfold hash_node.sizeof; omega
  have hlo := lo_le_zero T
  have hmulB := Nat.mul_le_mul_right T.bytes (show i + 1 ≤ B by omega)
  rw [Nat.add_mul, Nat.one_mul] at hmulB
  obtain ⟨sl0, sk0, _⟩ := inv_slot T K V this B C nodes s m inv i hiB2
  rcases list_snoc_cases (chain_of T K B nodes i) with hnil | ⟨l, last, hsn⟩
  · -- the bucket is empty
    rw [hnil] at hch hmk
    have hseek : hash_map.seek T m this (i : Int) = 0 := hch
    rw [if_pos hseek] at hcap
    have hnk : key ∉ nodes.map Node.key := by rw [← hmk]; simp
    refine ⟨fun h => absurd h hfull, fun _ h => absurd h hnk, fun _ _ hex => ?_,
      fun _ _ hroom => ?_⟩
    · rw [hcap, alloc_of_exceeds s _ hex (by omega)]
      simp
    · rw [alloc_of_fits s _ hroom v5] at hcap
      have hL := link_head_linked T K V m this
        (hash_map.m_key_table T m this + i * T.bytes) s.m_current nodes.length (i : Int)
        key value hk hv (by omega) (by omega) (by omega)
        (by unfold IntTy.rep; omega) (by omega) inv.size_eq
        (by unfold IntTy.rep at *; omega) sl0
      refine ⟨_, hash_map.m_key_table T m this + i * T.bytes, ?_, hL, by omega, by omega, ?_⟩
      · rw [hcap, if_neg (by show s.m_current ≠ 0; omega)]
      · exact inv_linked T K V this B C nodes s m inv key value hk hv h0 hnk hlt hroom _ _
          (Or.inl ⟨by rw [hi]; exact hnil, by rw [hi]⟩) hL
  · -- the bucket has a chain
    rw [hsn] at hch hmk
    have hseek : hash_map.seek T m this (i : Int) ≠ 0 := by
      cases l with
      | nil => exact (is_chain_head T K V m _ last [] hch).2.1
      | cons x xs => exact (is_chain_head T K V m _ x (xs ++ [last]) hch).2.1
    rw [if_neg hseek] at hcap
    have hlen : (l ++ [last]).length ≤ fuel := by
      have := (List.filter_sublist (l := nodes)
        (p := fun nd => decide (bucket_of T K B nd.key = (i : Int)))).length_le
      unfold chain_of at hsn
      rw [hsn] at this
      omega
    obtain ⟨w1, w2⟩ := insert_walk_spec T K V this key value hv s m last l _ fuel hch hlen
    have hsub : ∀ nd, nd ∈ l ++ [last] → nd ∈ nodes := by
      intro nd hnd
      have : nd ∈ chain_of T K B nodes i := by rw [hsn]; exact hnd
      exact (List.mem_filter.mp this).1
    have hlastmem : last ∈ nodes := hsub last (by simp)
    obtain ⟨b1, b2, _⟩ := inv.bounded last hlastmem
    refine ⟨fun h => absurd h hfull, fun _ h => ?_, fun _ hnk hex => ?_, fun _ hnk hroom => ?_⟩
    · obtain ⟨nd, hn1, hn2, hn3⟩ := w1 (hmk.mpr h)
      exact ⟨nd, hsub nd hn1, hn2, by rw [hcap]; exact hn3⟩
    · rw [hcap, w2 (fun h => hnk (hmk.mp h)), alloc_of_exceeds s _ hex (by omega)]
      simp
    · rw [w2 (fun h => hnk (hmk.mp h)), alloc_of_fits s _ hroom v5] at hcap
      have hL := link_tail_linked T K V m this last.addr s.m_current nodes.length
        key value hk hv (by omega) (by omega) (by omega)
        (by unfold IntTy.rep; omega) (by omega) inv.size_eq
        (by unfold IntTy.rep at *; omega)
      refine ⟨_, last.addr, ?_, hL, by omega, by omega, ?_⟩
      · rw [hcap, if_neg (by show s.m_current ≠ 0; omega)]
      · exact inv_linked T K V this B C nodes s m inv key value hk hv h0 hnk hlt hroom _ _
          (Or.inr ⟨l, last, by rw [hi]; exact hsn, rfl⟩) hL

/-- Every built map is well formed. -/
theorem built_inv (T : IntTy) (K : KeyTy) (V : ValTy) (this B C : Nat) (nodes : List Node)
    (s : segment_manager) (m : Mem) (h : Built T K V this B C nodes s m) :
    HMInv T K V this B C nodes s m := by
  induction h with
  | init hs s m ok =>
    have h := init_hash_spec T K V this C hs s m B ok.valid ok.this_pos ok.wide ok.header
      ok.extent ok.top ok.fresh_table ok.fresh_size ok.cap_rep ok.count ok.count_le ok.fits
      ok.no_wrap
    rw [h.2.1]
    exact h.2.2.2.2
  | add_true nodes s m key value fuel r _ hk hv h0 hf hadd hout ih =>
    obtain ⟨a1, a2, a3⟩ := add_spec T K V this B C nodes s m ih key value hk hv h0 fuel hf
    by_cases hc : C ≤ nodes.length ∨ key ∈ nodes.map Node.key
    · rw [a1 hc] at hadd
      cases hadd
      cases hout
    · have hlt : nodes.length < C := by
        by_contra hx; exact hc (Or.inl (by omega))
      have hnk : key ∉ nodes.map Node.key := fun hx => hc (Or.inr hx)
      by_cases hroom : s.m_current + hash_node.sizeof T K V ≤ s.m_end
      · obtain ⟨m2, P, e, _, _, _, inv2⟩ := a3 hlt hnk hroom
        rw [e] at hadd
        cases hadd
        exact inv2
      · rw [a2 hlt hnk (by omega)] at hadd
        cases hadd
        cases hout
  | add_other nodes s m key value fuel r _ hk hv h0 hf hadd hout ih =>
    obtain ⟨a1, a2, a3⟩ := add_spec T K V this B C nodes s m ih key value hk hv h0 fuel hf
    by_cases hc : C ≤ nodes.length ∨ key ∈ nodes.map Node.key
    · rw [a1 hc] at hadd
      cases hadd
      exact ih
    · have hlt : nodes.length < C := by
        by_contra hx; exact hc (Or.inl (by omega))
      have hnk : key ∉ nodes.map Node.key := fun hx => hc (Or.inr hx)
      by_cases hroom : s.m_current + hash_node.sizeof T K V ≤ s.m_end
      · obtain ⟨m2, P, e, _, _, _, inv2⟩ := a3 hlt hnk hroom
        rw [e] at hadd
        cases hadd
        exact absurd rfl hout
      · rw [a2 hlt hnk (by omega)] at hadd
        cases hadd
        exact ih
  | insert_true nodes s m key value fuel r p _ hk hv h0 hf hins hout ih =>
    obtain ⟨a0, a1, a2, a3⟩ := insert_spec T K V this B C nodes s m ih key value hk hv h0 fuel hf
    by_cases hfull : C ≤ nodes.length
    · rw [a0 hfull] at hins
      cases hins
      cases hout
    · have hlt : nodes.length < C := by omega
      by_cases hmem : key ∈ nodes.map Node.key
      · obtain ⟨nd, _, _, e⟩ := a1 hlt hmem
        rw [e] at hins
        cases hins
        cases hout
      · by_cases hroom : s.m_current + hash_node.sizeof T K V ≤ s.m_end
        · obtain ⟨m2, P, e, _, _, _, inv2⟩ := a3 hlt hmem hroom
          rw [e] at hins
          cases hins
          exact inv2
        · rw [a2 hlt hmem (by omega)] at hins
          cases hins
          cases hout
  | insert_other nodes s m key value fuel r _ hk hv h0 hf hins hout ih =>
    obtain ⟨a0, a1, a2, a3⟩ := insert_spec T K V this B C nodes s m ih key value hk hv h0 fuel hf
    by_cases hfull : C ≤ nodes.length
    · rw [a0 hfull] at hins
      cases hins
      exact ih
    · have hlt : nodes.length < C := by omega
      by_cases hmem : key ∈ nodes.map Node.key
      · obtain ⟨nd, _, _, e⟩ := a1 hlt hmem
        rw [e] at hins
        cases hins
        exact ih
      · by_cases hroom : s.m_current + hash_node.sizeof T K V ≤ s.m_end
        · obtain ⟨m2, P, e, _, _, _, inv2⟩ := a3 hlt hmem hroom
          rw [e] at hins
          cases hins
          exact absurd rfl (hout _)
        · rw [a2 hlt hmem (by omega)] at hins
          cases hins
          exact ih

/-! ## `hash_map`: iteration -/

theorem order_from_ge (T : IntTy) (K : KeyTy) (B : Nat) (nodes : List Node) (j : Nat)
    (h : B ≤ j) : order_from T K B nodes j = [] := by
  unfold order_from
  rw [Nat.sub_eq_zero_of_le h]
  rfl

theorem order_from_step (T : IntTy) (K : KeyTy) (B : Nat) (nodes : List Node) (j : Nat)
    (h : j < B) :
    order_from T K B nodes j = chain_of T K B nodes j ++ order_from T K B nodes (j + 1) := by
  unfold order_from
  have e : B - j = (B - (j + 1)) + 1 := by omega
  rw [e, List.range'_succ, List.flatMap_cons]

theorem chain_of_bucket (T : IntTy) (K : KeyTy) (B : Nat) (nodes : List Node) (i : Nat)
    (nd : Node) (h : nd ∈ chain_of T K B nodes i) : bucket_of T K B nd.key = (i : Int) := by
  unfold chain_of at h
  simpa using (List.mem_filter.mp h).2

theorem is_chain_suffix (T : IntTy) (K : KeyTy) (V : ValTy) (m : Mem) (nd : Node)
    (post : List Node) :
    ∀ (pre : List Node) (p : Nat), is_chain T K V m p (pre ++ nd :: post) →
      is_chain T K V m nd.addr (nd :: post) := by
  intro pre
  induction pre with
  | nil =>
    intro p h
    obtain ⟨h1, h2, h3, h4, h5⟩ := h
    exact ⟨rfl, h2, h3, h4, h5⟩
  | cons x xs ih =>
    intro p h
    obtain ⟨_, _, _, _, h5⟩ := h
    exact ih _ h5

theorem skip_of_node (T : IntTy) (m : Mem) (this : Nat) (fuel : Nat) (index : Int) (node : Nat)
    (h : node ≠ 0) : hash_map.skip T m this fuel index node = (index, node) := by
  cases fuel with
  | zero => rfl
  | succ f =>
    unfold hash_map.skip
    rw [if_neg (fun hx => h hx.1)]

theorem skip_at_end (T : IntTy) (m : Mem) (this : Nat) (fuel : Nat) (node : Nat) :
    hash_map.skip T m this fuel (hash_map.m_key_table_size T m this) node
      = (hash_map.m_key_table_size T m this, node) := by
  cases fuel with
  | zero => rfl
  | succ f =>
    unfold hash_map.skip
    rw [if_neg (fun hx => lt_irrefl _ hx.2)]

/-- The loop that skips empty buckets, started on bucket `j` with its head pointer:
it stops on the first node of the buckets from `j` on, or at `end()`. -/
theorem skip_spec (T : IntTy) (K : KeyTy) (V : ValTy) (this B C : Nat) (nodes : List Node)
    (s : segment_manager) (m : Mem) (inv : HMInv T K V this B C nodes s m) :
    ∀ (d j fuel : Nat), j + d = B → d ≤ fuel →
      hash_map.skip T m this fuel (j : Int) (hash_map.seek T m this (j : Int))
        = ((iter_at T K B this (order_from T K B nodes j)).index,
           (iter_at T K B this (order_from T K B nodes j)).node) := by
  have hrepB : T.rep B := by rw [← inv.kts_eq]; exact load_rep _ _ _
  intro d
  induction d with
  | zero =>
    intro j fuel hj _
    have hjB : j = B := by omega
    subst hjB
    rw [order_from_ge T K j nodes j (le_refl _)]
    have hs : hash_map.seek T m this (j : Int) = 0 := by
      unfold hash_map.seek
      rw [inv.kts_eq, if_neg (lt_irrefl _)]
    rw [hs]
    have := skip_at_end T m this fuel 0
    rw [inv.kts_eq] at this
    rw [this]
    rfl
  | succ d ih =>
    intro j fuel hj hf
    have hjB : j < B := by omega
    have hch := inv.chains j hjB
    rw [order_from_step T K B nodes j hjB]
    cases hc : chain_of T K B nodes j with
    | nil =>
      rw [hc] at hch
      have hs : hash_map.seek T m this (j : Int) = 0 := hch
      obtain ⟨f, rfl⟩ : ∃ f, fuel = f + 1 := ⟨fuel - 1, by omega⟩
      rw [hs]
      unfold hash_map.skip
      rw [inv.kts_eq, if_pos ⟨rfl, by exact_mod_cast hjB⟩]
      have hw : T.wrap ((j : Int) + 1) = ((j + 1 : Nat) : Int) := by
        rw [wrap_of_rep]
        · push_cast; rfl
        · unfold IntTy.rep at *
          have := lo_le_zero T
          omega
      rw [hw]
      have := ih (j + 1) f (by omega) (by omega)
      rw [List.nil_append]
      exact this
    | cons nd rest =>
      rw [hc] at hch
      obtain ⟨h1, h2, _⟩ := is_chain_head T K V m _ nd rest hch
      rw [skip_of_node T m this fuel _ _ h2]
      have hb := chain_of_bucket T K B nodes j nd (by rw [hc]; simp)
      show _ = ((iter_at T K B this (nd :: (rest ++ order_from T K B nodes (j + 1)))).index,
        (iter_at T K B this (nd :: (rest ++ order_from T K B nodes (j + 1)))).node)
      unfold iter_at
      simp only [hb, h1]

theorem order_of_nil (T : IntTy) (K : KeyTy) (B : Nat) (j : Nat) :
    order_from T K B [] j = [] := by
  unfold order_from chain_of
  induction (List.range' j (B - j)) with
  | nil => rfl
  | cons a l ih => rw [List.flatMap_cons, ih]; rfl

/-- The iterator `begin()` of a well-formed map is on the first node of the
iteration order, or is `end()` when the map is empty. -/
theorem begin_spec (T : IntTy) (K : KeyTy) (V : ValTy) (this B C : Nat) (nodes : List Node)
    (s : segment_manager) (m : Mem) (inv : HMInv T K V this B C nodes s m) :
    hash_map.begin T m this = iter_at T K B this (order_of T K B nodes) := by
  unfold hash_map.begin hash_map.empty order_of
  by_cases he : hash_map.m_size T m this = 0
  · rw [if_pos (by simpa using he)]
    have hn : nodes = [] := by
      have := inv.size_eq
      rw [he] at this
      exact List.length_eq_zero.mp (by exact_mod_cast this.symm)
    subst hn
    rw [order_of_nil]
    unfold hash_map.end iter_at
    rw [inv.kts_eq]
  · rw [if_neg (by simpa using he)]
    have h := skip_spec T K V this B C nodes s m inv B 0 B (by omega) (le_refl _)
    rw [inv.kts_eq, Int.toNat_ofNat]
    have h2 : hash_map.skip T m this B 0 (hash_map.seek T m this 0)
        = ((iter_at T K B this (order_from T K B nodes 0)).index,
           (iter_at T K B this (order_from T K B nodes 0)).node) := h
    rw [h2]
    cases order_from T K B nodes 0 <;> rfl

/-- One `operator++` on the iterator on a node of bucket `i`: it moves to the next
node of the chain, or to the first node of the later buckets, or to `end()`. -/
theorem next_spec (T : IntTy) (K : KeyTy) (V : ValTy) (this B C : Nat) (nodes : List Node)
    (s : segment_manager) (m : Mem) (inv : HMInv T K V this B C nodes s m)
    (i : Nat) (hi : i < B) (pre post : List Node) (nd : Node)
    (hc : chain_of T K B nodes i = pre ++ nd :: post) :
    hash_map.iterator.next T m { index := (i : Int), node := nd.addr, self := this }
      = iter_at T K B this (post ++ order_from T K B nodes (i + 1)) := by
  have hrepB : T.rep B := by rw [← inv.kts_eq]; exact load_rep _ _ _
  have hch := inv.chains i hi
  rw [hc] at hch
  obtain ⟨_, h2, _, _, h5⟩ := is_chain_suffix T K V m nd post pre _ hch
  unfold hash_map.iterator.next
  cases post with
  | nil =>
    have hn : hash_node.next T m nd.addr = 0 := h5
    simp only [hn, ne_eq, not_true_eq_false, and_false, if_false, h2, not_false_eq_true, if_true]
    rw [inv.kts_eq]
    have ht : ((B : Int) - (i : Int)).toNat = (B - i - 1) + 1 := by omega
    rw [ht]
    unfold hash_map.skip
    rw [inv.kts_eq, if_pos ⟨rfl, by exact_mod_cast hi⟩]
    have hw : T.wrap ((i : Int) + 1) = ((i + 1 : Nat) : Int) := by
      rw [wrap_of_rep]
      · push_cast; rfl
      · unfold IntTy.rep at *
        have := lo_le_zero T
        omega
    rw [hw, skip_spec T K V this B C nodes s m inv (B - i - 1) (i + 1) (B - i - 1) (by omega)
      (le_refl _), List.nil_append]
    cases order_from T K B nodes (i + 1) <;> rfl
  | cons x xs =>
    obtain ⟨h6, h7, _⟩ := is_chain_head T K V m _ x xs h5
    have hb := chain_of_bucket T K B nodes i x (by rw [hc]; simp)
    rw [if_pos ⟨h2, h7⟩]
    show _ = iter_at T K B this (x :: (xs ++ order_from T K B nodes (i + 1)))
    unfold iter_at
    simp only [hb, h6]

/-- The part of the iteration order still to visit is empty, or it starts inside the
chain of a bucket and goes on with the later buckets. -/
theorem order_from_rem (T : IntTy) (K : KeyTy) (B : Nat) (nodes : List Node) :
    ∀ (d j : Nat), j + d = B →
      order_from T K B nodes j = [] ∨
      ∃ i pre nd post, i < B ∧ chain_of T K B nodes i = pre ++ nd :: post ∧
        order_from T K B nodes j = nd :: post ++ order_from T K B nodes (i + 1) := by
  intro d
  induction d with
  | zero =>
    intro j hj
    exact Or.inl (order_from_ge T K B nodes j (by omega))
  | succ d ih =>
    intro j hj
    have hjB : j < B := by omega
    rw [order_from_step T K B nodes j hjB]
    cases hc : chain_of T K B nodes j with
    | nil =>
      rw [List.nil_append]
      exact ih (j + 1) (by omega)
    | cons nd rest =>
      exact Or.inr ⟨j, [], nd, rest, hjB, by rw [hc]; rfl, rfl⟩

/-- The iterator after `k` steps from `begin()` is on the `k`-th node of the
iteration order, and is `end()` after the last node. -/
theorem visit_spec (T : IntTy) (K : KeyTy) (V : ValTy) (this B C : Nat) (nodes : List Node)
    (s : segment_manager) (m : Mem) (inv : HMInv T K V this B C nodes s m) :
    ∀ k, k ≤ (order_of T K B nodes).length →
      hash_map.visit T m this k = iter_at T K B this ((order_of T K B nodes).drop k) := by
  have key : ∀ k, k ≤ (order_of T K B nodes).length →
      hash_map.visit T m this k = iter_at T K B this ((order_of T K B nodes).drop k) ∧
      ((order_of T K B nodes).drop k = [] ∨
        ∃ i pre nd post, i < B ∧ chain_of T K B nodes i = pre ++ nd :: post ∧
          (order_of T K B nodes).drop k = nd :: post ++ order_from T K B nodes (i + 1)) := by
    intro k
    induction k with
    | zero =>
      intro _
      refine ⟨?_, ?_⟩
      · show hash_map.begin T m this = _
        rw [List.drop_zero]
        exact begin_spec T K V this B C nodes s m inv
      · rw [List.drop_zero]
        exact order_from_rem T K B nodes B 0 (by omega)
    | succ k ih =>
      intro hk
      obtain ⟨ih1, ih2⟩ := ih (by omega)
      rcases ih2 with h | ⟨i, pre, nd, post, hi, hc, hR⟩
      · have := congrArg List.length h
        rw [List.length_drop, List.length_nil] at this
        omega
      · have htail : (order_of T K B nodes).drop (k + 1) = post ++ order_from T K B nodes (i + 1) := by
          rw [← List.tail_drop, hR]
          rfl
        have hb := chain_of_bucket T K B nodes i nd (by rw [hc]; simp)
        refine ⟨?_, ?_⟩
        · show hash_map.iterator.next T m (hash_map.visit T m this k) = _
          rw [ih1, hR, htail]
          show hash_map.iterator.next T m
            { index := bucket_of T K B nd.key, node := nd.addr, self := this } = _
          rw [hb]
          exact next_spec T K V this B C nodes s m inv i hi pre post nd hc
        · rw [htail]
          cases post with
          | nil =>
            rw [List.nil_append]
            exact order_from_rem T K B nodes (B - (i + 1)) (i + 1) (by omega)
          | cons x xs =>
            exact Or.inr ⟨i, pre ++ [nd], x, xs, hi, by rw [hc]; simp, rfl⟩
  intro k hk
  exact (key k hk).1

theorem filter_disjoint_perm {α : Type} (p q : α → Bool) (h : ∀ a, ¬ (p a = true ∧ q a = true)) :
    ∀ l : List α, (l.filter p ++ l.filter q).Perm (l.filter (fun a => p a || q a)) := by
  intro l
  induction l with
  | nil => exact List.Perm.refl _
  | cons a t ih =>
    by_cases hp : p a = true
    · have hq : q a = false := by
        cases hqa : q a with
        | false => rfl
        | true => exact absurd ⟨hp, hqa⟩ (h a)
      rw [List.filter_cons_of_pos hp, List.filter_cons_of_neg (by simp [hq]),
        List.filter_cons_of_pos (by simp [hp])]
      exact List.Perm.cons a ih
    · by_cases hq : q a = true
      · rw [List.filter_cons_of_neg hp, List.filter_cons_of_pos hq,
          List.filter_cons_of_pos (by simp [hq])]
        exact List.perm_middle.trans (List.Perm.cons a ih)
      · rw [List.filter_cons_of_neg hp, List.filter_cons_of_neg hq,
          List.filter_cons_of_neg (by simp [hp, hq])]
        exact ih

/-- The iteration order from bucket `j` on lists the nodes of these buckets, each
once. -/
theorem order_from_perm (T : IntTy) (K : KeyTy) (B : Nat) (nodes : List Node) :
    ∀ (d j : Nat), j + d = B →
      (order_from T K B nodes j).Perm
        (nodes.filter (fun nd => decide ((j : Int) ≤ bucket_of T K B nd.key ∧
          bucket_of T K B nd.key < (B : Int)))) := by
  intro d
  induction d with
  | zero =>
    intro j hj
    rw [order_from_ge T K B nodes j (by omega)]
    have : nodes.filter (fun nd => decide ((j : Int) ≤ bucket_of T K B nd.key ∧
          bucket_of T K B nd.key < (B : Int))) = [] := by
      rw [List.filter_eq_nil_iff]
      intro a _
      simp only [decide_eq_true_eq]
      omega
    rw [this]
  | succ d ih =>
    intro j hj
    have hjB : j < B := by omega
    rw [order_from_step T K B nodes j hjB]
    have h1 := (List.Perm.refl (chain_of T K B nodes j)).append (ih (j + 1) (by omega))
    refine h1.trans ?_
    unfold chain_of
    refine (filter_disjoint_perm _ _ ?_ nodes).trans ?_
    · intro a ⟨ha, hb⟩
      simp only [decide_eq_true_eq] at ha hb
      push_cast at hb
      omega
    · apply List.Perm.of_eq
      apply List.filter_congr
      intro a _
      rw [Bool.eq_iff_iff]
      simp only [Bool.or_eq_true, decide_eq_true_eq]
      push_cast
      omega

/-- The iteration order of a well-formed map lists every node of the map once. -/
theorem order_of_perm (T : IntTy) (K : KeyTy) (V : ValTy) (this B C : Nat) (nodes : List Node)
    (s : segment_manager) (m : Mem) (inv : HMInv T K V this B C nodes s m) :
    (order_of T K B nodes).Perm nodes := by
  have h := order_from_perm T K B nodes B 0 (by omega)
  unfold order_of
  refine h.trans (List.Perm.of_eq ?_)
  rw [List.filter_eq_self]
  intro nd hnd
  have hrepB : T.rep B := by rw [← inv.kts_eq]; exact load_rep _ _ _
  obtain ⟨_, _, h0, _, _⟩ := inv.bounded nd hnd
  have hB : 0 < B := by
    rcases inv.buckets with h | h
    · have := inv.le_cap
      have := List.length_pos_of_mem hnd
      omega
    · exact h
  obtain ⟨_, hlt⟩ := bucket_of_lt T K B nd.key hB hrepB h0
  simp only [decide_eq_true_eq]
  push_cast
  omega

/-! ## `hash_map`: the claims on built maps -/

/-- Every node of a well-formed map holds its key and its value at its address. -/
theorem inv_node (T : IntTy) (K : KeyTy) (V : ValTy) (this B C : Nat) (nodes : List Node)
    (s : segment_manager) (m : Mem) (inv : HMInv T K V this B C nodes s m) (nd : Node)
    (hnd : nd ∈ nodes) :
    nd.addr ≠ 0 ∧ hash_node.key T K m nd.addr = nd.key ∧
      hash_node.value T K V m nd.addr = nd.val := by
  have hrepB : T.rep B := by rw [← inv.kts_eq]; exact load_rep _ _ _
  obtain ⟨_, _, h0, _, _⟩ := inv.bounded nd hnd
  have hB : 0 < B := by
    rcases inv.buckets with h | h
    · have := inv.le_cap
      have := List.length_pos_of_mem hnd
      omega
    · exact h
  obtain ⟨_, hlt⟩ := bucket_of_lt T K B nd.key hB hrepB h0
  obtain ⟨i, hbi⟩ : ∃ i : Nat, bucket_of T K B nd.key = (i : Int) :=
    ⟨(bucket_of T K B nd.key).toNat, by omega⟩
  have hi : i < B := by omega
  have hmem : nd ∈ chain_of T K B nodes i := by
    unfold chain_of
    exact List.mem_filter.mpr ⟨hnd, by simpa using hbi⟩
  obtain ⟨pre, post, hsplit⟩ := List.append_of_mem hmem
  have hch := inv.chains i hi
  rw [hsplit] at hch
  obtain ⟨_, h2, h3, h4, _⟩ := is_chain_suffix T K V m nd post pre _ hch
  exact ⟨h2, h3, h4⟩

/-- The lookups on a well-formed map, also for a map without buckets. -/
theorem lookup_all (T : IntTy) (K : KeyTy) (V : ValTy) (this B C : Nat) (nodes : List Node)
    (s : segment_manager) (m : Mem) (inv : HMInv T K V this B C nodes s m)
    (key : List Nat) (h0 : 0 ≤ bucket_of T K B key) (fuel : Nat)
    (hfuel : nodes.length < fuel) :
    hash_map.get T K fuel m this key
      = some (match nodes.find? (fun nd => decide (nd.key = key)) with
              | some nd => hash_node.value_addr T K nd.addr
              | none => 0) ∧
    hash_map.index T K fuel m this key
      = some (match nodes.find? (fun nd => decide (nd.key = key)) with
              | some nd => hash_node.value_addr T K nd.addr
              | none => hash_map.m_default_value T this) ∧
    hash_map.find T K fuel m this key
      = some (match nodes.find? (fun nd => decide (nd.key = key)) with
              | some nd => { index := bucket_of T K B key, node := nd.addr, self := this }
              | none => hash_map.end T m this) := by
  by_cases hB : 0 < B
  · exact lookup_spec T K V this B C nodes s m inv key h0 hB fuel hfuel
  · have hB0 : B = 0 := by omega
    have hC : C = 0 := by
      rcases inv.buckets with h | h
      · exact h
      · omega
    have hn : nodes = [] := by
      have := inv.le_cap
      exact List.length_eq_zero.mp (by omega)
    subst hn
    obtain ⟨f, rfl⟩ : ∃ f, fuel = f + 1 := ⟨fuel - 1, by omega⟩
    have hk : hash_map.m_key_table_size T m this = 0 := by rw [inv.kts_eq, hB0]; rfl
    have hki : hash_map.key2index T K m this key = 1 := by
      unfold hash_map.key2index
      rw [if_neg (by rw [hk]; simp)]
    have hs : hash_map.seek T m this 1 = 0 := by
      unfold hash_map.seek
      rw [hk, if_neg (by decide)]
    unfold hash_map.get hash_map.index hash_map.find
    rw [hki, hs]
    unfold hash_map.walk
    simp

/-- On a well-formed map `get` returns null exactly for the keys that no node holds. -/
theorem get_null_iff (T : IntTy) (K : KeyTy) (V : ValTy) (this B C : Nat) (nodes : List Node)
    (s : segment_manager) (m : Mem) (inv : HMInv T K V this B C nodes s m)
    (key : List Nat) (h0 : 0 ≤ bucket_of T K B key) (fuel : Nat)
    (hfuel : nodes.length < fuel) :
    (hash_map.get T K fuel m this key = some 0 ↔ key ∉ nodes.map Node.key) ∧
    (hash_map.find T K fuel m this key = some (hash_map.end T m this)
      ↔ key ∉ nodes.map Node.key) := by
  obtain ⟨g, _, f⟩ := lookup_all T K V this B C nodes s m inv key h0 fuel hfuel
  rw [g, f]
  cases hf : nodes.find? (fun nd => decide (nd.key = key)) with
  | none =>
    have hnone := List.find?_eq_none.mp hf
    have hnk : key ∉ nodes.map Node.key := by
      intro hx
      obtain ⟨nd, h1, h2⟩ := List.mem_map.mp hx
      exact absurd (by simpa using h2) (hnone nd h1)
    simp [hnk]
  | some nd =>
    have hmem := List.mem_of_find?_eq_some hf
    have hkey : nd.key = key := by simpa using List.find?_some hf
    have hin : key ∈ nodes.map Node.key := List.mem_map.mpr ⟨nd, hmem, hkey⟩
    obtain ⟨hnz, _, _⟩ := inv_node T K V this B C nodes s m inv nd hmem
    have hv : hash_node.value_addr T K nd.addr ≠ 0 := by
      unfold hash_node.value_addr; omega
    have he : ({ index := bucket_of T K B key, node := nd.addr, self := this } : hash_map.iterator)
        ≠ hash_map.end T m this := by
      intro hx
      have := congrArg hash_map.iterator.node hx
      exact hnz this
    simp [hin, hv, he]

/-- A call of `add` that returns false changes neither the memory nor the segment,
whatever the state it is called in. -/
theorem add_walk_false (T : IntTy) (K : KeyTy) (V : ValTy) (this : Nat) (key value : List Nat)
    (s : segment_manager) (m : Mem) :
    ∀ (fuel n : Nat) (r : Res Bool),
      hash_map.add_walk T K V this key value s m fuel n = some r → r.out = .ok false →
      r.mem = m ∧ r.seg = s := by
  intro fuel
  induction fuel with
  | zero =>
    intro n r h
    unfold hash_map.add_walk at h
    cases h
  | succ f ih =>
    intro n r h hout
    unfold hash_map.add_walk at h
    by_cases c1 : n ≠ 0 ∧ hash_node.key T K m n ≠ key
    · rw [if_pos c1] at h
      by_cases c2 : hash_node.next T m n = 0
      · rw [if_pos c2] at h
        dsimp only at h
        by_cases c3 : (s.alloc (hash_node.sizeof T K V)).1 = 0
        · rw [if_pos c3] at h
          cases h; cases hout
        · rw [if_neg c3] at h
          cases h; cases hout
      · rw [if_neg c2] at h
        exact ih _ r h hout
    · rw [if_neg c1] at h
      cases h; exact ⟨rfl, rfl⟩

theorem add_false (T : IntTy) (K : KeyTy) (V : ValTy) (this : Nat) (key value : List Nat)
    (s : segment_manager) (m : Mem) (fuel : Nat) (r : Res Bool)
    (h : hash_map.add T K V fuel this key value s m = some r) (hout : r.out = .ok false) :
    r.mem = m ∧ r.seg = s := by
  unfold hash_map.add at h
  by_cases c1 : hash_map.m_size T m this ≥ hash_map.m_capacity T m this
  · rw [if_pos c1] at h
    cases h; exact ⟨rfl, rfl⟩
  · rw [if_neg c1] at h
    dsimp only at h
    by_cases c2 : hash_map.seek T m this (hash_map.key2index T K m this key) = 0
    · rw [if_pos c2] at h
      by_cases c3 : (s.alloc (hash_node.sizeof T K V)).1 = 0
      · rw [if_pos c3] at h
        cases h; cases hout
      · rw [if_neg c3] at h
        cases h; cases hout
    · rw [if_neg c2] at h
      exact add_walk_false T K V this key value s m fuel _ r h hout

theorem demo1_built : Built .i16 int32_key Char1 4096 3 3 [] demo1.seg demo1.mem :=
  Built.init 3 demo0.seg demo0.mem
    { valid := by decide, this_pos := by decide, wide := by decide, header := by decide,
      extent := by decide, top := by decide, fresh_table := by decide, fresh_size := by decide,
      cap_rep := by decide, count := by decide, count_le := by decide, fits := by decide,
      no_wrap := by decide }

theorem demo2_built :
    Built .i16 int32_key Char1 4096 3 3 [⟨4111, key32 100, [97]⟩] demo2.seg demo2.mem :=
  Built.add_true [] demo1.seg demo1.mem (key32 100) [97] 4 demo2 demo1_built
    (by decide) (by decide) (by decide) (by decide) rfl rfl

theorem demo3_built :
    Built .i16 int32_key Char1 4096 3 3 [⟨4111, key32 100, [97]⟩, ⟨4118, key32 101, [98]⟩]
      demo3.seg demo3.mem :=
  Built.add_true [⟨4111, key32 100, [97]⟩] demo2.seg demo2.mem (key32 101) [98] 4 demo3
    demo2_built (by decide) (by decide) (by decide) (by decide) rfl rfl

theorem demo4_built :
    Built .i16 int32_key Char1 4096 3 3 [⟨4111, key32 100, [97]⟩, ⟨4118, key32 101, [98]⟩]
      demo4.seg demo4.mem :=
  Built.add_other [⟨4111, key32 100, [97]⟩, ⟨4118, key32 101, [98]⟩] demo3.seg demo3.mem
    (key32 100) [99] 4 demo4 demo3_built (by decide) (by decide) (by decide) (by decide) rfl
    (fun h => by cases h)

theorem demo5_built :
    Built .i16 int32_key Char1 4096 3 3
      [⟨4111, key32 100, [97]⟩, ⟨4118, key32 101, [98]⟩, ⟨4125, key32 102, [100]⟩]
      demo5.seg demo5.mem :=
  Built.add_true [⟨4111, key32 100, [97]⟩, ⟨4118, key32 101, [98]⟩] demo4.seg demo4.mem
    (key32 102) [100] 4 demo5 demo4_built (by decide) (by decide) (by decide) (by decide)
    rfl rfl

/-- C15: on the freshly constructed `hash_map<int32_t, char, int16_t>` in a zero-filled
256-byte segment, `init_hash(2, segment, 3)` returns true with `hash_size() == 3`
and `capacity() == 2` and takes the 6 bytes of 3 slots, but its loop sets the
slots below `capacity` only: the slots 0 and 1 are null and the slot 2 resolves
to its own address 4109; and `init_hash(3, segment, 2)` takes the 4 bytes of 2
slots and also writes the 2 bytes after them. -/
theorem init_hash_loop_bound :
    (hash_map.init_hash .i16 4096 2 demo0.seg 3 demo0.mem).out = .ok true ∧
    hash_map.hash_size .i16 (hash_map.init_hash .i16 4096 2 demo0.seg 3 demo0.mem).mem 4096 = 3 ∧
    hash_map.capacity .i16 (hash_map.init_hash .i16 4096 2 demo0.seg 3 demo0.mem).mem 4096 = 2 ∧
    (hash_map.init_hash .i16 4096 2 demo0.seg 3 demo0.mem).seg.m_current
      = demo0.seg.m_current + 3 * 2 ∧
    hash_map.seek .i16 (hash_map.init_hash .i16 4096 2 demo0.seg 3 demo0.mem).mem 4096 0 = 0 ∧
    hash_map.seek .i16 (hash_map.init_hash .i16 4096 2 demo0.seg 3 demo0.mem).mem 4096 1 = 0 ∧
    hash_map.seek .i16 (hash_map.init_hash .i16 4096 2 demo0.seg 3 demo0.mem).mem 4096 2 = 4109 ∧
    (hash_map.init_hash .i16 4096 3 demo0.seg 2 demo0.mem).out = .ok true ∧
    hash_map.m_key_table .i16 (hash_map.init_hash .i16 4096 3 demo0.seg 2 demo0.mem).mem 4096
      = 4105 ∧
    (hash_map.init_hash .i16 4096 3 demo0.seg 2 demo0.mem).seg.m_current = 4105 + 2 * 2 ∧
    demo0.mem 4109 = 0 ∧
    (hash_map.init_hash .i16 4096 3 demo0.seg 2 demo0.mem).mem 4109 = 1 :=
  ⟨rfl, by decide, by decide, by decide, by decide, by decide, by decide, rfl, by decide,
    by decide, by decide, by decide⟩

/-- C19: `assign` of the 4 bytes of `road` on a segment with 4 bytes used and 4 bytes
free asks the allocator for 5 bytes and throws `no_enough_memory`; the size its
message reports is 1, computed as `m_size + 1` after `m_size` was set to 0. -/
theorem string_assign_reports_one :
    (segment_manager.mk 4096 8 4100 4104).get_free_memory = 4 ∧
    (string.assign .i16 4096 road (segment_manager.mk 4096 8 4100 4104) mem0).out
      = .error { code := 1001, msg := strErrMsg 4 4 1 } ∧
    strErrMsg 4 4 1 = "mmo_exception:: no enough memory,free:4,used:4,alloc size:1" ∧
    strErrMsg 4 4 1 ≠ strErrMsg 4 4 (road.length + 1) ∧
    (string.assign .i16 4096 road (segment_manager.mk 4096 8 4100 4104) mem0).seg
      = segment_manager.mk 4096 8 4100 4104 :=
  ⟨by decide, rfl, by decide, by decide, by decide⟩

/-- C20: from `reset(0x1000, 256)`, `alloc(16)` moves the cursor to 4112 and leaves 240
bytes free; the request `advance(2 ^ 64 - 8)` then succeeds and moves the cursor
back to 4104; `alloc(2 ^ 64 - 16)` succeeds too and leaves it at 4088, before
the buffer at 4096. -/
theorem cursor_moves_backward :
    ((segment_manager.reset 4096 256).alloc 16).2.m_current = 4112 ∧
    ((segment_manager.reset 4096 256).alloc 16).2.get_free_memory = 240 ∧
    (((segment_manager.reset 4096 256).alloc 16).2.advance (W - 8)).1 = true ∧
    (((segment_manager.reset 4096 256).alloc 16).2.advance (W - 8)).2.m_current = 4104 ∧
    ((((segment_manager.reset 4096 256).alloc 16).2.advance (W - 8)).2.alloc (W - 16)).1 = 4104 ∧
    ((((segment_manager.reset 4096 256).alloc 16).2.advance (W - 8)).2.alloc (W - 16)).2.m_current
      = 4088 ∧
    ((((segment_manager.reset 4096 256).alloc 16).2.advance (W - 8)).2.alloc (W - 16)).2.m_buffer
      = 4096 := by
  decide

/-! ## The size computations and the sentinel -/

/-- C21: `vector<Point2D, int16_t>::resize(8192, segment)` on a segment with 252 free
bytes asks for `8192 * 8 = 65536` bytes; `_data_bytes()` returns this as the
`int16_t` value 0, `advance(0)` succeeds, and `resize` returns true without
moving the cursor.  On a segment at `0x10000`, `resize(5000, segment)` asks for
40000 bytes; `_data_bytes()` is -25536, `advance` is called with
`2 ^ 64 - 25536`, succeeds and moves the cursor back from 65540 to 40004. -/
theorem resize_byte_count_wraps :
    IntTy.i16.rep 8192 ∧ seg256.get_free_memory = 252 ∧ 8192 * Point2D.sizeof = 65536 ∧
    vector._data_bytes .i16 Point2D
      ((mem0.store .i16 4096 8192).store .i16 (4096 + 2) (seg256.calc_offset 4096)) 4096 = 0 ∧
    (vector.resize .i16 Point2D 4096 8192 seg256 mem0).out = .ok true ∧
    (vector.resize .i16 Point2D 4096 8192 seg256 mem0).seg = seg256 ∧
    IntTy.i16.rep 5000 ∧ seg_high.get_free_memory = 252 ∧ 5000 * Point2D.sizeof = 40000 ∧
    (vector.resize .i16 Point2D 65536 5000 seg_high mem0).out = .ok true ∧
    (vector.resize .i16 Point2D 65536 5000 seg_high mem0).seg.m_current = 40004 :=
  ⟨by decide, by decide, by decide, by decide, rfl, by decide, by decide, by decide, by decide,
    rfl, by decide⟩

/-- C22: on `hash_map<int32_t, char, int16_t>` with 3 buckets the key 40001 has the hash
40001, which converted to `int16_t` is -25535; `key2index` returns -2, not
`40001 mod 3 = 2`; `seek(-2)` passes the test `index < m_key_table_size` and reads
the slot at 4101, four bytes before the bucket array at 4105, inside the header of
the map, and resolves it to the address 4869 outside the segment. -/
theorem bucket_index_negative :
    demo1.out = .ok true ∧ hash_map.hash_size .i16 demo1.mem 4096 = 3 ∧
    int32_key.hash (key32 40001) = 40001 ∧
    hash_map.key2index .i16 int32_key demo1.mem 4096 (key32 40001) = -2 ∧
    hash_map.m_key_table .i16 demo1.mem 4096 = 4105 ∧
    hash_map.slot_addr .i16 demo1.mem 4096 (-2) = 4101 ∧
    hash_map.seek .i16 demo1.mem 4096 (-2) = 4869 ∧ demo1.seg.m_end = 4352 :=
  ⟨rfl, by decide, by decide, by decide, by decide, by decide, by decide, by decide⟩

/-- C25: a pointer stored at `A` and set from the raw address `A + 1`, or from a pointer
that resolves to `A + 1`, stores the displacement 1, resolves to null and compares
equal to null and to every null pointer; for every other non-null target with a
representable displacement it resolves to the target, so it resolves to null only
for the displacement 1; set from `A` itself it stores 0 and resolves to `A`. -/
theorem sentinel_collision (T : IntTy) (A : Nat) (hA : A + 1 < W) :
    offset_ptr.of_raw T A (A + 1) = 1 ∧
    offset_ptr.get A (offset_ptr.of_raw T A (A + 1)) = 0 ∧
    offset_ptr.eq_raw A (offset_ptr.of_raw T A (A + 1)) 0 = true ∧
    (∀ other, offset_ptr.eq_ptr A (offset_ptr.of_raw T A (A + 1)) other
        (offset_ptr.mk_default T other) = true) ∧
    (∀ other off, offset_ptr.get other off = A + 1 →
      offset_ptr.of_ptr T A other off = 1 ∧
      offset_ptr.get A (offset_ptr.of_ptr T A other off) = 0) ∧
    (∀ B, B ≠ 0 → B < W → T.rep ((B : Int) - A) →
      (offset_ptr.get A (offset_ptr.of_raw T A B) = 0 ↔ (B : Int) - A = 1) ∧
      ((B : Int) - A ≠ 1 → offset_ptr.get A (offset_ptr.of_raw T A B) = B)) ∧
    (A ≠ 0 → offset_ptr.of_raw T A A = 0 ∧ offset_ptr.get A (offset_ptr.of_raw T A A) = A) := by
  have hrep1 : T.rep (((A + 1 : Nat) : Int) - A) := by
    unfold IntTy.rep; cases T <;> simp [IntTy.lo, IntTy.hi]
  have h1 : offset_ptr.of_raw T A (A + 1) = 1 := by
    unfold offset_ptr.of_raw
    rw [raw_to_offset_of_ne T A (A + 1) (by omega) hrep1]
    push_cast; omega
  have hnull : ∀ other, offset_ptr.get other (offset_ptr.mk_default T other) = 0 := by
    intro other
    unfold offset_ptr.mk_default offset_ptr.get
    rw [raw_to_offset_null, offset_to_raw_one]
  have hg : offset_ptr.get A 1 = 0 := by
    unfold offset_ptr.get; exact offset_to_raw_one A
  refine ⟨h1, by rw [h1]; exact hg, ?_, ?_, ?_, ?_, ?_⟩
  · unfold offset_ptr.eq_raw
    rw [h1, hg]; rfl
  · intro other
    unfold offset_ptr.eq_ptr
    rw [h1, hg, hnull]; rfl
  · intro other off ho
    have : offset_ptr.of_ptr T A other off = 1 := by
      unfold offset_ptr.of_ptr
      rw [ho]
      exact h1
    exact ⟨this, by rw [this]; exact hg⟩
  · intro B hB0 hBW hrep
    have hof : offset_ptr.of_raw T A B = (B : Int) - A := by
      unfold offset_ptr.of_raw
      exact raw_to_offset_of_ne T A B hB0 hrep
    rw [hof]
    have hne : (B : Int) - A ≠ 1 → offset_ptr.get A ((B : Int) - A) = B := by
      intro hx
      unfold offset_ptr.get
      rw [offset_to_raw_of_ne _ _ hx]
      unfold toSize W at *; omega
    refine ⟨⟨fun h0 => ?_, fun h0 => by rw [h0]; exact hg⟩, hne⟩
    by_contra hx
    rw [hne hx] at h0
    exact hB0 h0
  · intro hA0
    have hof : offset_ptr.of_raw T A A = 0 := by
      unfold offset_ptr.of_raw
      rw [raw_to_offset_of_ne T A A hA0
        (by unfold IntTy.rep; cases T <;> simp [IntTy.lo, IntTy.hi])]
      omega
    refine ⟨hof, ?_⟩
    rw [hof]
    unfold offset_ptr.get
    rw [offset_to_raw_of_ne _ _ (by decide)]
    unfold toSize W at *; omega

/-- C25, for a 16-bit signed pointer stored at `0x1000`. -/
theorem sentinel_collision_witness :
    offset_ptr.of_raw .i16 4096 (4096 + 1) = 1 ∧
    offset_ptr.get 4096 (offset_ptr.of_raw .i16 4096 (4096 + 1)) = 0 ∧
    offset_ptr.eq_raw 4096 (offset_ptr.of_raw .i16 4096 (4096 + 1)) 0 = true ∧
    (offset_ptr.of_raw .i16 4096 4096 = 0 ∧
      offset_ptr.get 4096 (offset_ptr.of_raw .i16 4096 4096) = 4096) :=
  have h := sentinel_collision .i16 4096 (by decide)
  ⟨h.1, h.2.1, h.2.2.1, h.2.2.2.2.2.2 (by decide)⟩

/-- C26: `predict_capacity_bytes(1, 4)` of `hash_map<int32_t, int16_t, int16_t>` is
`10 + 2 * 4 + 8 * 1 = 26`; in a segment with 26 free bytes `construct` and
`init_hash(1, segment, 4)` succeed; the key -3 has the bucket index -3, whose slot
is the field `m_capacity`, which holds 1 and reads as null: `add(-3, 7)` returns
true and stores the pointer to its node there, which makes `capacity()` 14;
`add(0, 8)` then passes the capacity test and throws `no_enough_memory`. -/
theorem predict_not_sufficient :
    hash_map.predict_capacity_bytes .i16 int32_key Short 1 4 = 26 ∧
    (26 : Int) = ((hash_map.sizeof .i16 Short + IntTy.i16.bytes * 4
      + hash_node.sizeof .i16 int32_key Short * 1 : Nat) : Int) ∧
    (segment_manager.reset 4096 26).get_free_memory = 26 ∧
    slim0.out = .ok 4096 ∧ slim1.out = .ok true ∧
    hash_map.key2index .i16 int32_key slim1.mem 4096 (key32 (-3)) = -3 ∧
    hash_map.add .i16 int32_key Short 4 4096 (key32 (-3)) [7, 0] slim1.seg slim1.mem
      = some slim2 ∧
    slim2.out = .ok true ∧ hash_map.capacity .i16 slim2.mem 4096 = 14 ∧
    hash_map.add .i16 int32_key Short 4 4096 (key32 0) [8, 0] slim2.seg slim2.mem
      = some slim3 ∧
    slim3.out = .error hash_map.no_memory :=
  ⟨by decide, by decide, by decide, rfl, rfl, by decide, rfl, rfl, by decide, rfl, rfl⟩

/-! ## `hash_map`: the default value -/

/-- A well-formed map stays well formed in every memory that holds the same header
fields, bucket array and nodes. -/
theorem inv_agree (T : IntTy) (K : KeyTy) (V : ValTy) (this B C : Nat) (nodes : List Node)
    (s : segment_manager) (m m2 : Mem) (inv : HMInv T K V this B C nodes s m)
    (h1 : Mem.agree this (this + 4 * T.bytes) m m2)
    (h2 : Mem.agree (hash_map.m_key_table T m this) s.m_current m m2) :
    HMInv T K V this B C nodes s m2 := by
  have hb := inv.wide
  have hh := agree_mono _ _ (this + T.bytes) (this + 4 * T.bytes) m m2 h1 (by omega) (le_refl _)
  obtain ⟨a1, a2, a3⟩ := header_agree T m m2 this hh
  have hsz : hash_map.m_size T m2 this = hash_map.m_size T m this := by
    unfold hash_map.m_size
    exact load_agree _ _ _ _ h1 T _ (le_refl _) (by omega)
  have hth := inv.tbl_hi
  refine { valid := inv.valid, this_pos := inv.this_pos, wide := inv.wide,
           tbl_lo := by rw [a3]; exact inv.tbl_lo, tbl_hi := by rw [a3]; exact inv.tbl_hi,
           extent := inv.extent, top := inv.top, size_eq := by rw [hsz]; exact inv.size_eq,
           kts_eq := by rw [a1]; exact inv.kts_eq, cap_eq := by rw [a2]; exact inv.cap_eq,
           le_cap := inv.le_cap, buckets := inv.buckets, chains := ?_,
           bounded := by rw [a3]; exact inv.bounded, disjoint := inv.disjoint,
           keys_nodup := inv.keys_nodup, null_slots := ?_, null_next := ?_ }
  rotate_left
  · intro i hi hsk
    obtain ⟨sl, _, sh⟩ := inv_slot T K V this B C nodes s m inv i hi
    have hag : Mem.agree (hash_map.m_key_table T m this + i * T.bytes)
        (hash_map.m_key_table T m this + i * T.bytes + T.bytes) m m2 :=
      agree_mono _ _ _ _ m m2 h2 (by omega) (by omega)
    have hseek : hash_map.seek T m2 this i = hash_map.seek T m this i := by
      apply seek_agree T m m2 this i hh
      rw [sl]
      exact hag
    rw [a3, load_agree _ _ _ _ hag T _ (le_refl _) (le_refl _)]
    exact inv.null_slots i hi (by rw [← hseek]; exact hsk)
  · intro nd hnd hnx
    obtain ⟨b1, b2, _⟩ := inv.bounded nd hnd
    have hns : T.bytes ≤ hash_node.sizeof T K V := by unfold hash_node.sizeof; omega
    have hag : Mem.agree nd.addr (nd.addr + hash_node.sizeof T K V) m m2 :=
      agree_mono _ _ _ _ m m2 h2 (by omega) (by omega)
    obtain ⟨n1, _, _⟩ := node_agree T K V m m2 nd.addr hag
    rw [load_agree _ _ _ _ hag T nd.addr (le_refl _) (by omega)]
    exact inv.null_next nd hnd (by rw [← n1]; exact hnx)
  intro i hi
  obtain ⟨sl, _, sh⟩ := inv_slot T K V this B C nodes s m inv i hi
  have hseek : hash_map.seek T m2 this i = hash_map.seek T m this i := by
    apply seek_agree T m m2 this i hh
    rw [sl]
    exact agree_mono _ _ _ _ m m2 h2 (by omega) (by omega)
  rw [hseek]
  apply is_chain_agree T K V m m2 _ _ (inv.chains i hi)
  intro nd hnd
  have hmem : nd ∈ nodes := by
    unfold chain_of at hnd
    exact (List.mem_filter.mp hnd).1
  obtain ⟨b1, b2, _⟩ := inv.bounded nd hmem
  exact agree_mono _ _ _ _ m m2 h2 (by omega) (by omega)

/-- Writing a value into the default-value slot of a well-formed map leaves the map
well formed, with the same nodes. -/
theorem inv_write_default (T : IntTy) (K : KeyTy) (V : ValTy) (this B C : Nat)
    (nodes : List Node) (s : segment_manager) (m : Mem)
    (inv : HMInv T K V this B C nodes s m) (v : List Nat) (hv : v.length = V.sizeof) :
    HMInv T K V this B C nodes s (m.write (hash_map.m_default_value T this) v) := by
  have htl := inv.tbl_lo
  unfold hash_map.sizeof at htl
  apply inv_agree T K V this B C nodes s m _ inv
  · intro x hx1 hx2
    exact write_of_out m _ v x (by unfold hash_map.m_default_value; omega)
  · intro x hx1 hx2
    exact write_of_out m _ v x (by unfold hash_map.m_default_value; omega)

/-- A successful `begin_append_element` on a segment without address wrap: the
element is the cursor held before the call, the cursor moves by the header and
the value, and the header and the value are initialised. -/
theorem begin_append_ok (T : IntTy) (V : ValTy) (s : segment_manager) (m : Mem) (element : Nat)
    (hcur : s.m_current ≤ s.m_end)
    (htop : s.m_end + var_element.sizeof T + V.sizeof < W)
    (h : (var_vector.begin_append_element T V s m).out = .ok element) :
    element = s.m_current ∧ s.m_current + var_element.sizeof T + V.sizeof ≤ s.m_end ∧
    (var_vector.begin_append_element T V s m).seg
      = { s with m_current := s.m_current + var_element.sizeof T + V.sizeof } ∧
    (var_vector.begin_append_element T V s m).mem
      = (m.store T s.m_current 0).write (s.m_current + var_element.sizeof T) V.initBytes := by
  have hmod : (var_element.sizeof T + V.sizeof) % W = var_element.sizeof T + V.sizeof :=
    Nat.mod_eq_of_lt (by omega)
  have hmod2 : (s.m_current + (var_element.sizeof T + V.sizeof)) % W
      = s.m_current + (var_element.sizeof T + V.sizeof) := Nat.mod_eq_of_lt (by omega)
  have hdata : var_element.data T s.m_current = s.m_current + var_element.sizeof T := by
    unfold var_element.data var_element._get_data_addr
    rw [show ((s.m_current : Int) + (var_element.sizeof T : Int))
      = ((s.m_current + var_element.sizeof T : Nat) : Int) by push_cast; rfl]
    exact toSize_of_nat _ (by omega)
  by_cases hfit : s.m_current + (var_element.sizeof T + V.sizeof) ≤ s.m_end
  · have heq : var_vector.begin_append_element T V s m
        = { mem := (m.store T s.m_current 0).write (s.m_current + var_element.sizeof T)
              V.initBytes,
            seg := { s with m_current := s.m_current + var_element.sizeof T + V.sizeof },
            out := .ok s.m_current } := by
      unfold var_vector.begin_append_element
      simp [segment_manager.advance, segment_manager.enough, hmod, hmod2, hfit, hdata,
        segment_manager.current, Nat.add_assoc]
    rw [heq] at h ⊢
    have he : s.m_current = element := by
      have h2 : (Except.ok s.m_current : Except mmo_exception Nat) = .ok element := h
      injection h2
    exact ⟨he.symm, by omega, rfl, rfl⟩
  · have heq : (var_vector.begin_append_element T V s m).out
        = .error (out_of_space s (var_element.sizeof T + V.sizeof)) := by
      unfold var_vector.begin_append_element
      simp [segment_manager.advance, segment_manager.enough, hmod, hmod2, hfit]
    rw [heq] at h
    cases h

theorem laid_out_le (T : IntTy) (V : ValTy) (m : Mem) :
    ∀ (es : List (Nat × Nat)) (a c : Nat), laid_out T V m a es c → a ≤ c := by
  intro es
  induction es with
  | nil => intro a c h; exact le_of_eq h
  | cons p rest ih =>
    intro a c h
    obtain ⟨h1, h2, _, h4⟩ := h
    have := ih _ _ h4
    omega

/-- The layout of the elements depends on the bytes between the first element and
the cursor only. -/
theorem laid_out_agree (T : IntTy) (V : ValTy) (m m2 : Mem) :
    ∀ (es : List (Nat × Nat)) (a c : Nat), laid_out T V m a es c → Mem.agree a c m m2 →
      laid_out T V m2 a es c := by
  intro es
  induction es with
  | nil => intro a c h _; exact h
  | cons p rest ih =>
    intro a c h hag
    obtain ⟨h1, h2, h3, h4⟩ := h
    have hle := laid_out_le T V m rest _ _ h4
    refine ⟨h1, h2, ?_, ih _ _ h4 (agree_mono _ _ _ _ m m2 hag (by omega) (le_refl _))⟩
    unfold var_element.m_bytes at h3 ⊢
    unfold var_element.sizeof at h2
    rw [load_agree _ _ _ _ hag T p.1 (by omega) (by omega)]
    exact h3

/-- One more element after the laid out ones. -/
theorem laid_out_snoc (T : IntTy) (V : ValTy) (m : Mem) (e : Nat) :
    ∀ (es : List (Nat × Nat)) (a c : Nat), laid_out T V m a es c →
      c + var_element.sizeof T + V.sizeof ≤ e →
      var_element.m_bytes T m c = T.wrap ((e : Int) - (c + var_element.sizeof T : Nat)) →
      laid_out T V m a (es ++ [(c, e)]) e := by
  intro es
  induction es with
  | nil =>
    intro a c h h1 h2
    have : a = c := h
    subst this
    exact ⟨rfl, h1, h2, rfl⟩
  | cons p rest ih =>
    intro a c h h1 h2
    obtain ⟨g1, g2, g3, g4⟩ := h
    exact ⟨g1, g2, g3, ih _ _ g4 h1 h2⟩

/-- The facts of the layout about one of its elements. -/
theorem laid_out_mem (T : IntTy) (V : ValTy) (m : Mem) :
    ∀ (es : List (Nat × Nat)) (a c : Nat), laid_out T V m a es c → ∀ p ∈ es,
      a ≤ p.1 ∧ p.1 + var_element.sizeof T + V.sizeof ≤ p.2 ∧ p.2 ≤ c ∧
      var_element.m_bytes T m p.1 = T.wrap ((p.2 : Int) - (p.1 + var_element.sizeof T : Nat)) := by
  intro es
  induction es with
  | nil => intro a c _ p hp; cases hp
  | cons q rest ih =>
    intro a c h p hp
    obtain ⟨g1, g2, g3, g4⟩ := h
    have hle := laid_out_le T V m rest _ _ g4
    rcases List.mem_cons.mp hp with hq | hq
    · subst hq
      exact ⟨by omega, g2, hle, g3⟩
    · obtain ⟨i1, i2, i3, i4⟩ := ih _ _ g4 p hq
      exact ⟨by omega, i2, i3, i4⟩

/-- The elements of the layout by position: the first one is at the payload start and
each one starts where the one before it ends. -/
theorem laid_out_get (T : IntTy) (V : ValTy) (m : Mem) :
    ∀ (es : List (Nat × Nat)) (a c : Nat), laid_out T V m a es c →
      (∀ (h0 : 0 < es.length), (es.get ⟨0, h0⟩).1 = a) ∧
      (∀ k (hk : k + 1 < es.length),
        (es.get ⟨k + 1, hk⟩).1 = (es.get ⟨k, by omega⟩).2) := by
  intro es
  induction es with
  | nil =>
    intro a c _
    exact ⟨fun h0 => absurd h0 (by simp), fun k hk => absurd hk (by simp)⟩
  | cons q rest ih =>
    intro a c h
    obtain ⟨g1, g2, g3, g4⟩ := h
    obtain ⟨i1, i2⟩ := ih _ _ g4
    refine ⟨fun _ => g1, ?_⟩
    intro k hk
    cases k with
    | zero =>
      have := i1 (by simpa using hk)
      simpa using this
    | succ j =>
      have := i2 j (by simpa using hk)
      simpa using this

/-- What every build of a `var_vector` keeps: the segment bounds, the count, the
distance to the payload, and the layout of the elements. -/
theorem appended_inv (T : IntTy) (V : ValTy) (this : Nat) (s0 : segment_manager) (m0 : Mem)
    (hv : s0.valid) (hhdr : this + var_vector.sizeof T ≤ s0.m_current)
    (htop : s0.m_end + var_element.sizeof T + V.sizeof < W)
    (es : List (Nat × Nat)) (s : segment_manager) (m : Mem)
    (h : Appended T V this s0 m0 es s m) :
    s.m_buffer = s0.m_buffer ∧ s.m_capacity = s0.m_capacity ∧ s.m_end = s0.m_end ∧
    s0.m_current ≤ s.m_current ∧ s.m_current ≤ s.m_end ∧
    (T.rep es.length → var_vector.m_size T m this = es.length) ∧
    var_vector.m_offset T m this = T.wrap ((s0.m_current : Int) - this) ∧
    laid_out T V m s0.m_current es s.m_current := by
  obtain ⟨v1, v2, v3, v4, v5⟩ := hv
  have hb := bytes_pos T
  unfold var_vector.sizeof at hhdr
  induction h with
  | prepare =>
    refine ⟨rfl, rfl, rfl, le_refl _, v3, ?_, ?_, rfl⟩
    · intro _
      unfold var_vector.m_size var_vector.prepare_append_elements
      rw [load_store_other _ _ _ _ _ _ (Or.inl (le_refl _)), load_store_same]
      exact wrap_of_rep T 0 (by unfold IntTy.rep; cases T <;> simp [IntTy.lo, IntTy.hi])
    · unfold var_vector.m_offset var_vector.prepare_append_elements
      rw [load_store_same]
      rfl
  | append es s m element s1 m1 _ hbeg hnest ih =>
    obtain ⟨i1, i2, i3, i4, i5, i6, i7, i8⟩ := ih
    obtain ⟨b1, b2, b3, b4⟩ := begin_append_ok T V s m element i5 (by rw [i3]; exact htop) hbeg
    rw [b3, b4] at hnest
    obtain ⟨n1, n2, n3, n4, n5, n6⟩ := hnest
    subst b1
    simp only at n1 n2 n3 n4
    unfold var_element.sizeof at b2 n4 n6 htop
    have hes : (var_vector.end_append_element T this s.m_current s1 m1).seg = s1 := rfl
    have hem : (var_vector.end_append_element T this s.m_current s1 m1).mem
        = (m1.store T s.m_current
            (toSize ((s1.m_current : Int) - toSize ((s.m_current : Int) + T.bytes)))).store T this
            (var_vector.m_size T (m1.store T s.m_current
              (toSize ((s1.m_current : Int) - toSize ((s.m_current : Int) + T.bytes)))) this
              + 1) := rfl
    rw [hes, hem]
    -- the memory before `end_append_element` agrees with `m` below the new element
    have hm1 : ∀ x, x < s.m_current → m1 x = m x := by
      intro x hx
      rw [n6 x (Or.inl (by omega))]
      rw [write_of_out _ _ _ x (Or.inl (by omega))]
      unfold Mem.store
      exact write_of_out _ _ _ x (Or.inl hx)
    have hload1 : ∀ a, a + T.bytes ≤ s.m_current → m1.load T a = m.load T a := by
      intro a ha
      exact load_congr m m1 T a (fun k hk => hm1 (a + k) (by omega))
    have hsize1 : var_vector.m_size T (m1.store T s.m_current
        (toSize ((s1.m_current : Int) - toSize ((s.m_current : Int) + T.bytes)))) this
        = var_vector.m_size T m this := by
      unfold var_vector.m_size
      rw [load_store_other _ _ _ _ _ _ (Or.inl (by omega)), hload1 this (by omega)]
    have hrec : toSize ((s1.m_current : Int) - toSize ((s.m_current : Int) + T.bytes))
        = s1.m_current - (s.m_current + T.bytes) := by
      unfold toSize W at *
      omega
    refine ⟨by rw [n1, i1], by rw [n2, i2], by rw [n3, i3], by omega, n5, ?_, ?_, ?_⟩
    · intro hrep
      have hrep0 : T.rep es.length := by
        have := lo_le_zero T
        unfold IntTy.rep at hrep ⊢
        rw [List.length_append] at hrep
        push_cast at hrep
        omega
      unfold var_vector.m_size at hsize1 ⊢
      rw [load_store_same, hsize1]
      have := i6 hrep0
      unfold var_vector.m_size at this
      rw [this, wrap_of_rep]
      · rw [List.length_append]; push_cast; rfl
      · rw [List.length_append] at hrep
        push_cast at hrep
        exact hrep
    · unfold var_vector.m_offset at i7 ⊢
      rw [load_store_other _ _ _ _ _ _ (Or.inr (le_refl _)),
        load_store_other _ _ _ _ _ _ (Or.inl (by omega)), hload1 _ (by omega)]
      exact i7
    · apply laid_out_snoc
      · apply laid_out_agree T V m _ es _ _ i8
        intro x hx1 hx2
        unfold Mem.store
        rw [write_of_out _ _ _ x (Or.inr (by rw [encode_length]; omega)),
          write_of_out _ _ _ x (Or.inl hx2)]
        exact hm1 x hx2
      · unfold var_element.sizeof
        omega
      · unfold var_element.m_bytes var_element.sizeof
        rw [load_store_other _ _ _ _ _ _ (Or.inr (by omega)), load_store_same, hrec]
        rw [Nat.cast_sub (by omega : s.m_current + T.bytes ≤ s1.m_current)]

/-- The header of a laid out element whose length fits the size type holds the
length; when the header size plus the length fits too, `_total_bytes()` is the
distance to the end of the element; the walk of `_get_element` steps to the end
of the element. -/
theorem element_sizes (T : IntTy) (V : ValTy) (m : Mem) (h e : Nat) (he : e < W)
    (h1 : h + var_element.sizeof T + V.sizeof ≤ e)
    (h2 : var_element.m_bytes T m h = T.wrap ((e : Int) - (h + var_element.sizeof T : Nat)))
    (hrep : (e : Int) - (h + var_element.sizeof T : Nat) ≤ T.hi) :
    var_element.m_bytes T m h = (e : Int) - (h + var_element.sizeof T : Nat) ∧
    var_vector.next_element T m h = e ∧
    ((e : Int) - h ≤ T.hi →
      toSize ((h : Int) + var_element._total_bytes T m h) = e) := by
  have hlo := lo_le_zero T
  have hb : var_element.m_bytes T m h = (e : Int) - (h + var_element.sizeof T : Nat) := by
    rw [h2]
    apply wrap_of_rep
    unfold IntTy.rep
    push_cast
    omega
  refine ⟨hb, ?_, ?_⟩
  · unfold var_vector.next_element var_element._get_data_addr var_element._data_bytes
    rw [hb]
    unfold toSize W at *
    push_cast
    omega
  · intro htot
    unfold var_element._total_bytes var_element._data_bytes
    rw [hb]
    have hw : T.wrap ((toSize ((var_element.sizeof T : Int)
        + ((e : Int) - (h + var_element.sizeof T : Nat))) : Nat) : Int) = (e : Int) - h := by
      rw [wrap_toSize]
      rw [show (var_element.sizeof T : Int) + ((e : Int) - (h + var_element.sizeof T : Nat))
        = (e : Int) - h by push_cast; omega]
      apply wrap_of_rep
      unfold IntTy.rep
      omega
    rw [hw]
    unfold toSize W at *
    omega

/-- The bytes between the payload start and the cursor are the sum, over the
elements, of the header size plus the recorded length. -/
theorem laid_out_sum (T : IntTy) (V : ValTy) (m : Mem) :
    ∀ (es : List (Nat × Nat)) (a c : Nat), laid_out T V m a es c → c < W →
      (∀ p ∈ es, (p.2 : Int) - (p.1 + var_element.sizeof T : Nat) ≤ T.hi) →
      (c : Int) - a
        = (es.map (fun p => (var_element.sizeof T : Int) + var_element.m_bytes T m p.1)).sum := by
  intro es
  induction es with
  | nil =>
    intro a c h _ _
    have : a = c := h
    subst this
    simp
  | cons q rest ih =>
    intro a c h hc hrep
    obtain ⟨g1, g2, g3, g4⟩ := h
    have hle := laid_out_le T V m rest _ _ g4
    obtain ⟨hb, _, _⟩ := element_sizes T V m q.1 q.2 (by omega) g2 g3
      (hrep q (List.mem_cons_self _ _))
    have := ih _ _ g4 hc (fun p hp => hrep p (List.mem_cons_of_mem _ hp))
    rw [List.map_cons, List.sum_cons, ← this, hb, g1]
    push_cast
    omega

/-- The positions of the forward iteration and of the walk of `_get_element` on a
built `var_vector` whose count, distance to the payload and element sizes fit the
size type. -/
theorem var_positions (T : IntTy) (V : ValTy) (this : Nat) (s0 : segment_manager) (m0 : Mem)
    (hv : s0.valid) (hhdr : this + var_vector.sizeof T ≤ s0.m_current)
    (htop : s0.m_end + var_element.sizeof T + V.sizeof < W)
    (hoff : T.rep ((s0.m_current : Int) - this))
    (es : List (Nat × Nat)) (s : segment_manager) (m : Mem)
    (h : Appended T V this s0 m0 es s m) (hn : T.rep es.length)
    (htot : ∀ p ∈ es, (p.2 : Int) - p.1 ≤ T.hi) :
    var_vector._get_data_addr T m this = s0.m_current ∧
    var_vector.m_size T m this = es.length ∧
    (∀ k (hk : k < es.length),
      var_vector.visit T m this k
        = { element_ := (es.get ⟨k, hk⟩).1, index_ := k, size_ := es.length } ∧
      (var_vector.next_element T m)^[k] s0.m_current = (es.get ⟨k, hk⟩).1 ∧
      (es.get ⟨k, hk⟩).1 ≠ 0) ∧
    var_vector.visit T m this es.length = var_vector.end T m this := by
  obtain ⟨i1, i2, i3, i4, i5, i6, i7, i8⟩ :=
    appended_inv T V this s0 m0 hv hhdr htop es s m h
  obtain ⟨v1, v2, v3, v4, v5⟩ := hv
  have hsz := i6 hn
  have hdata : var_vector._get_data_addr T m this = s0.m_current := by
    unfold var_vector._get_data_addr
    rw [i7, wrap_of_rep T _ hoff]
    unfold toSize W at *
    omega
  obtain ⟨g0, gs⟩ := laid_out_get T V m es _ _ i8
  have hel : ∀ k (hk : k < es.length),
      s0.m_current ≤ (es.get ⟨k, hk⟩).1 ∧
      var_vector.next_element T m (es.get ⟨k, hk⟩).1 = (es.get ⟨k, hk⟩).2 ∧
      toSize (((es.get ⟨k, hk⟩).1 : Int) + var_element._total_bytes T m (es.get ⟨k, hk⟩).1)
        = (es.get ⟨k, hk⟩).2 := by
    intro k hk
    have hmem : es.get ⟨k, hk⟩ ∈ es := List.get_mem _ _ _
    obtain ⟨l1, l2, l3, l4⟩ := laid_out_mem T V m es _ _ i8 _ hmem
    have ht := htot _ hmem
    obtain ⟨_, e2, e3⟩ := element_sizes T V m _ _ (by omega) l2 l4 (by push_cast; omega)
    exact ⟨l1, e2, e3 ht⟩
  have hempty : var_vector.empty T m this = decide (es.length = 0) := by
    unfold var_vector.empty
    rw [hsz]
    simp
  have hrepk : ∀ k : Nat, k ≤ es.length → T.wrap (k : Int) = k := by
    intro k hk
    apply wrap_of_rep
    have := lo_le_zero T
    unfold IntTy.rep at hn ⊢
    omega
  have key : ∀ k (hk : k < es.length),
      var_vector.visit T m this k
        = { element_ := (es.get ⟨k, hk⟩).1, index_ := k, size_ := es.length } ∧
      (var_vector.next_element T m)^[k] s0.m_current = (es.get ⟨k, hk⟩).1 ∧
      (es.get ⟨k, hk⟩).1 ≠ 0 := by
    intro k
    induction k with
    | zero =>
      intro hk
      have h0 := g0 hk
      refine ⟨?_, ?_, by rw [h0]; omega⟩
      · unfold var_vector.visit var_vector.begin
        rw [hempty, Function.iterate_zero, id, if_neg (by simp only [decide_eq_true_eq]; omega), hdata, hsz, h0]
        rfl
      · rw [Function.iterate_zero, id, h0]
    | succ k ih =>
      intro hk
      obtain ⟨a1, a2, a3⟩ := ih (by omega)
      obtain ⟨l1, l2, l3⟩ := hel k (by omega)
      have hnext := gs k hk
      refine ⟨?_, ?_, ?_⟩
      · unfold var_vector.visit at a1 ⊢
        rw [Function.iterate_succ_apply', a1]
        unfold var_vector._iterator.next
        simp only
        rw [if_pos a3]
        have hw : T.wrap ((k : Int) + 1) = ((k + 1 : Nat) : Int) := by
          have := hrepk (k + 1) (by omega)
          push_cast at this ⊢
          exact this
        rw [hw, if_neg (by intro hx; have : k + 1 = es.length := by exact_mod_cast hx
                           omega), l3, hnext]
      · rw [Function.iterate_succ_apply', a2, l2, hnext]
      · have := (hel (k + 1) hk).1
        omega
  refine ⟨hdata, hsz, key, ?_⟩
  cases hlen : es.length with
  | zero =>
    unfold var_vector.visit var_vector.begin
    rw [hempty, Function.iterate_zero, id, if_pos (by simp only [decide_eq_true_eq]; omega)]
  | succ n =>
    obtain ⟨a1, _, a3⟩ := key n (by omega)
    unfold var_vector.visit at a1 ⊢
    rw [Function.iterate_succ_apply', a1]
    unfold var_vector._iterator.next var_vector.end
    simp only
    rw [if_pos a3]
    have hw : T.wrap ((n : Int) + 1) = ((n + 1 : Nat) : Int) := by
      have := hrepk (n + 1) (by omega)
      push_cast at this ⊢
      exact this
    have e : ((n + 1 : Nat) : Int) = (es.length : Int) := by rw [hlen]
    rw [hw, hsz, if_pos e, e]

/-- The assignment of a string element between `begin_append_element` and
`end_append_element` is a nested allocation: it writes the string header inside
the element and the bytes it takes from the segment. -/
theorem string_assign_nested (T : IntTy) (element : Nat) (src : List Nat)
    (s : segment_manager) (m : Mem) (hv : s.valid)
    (hobj : element + var_element.sizeof T + string.sizeof T ≤ s.m_current)
    (hn : T.rep src.length) (hp : T.promote.rep ((src.length : Int) + 1))
    (hfit : src ≠ [] → s.m_current + src.length + 1 ≤ s.m_end) :
    NestedAlloc T element s m
      (string.assign T (var_element.object T element) src s m).seg
      (string.assign T (var_element.object T element) src s m).mem := by
  obtain ⟨v1, v2, v3, v4, v5⟩ := hv
  have hb := bytes_pos T
  unfold var_element.sizeof string.sizeof at hobj
  have hobjaddr : var_element.object T element = element + T.bytes := by
    unfold var_element.object var_element.data var_element._get_data_addr var_element.sizeof
    rw [show ((element : Int) + (T.bytes : Int)) = ((element + T.bytes : Nat) : Int) by
      push_cast; rfl]
    exact toSize_of_nat _ (by omega)
  rw [hobjaddr]
  by_cases hne : src = []
  · subst hne
    have hsz0 : string.m_size T (m.store T (element + T.bytes) ((([] : List Nat).length : Nat) : Int))
        (element + T.bytes) = 0 := by
      unfold string.m_size
      rw [load_store_same]
      exact wrap_of_rep T 0 (by unfold IntTy.rep; cases T <;> simp [IntTy.lo, IntTy.hi])
    have heq : string.assign T (element + T.bytes) [] s m
        = { mem := m.store T (element + T.bytes) (([] : List Nat).length : Nat), seg := s,
            out := .ok true } := by
      unfold string.assign
      simp only [hsz0, if_true]
    rw [heq]
    refine ⟨rfl, rfl, rfl, le_refl _, v3, ?_⟩
    show Mem.frame (element + var_element.sizeof T) s.m_current m
      (m.store T (element + T.bytes) (([] : List Nat).length : Nat))
    exact frame_store m T _ _ _ _ (by unfold var_element.sizeof; omega) (by omega)
  · have hfit2 := hfit hne
    have hsp : toSize (T.promote.wrap ((src.length : Int) + 1)) = src.length + 1 := by
      rw [wrap_of_rep _ _ hp]
      rw [show ((src.length : Int) + 1) = ((src.length + 1 : Nat) : Int) by push_cast; rfl]
      exact toSize_of_nat _ (by omega)
    have ha := alloc_of_fits s (src.length + 1) (by omega) v5
    have heq := string_assign_eq T (element + T.bytes) src s m ⟨v1, v2, v3, v4, v5⟩ hne
      (Or.inl (by unfold string.sizeof; omega)) hn hfit2
      (by rw [hsp, ha]; show s.m_current ≠ 0; omega)
    rw [heq, hsp, ha]
    refine ⟨rfl, rfl, rfl, by show s.m_current ≤ s.m_current + (src.length + 1); omega,
      by show s.m_current + (src.length + 1) ≤ s.m_end; omega, ?_⟩
    show Mem.frame (element + var_element.sizeof T) (s.m_current + (src.length + 1)) m _
    unfold var_element.sizeof
    apply frame_trans _ _ m _ _ _ (frame_write _ _ _ _ _ (by omega) (by simp; omega))
    apply frame_trans _ _ m _ _ _ (frame_write _ _ _ _ _ (by omega) (by omega))
    apply frame_trans _ _ m _ _ _ (frame_store _ _ _ _ _ _ (by omega) (by omega))
    exact frame_store _ _ _ _ _ _ (by omega) (by omega)

/-! ## `var_vector`: the claims -/

/-- C9 (amended): for every build of a `var_vector` by `prepare_append_elements` and
appends made back to back, in a well-formed segment with the header below the
payload, when the count, the distance from the header to the payload and, for
every element, the header size plus the recorded length fit the size type:
`size()` is the number of appends, `begin()` advanced `k` times is on the element
returned by the `k`-th `begin_append_element` and differs from `end()`, after the
last element the iterator is `end()`, an empty vector has `begin() == end()`, and
one more append leaves the recorded length of every earlier element as it was. -/
theorem var_vector_iteration (T : IntTy) (V : ValTy) (this : Nat) (s0 : segment_manager)
    (m0 : Mem) (hv : s0.valid) (hhdr : this + var_vector.sizeof T ≤ s0.m_current)
    (htop : s0.m_end + var_element.sizeof T + V.sizeof < W)
    (hoff : T.rep ((s0.m_current : Int) - this))
    (es : List (Nat × Nat)) (s : segment_manager) (m : Mem)
    (h : Appended T V this s0 m0 es s m) (hn : T.rep es.length)
    (htot : ∀ p ∈ es, (p.2 : Int) - p.1 ≤ T.hi) :
    var_vector.size T m this = es.length ∧
    (∀ k (hk : k < es.length),
      var_vector.visit T m this k
        = { element_ := (es.get ⟨k, hk⟩).1, index_ := k, size_ := es.length } ∧
      var_vector.visit T m this k ≠ var_vector.end T m this) ∧
    var_vector.visit T m this es.length = var_vector.end T m this ∧
    (es = [] → var_vector.begin T m this = var_vector.end T m this) ∧
    (∀ element s1 m1, (var_vector.begin_append_element T V s m).out = .ok element →
      NestedAlloc T element (var_vector.begin_append_element T V s m).seg
        (var_vector.begin_append_element T V s m).mem s1 m1 →
      ∀ p ∈ es,
        var_element.m_bytes T (var_vector.end_append_element T this element s1 m1).mem p.1
          = var_element.m_bytes T m p.1) := by
  obtain ⟨p1, p2, p3, p4⟩ :=
    var_positions T V this s0 m0 hv hhdr htop hoff es s m h hn htot
  refine ⟨p2, ?_, p4, ?_, ?_⟩
  · intro k hk
    obtain ⟨a1, _, a3⟩ := p3 k hk
    refine ⟨a1, ?_⟩
    rw [a1]
    intro hx
    exact a3 (congrArg var_vector._iterator.element_ hx)
  · intro he
    subst he
    exact p4
  · intro element s1 m1 hbeg hnest p hp
    have h2 := Appended.append es s m element s1 m1 h hbeg hnest
    obtain ⟨_, _, _, _, _, _, _, l2⟩ := appended_inv T V this s0 m0 hv hhdr htop _ _ _ h2
    obtain ⟨_, _, _, _, _, _, _, l1⟩ := appended_inv T V this s0 m0 hv hhdr htop _ _ _ h
    rw [(laid_out_mem T V _ _ _ _ l2 p (List.mem_append_left _ hp)).2.2.2,
      (laid_out_mem T V _ _ _ _ l1 p hp).2.2.2]

/-- C10 (amended): for every build of a `var_vector` as in C9, when the distance from
the header to the payload and the length of every element, the cursor at its
`end_append_element` minus its payload start, fit the size type: the header of
every element holds exactly this length, and the cursor minus the payload start
of the vector is the sum over the elements of the header size plus the recorded
length. -/
theorem var_vector_bytes (T : IntTy) (V : ValTy) (this : Nat) (s0 : segment_manager)
    (m0 : Mem) (hv : s0.valid) (hhdr : this + var_vector.sizeof T ≤ s0.m_current)
    (htop : s0.m_end + var_element.sizeof T + V.sizeof < W)
    (hoff : T.rep ((s0.m_current : Int) - this))
    (es : List (Nat × Nat)) (s : segment_manager) (m : Mem)
    (h : Appended T V this s0 m0 es s m)
    (hlen : ∀ p ∈ es, (p.2 : Int) - (var_element.data T p.1 : Nat) ≤ T.hi) :
    (∀ p ∈ es, var_element.m_bytes T m p.1 = (p.2 : Int) - (var_element.data T p.1 : Nat)) ∧
    (s.m_current : Int) - (var_vector._get_data_addr T m this : Nat)
      = (es.map (fun p => (var_element.sizeof T : Int) + var_element.m_bytes T m p.1)).sum := by
  obtain ⟨i1, i2, i3, i4, i5, i6, i7, i8⟩ :=
    appended_inv T V this s0 m0 hv hhdr htop es s m h
  obtain ⟨v1, v2, v3, v4, v5⟩ := hv
  have hdata : var_vector._get_data_addr T m this = s0.m_current := by
    unfold var_vector._get_data_addr
    rw [i7, wrap_of_rep T _ hoff]
    unfold toSize W at *
    omega
  have hd : ∀ p ∈ es, var_element.data T p.1 = p.1 + var_element.sizeof T := by
    intro p hp
    obtain ⟨l1, l2, l3, _⟩ := laid_out_mem T V m es _ _ i8 p hp
    unfold var_element.data var_element._get_data_addr
    rw [show ((p.1 : Int) + (var_element.sizeof T : Int))
      = ((p.1 + var_element.sizeof T : Nat) : Int) by push_cast; rfl]
    exact toSize_of_nat _ (by omega)
  have hlen2 : ∀ p ∈ es, (p.2 : Int) - (p.1 + var_element.sizeof T : Nat) ≤ T.hi := by
    intro p hp
    have := hlen p hp
    rw [hd p hp] at this
    exact this
  constructor
  · intro p hp
    obtain ⟨l1, l2, l3, l4⟩ := laid_out_mem T V m es _ _ i8 p hp
    rw [hd p hp]
    exact (element_sizes T V m _ _ (by omega) l2 l4 (hlen2 p hp)).1
  · rw [hdata]
    exact laid_out_sum T V m es _ _ i8 (by omega) hlen2

/-- C24 (amended): for every build of a `var_vector` as in C9, when the count, the
distance from the header to the payload and, for every element, the header size
plus the recorded length fit the size type: for every `k < size()` the walk of
`_get_element(k)` ends on the element the iterator is on after `k` steps, so
`at(k)` and `operator[](k)` are the object the iterator gives; `front()` is the
object of the first and `back()` the object of the last position. -/
theorem random_access_agrees (T : IntTy) (V : ValTy) (this : Nat) (s0 : segment_manager)
    (m0 : Mem) (hv : s0.valid) (hhdr : this + var_vector.sizeof T ≤ s0.m_current)
    (htop : s0.m_end + var_element.sizeof T + V.sizeof < W)
    (hoff : T.rep ((s0.m_current : Int) - this))
    (es : List (Nat × Nat)) (s : segment_manager) (m : Mem)
    (h : Appended T V this s0 m0 es s m) (hn : T.rep es.length)
    (htot : ∀ p ∈ es, (p.2 : Int) - p.1 ≤ T.hi) :
    (∀ k (hk : k < es.length),
      var_vector._get_element T m this k = (var_vector.visit T m this k).element_ ∧
      var_vector.at_ T m this k
        = var_element.object T (var_vector.visit T m this k).element_ ∧
      (var_vector.visit T m this k).element_ = (es.get ⟨k, hk⟩).1) ∧
    (0 < es.length →
      var_vector.front T m this = var_element.object T (var_vector.visit T m this 0).element_ ∧
      var_vector.back T m this
        = var_element.object T (var_vector.visit T m this (es.length - 1)).element_) := by
  obtain ⟨p1, p2, p3, p4⟩ :=
    var_positions T V this s0 m0 hv hhdr htop hoff es s m h hn htot
  have hge : ∀ k (hk : k < es.length),
      var_vector._get_element T m this k = (var_vector.visit T m this k).element_ := by
    intro k hk
    obtain ⟨a1, a2, _⟩ := p3 k hk
    unfold var_vector._get_element
    rw [p1, Int.toNat_ofNat, a2, a1]
  constructor
  · intro k hk
    refine ⟨hge k hk, ?_, ?_⟩
    · unfold var_vector.at_
      rw [hge k hk]
    · rw [(p3 k hk).1]
  · intro hpos
    constructor
    · unfold var_vector.front
      have := hge 0 hpos
      rw [show ((0 : Nat) : Int) = 0 from rfl] at this
      rw [this]
    · unfold var_vector.back
      have hw : T.wrap (var_vector.m_size T m this - 1) = ((es.length - 1 : Nat) : Int) := by
        rw [p2]
        have := lo_le_zero T
        rw [wrap_of_rep]
        · omega
        · unfold IntTy.rep at hn ⊢
          omega
      rw [hw, hge (es.length - 1) (by omega)]

/-! ## `var_vector`: the concrete builds -/

theorem vec_a1_appended :
    Appended .i16 Word 4096 seg256 mem0 [(4100, 4106)] vec_a1.1 vec_a1.2 :=
  Appended.append [] seg256 (var_vector.prepare_append_elements .i16 4096 seg256 mem0) 4100
    ((var_vector.begin_append_element .i16 Word vec_a0.1 vec_a0.2).seg.alloc 0).2
    (var_vector.begin_append_element .i16 Word vec_a0.1 vec_a0.2).mem
    Appended.prepare rfl
    ⟨by decide, by decide, by decide, by decide, by decide, frame_refl _ _ _⟩

theorem vec_a2_appended :
    Appended .i16 Word 4096 seg256 mem0 [(4100, 4106), (4106, 4115)] vec_a2.1 vec_a2.2 :=
  Appended.append [(4100, 4106)] vec_a1.1 vec_a1.2 4106
    ((var_vector.begin_append_element .i16 Word vec_a1.1 vec_a1.2).seg.alloc 3).2
    (var_vector.begin_append_element .i16 Word vec_a1.1 vec_a1.2).mem
    vec_a1_appended rfl
    ⟨by decide, by decide, by decide, by decide, by decide, frame_refl _ _ _⟩

theorem str_a1_appended :
    Appended .i16 (string_ty .i16) 4096 seg256 mem0 [(4100, 4111)] str_a1.1 str_a1.2 :=
  Appended.append [] seg256 (var_vector.prepare_append_elements .i16 4096 seg256 mem0) 4100
    (string.assign .i16 (var_element.object .i16 4100) road
      (var_vector.begin_append_element .i16 (string_ty .i16) str_a0.1 str_a0.2).seg
      (var_vector.begin_append_element .i16 (string_ty .i16) str_a0.1 str_a0.2).mem).seg
    (string.assign .i16 (var_element.object .i16 4100) road
      (var_vector.begin_append_element .i16 (string_ty .i16) str_a0.1 str_a0.2).seg
      (var_vector.begin_append_element .i16 (string_ty .i16) str_a0.1 str_a0.2).mem).mem
    Appended.prepare rfl
    (string_assign_nested .i16 4100 road _ _ (by decide) (by decide) (by decide) (by decide)
      (fun _ => by decide))

theorem str_a2_appended :
    Appended .i16 (string_ty .i16) 4096 seg256 mem0 [(4100, 4111), (4111, 4117)]
      str_a2.1 str_a2.2 :=
  Appended.append [(4100, 4111)] str_a1.1 str_a1.2 4111
    (string.assign .i16 (var_element.object .i16 4111) []
      (var_vector.begin_append_element .i16 (string_ty .i16) str_a1.1 str_a1.2).seg
      (var_vector.begin_append_element .i16 (string_ty .i16) str_a1.1 str_a1.2).mem).seg
    (string.assign .i16 (var_element.object .i16 4111) []
      (var_vector.begin_append_element .i16 (string_ty .i16) str_a1.1 str_a1.2).seg
      (var_vector.begin_append_element .i16 (string_ty .i16) str_a1.1 str_a1.2).mem).mem
    str_a1_appended rfl
    (string_assign_nested .i16 4111 [] _ _ (by decide) (by decide) (by decide) (by decide)
      (fun h => absurd rfl h))

theorem str_a3_appended :
    Appended .i16 (string_ty .i16) 4096 seg256 mem0
      [(4100, 4111), (4111, 4117), (4117, 4134)] str_a3.1 str_a3.2 :=
  Appended.append [(4100, 4111), (4111, 4117)] str_a2.1 str_a2.2 4117
    (string.assign .i16 (var_element.object .i16 4117) [48, 49, 50, 51, 52, 53, 54, 55, 56, 57]
      (var_vector.begin_append_element .i16 (string_ty .i16) str_a2.1 str_a2.2).seg
      (var_vector.begin_append_element .i16 (string_ty .i16) str_a2.1 str_a2.2).mem).seg
    (string.assign .i16 (var_element.object .i16 4117) [48, 49, 50, 51, 52, 53, 54, 55, 56, 57]
      (var_vector.begin_append_element .i16 (string_ty .i16) str_a2.1 str_a2.2).seg
      (var_vector.begin_append_element .i16 (string_ty .i16) str_a2.1 str_a2.2).mem).mem
    str_a2_appended rfl
    (string_assign_nested .i16 4117 [48, 49, 50, 51, 52, 53, 54, 55, 56, 57] _ _ (by decide)
      (by decide) (by decide) (by decide) (fun _ => by decide))

/-- C9, for two elements appended to a `var_vector<Word, int16_t>` in a 256-byte
segment, the second with 3 nested bytes: the iteration visits the elements at
4100 and 4106 and then is `end()`. -/
theorem var_vector_iteration_witness :
    var_vector.size .i16 vec_a2.2 4096 = 2 ∧
    var_vector.visit .i16 vec_a2.2 4096 0 = { element_ := 4100, index_ := 0, size_ := 2 } ∧
    var_vector.visit .i16 vec_a2.2 4096 1 = { element_ := 4106, index_ := 1, size_ := 2 } ∧
    var_vector.visit .i16 vec_a2.2 4096 2 = var_vector.end .i16 vec_a2.2 4096 :=
  have h := var_vector_iteration .i16 Word 4096 seg256 mem0 (by decide) (by decide) (by decide)
    (by decide) _ vec_a2.1 vec_a2.2 vec_a2_appended (by decide) (by decide)
  ⟨h.1, (h.2.1 0 (by decide)).1, (h.2.1 1 (by decide)).1, h.2.2.1⟩

/-- C9 fails for a `var_vector<Word, int16_t>` in a 50000-byte segment whose first
element has 32762 nested bytes: its recorded length 32766 fits `int16_t`, as does
the length 4 of the second element, which `begin_append_element` returned at
36868; `_total_bytes()` of the first element is -32768, and `begin()` advanced once
is on the address `4100 - 32768` modulo `2 ^ 64`. -/
theorem iteration_step_wraps :
    var_vector.size .i16 big_a2.2 4096 = 2 ∧
    var_element.m_bytes .i16 big_a2.2 4100 = 32766 ∧
    (var_vector.begin_append_element .i16 Word big_a1.1 big_a1.2).out = .ok 36868 ∧
    var_element.m_bytes .i16 big_a2.2 36868 = 4 ∧
    var_element._total_bytes .i16 big_a2.2 4100 = -32768 ∧
    var_vector.visit .i16 big_a2.2 4096 1
      = { element_ := 18446744073709522948, index_ := 1, size_ := 2 } :=
  ⟨by decide, by decide, rfl, by decide, by decide, by decide⟩

/-- C10, for three `string<int16_t>` elements assigned 4, 0 and 10 bytes: the headers
hold 9, 4 and 15, the cursor minus the payload start, and the 34 bytes taken
are the sum of the header size plus the recorded length; the iteration gives 3
elements whose strings have the sizes 4, 0 and 10. -/
theorem var_vector_bytes_witness :
    ((∀ p ∈ ([(4100, 4111), (4111, 4117), (4117, 4134)] : List (Nat × Nat)),
        var_element.m_bytes .i16 str_a3.2 p.1 = (p.2 : Int) - (var_element.data .i16 p.1 : Nat)) ∧
      (str_a3.1.m_current : Int) - (var_vector._get_data_addr .i16 str_a3.2 4096 : Nat)
        = (([(4100, 4111), (4111, 4117), (4117, 4134)] : List (Nat × Nat)).map
            (fun p => (var_element.sizeof .i16 : Int) + var_element.m_bytes .i16 str_a3.2 p.1)).sum) ∧
    var_vector.size .i16 str_a3.2 4096 = 3 ∧
    (List.range 3).map (fun k => string.size .i16 str_a3.2
        (var_element.object .i16 (var_vector.visit .i16 str_a3.2 4096 k).element_))
      = [4, 0, 10] ∧
    (List.range 3).map (fun k => var_element.m_bytes .i16 str_a3.2
        (var_vector.visit .i16 str_a3.2 4096 k).element_) = [9, 4, 15] ∧
    var_vector.visit .i16 str_a3.2 4096 3 = var_vector.end .i16 str_a3.2 4096 ∧
    str_a3.1.m_current - 4100 = (2 + 9) + (2 + 4) + (2 + 15) :=
  ⟨var_vector_bytes .i16 (string_ty .i16) 4096 seg256 mem0 (by decide) (by decide) (by decide)
    (by decide) _ str_a3.1 str_a3.2 str_a3_appended (by decide),
   by decide, by decide, by decide, by decide, by decide⟩

/-- C10 fails for a `var_vector<Word, int16_t>` in a 50000-byte segment whose element
has 40000 nested bytes: at `end_append_element` the cursor is 44106 and the
payload start 4102, and the header records -25532, not 40004. -/
theorem recorded_length_wraps :
    (var_vector.begin_append_element .i16 Word big_a0.1 big_a0.2).out = .ok 4100 ∧
    var_element.data .i16 4100 = 4102 ∧ big_b1.1.m_current = 44106 ∧
    var_element.m_bytes .i16 big_b1.2 4100 = -25532 ∧
    var_vector.size .i16 big_b1.2 4096 = 1 :=
  ⟨rfl, by decide, by decide, by decide, by decide⟩

/-- C24, for the two elements of `var_vector_iteration_witness`: `at(1)` is the object
at 4108 of the element at 4106 the iterator is on after one step; `front()` and
`back()` are the objects of the first and of the last position. -/
theorem random_access_agrees_witness :
    (var_vector._get_element .i16 vec_a2.2 4096 1
        = (var_vector.visit .i16 vec_a2.2 4096 1).element_ ∧
      var_vector.at_ .i16 vec_a2.2 4096 1
        = var_element.object .i16 (var_vector.visit .i16 vec_a2.2 4096 1).element_ ∧
      (var_vector.visit .i16 vec_a2.2 4096 1).element_ = 4106) ∧
    (var_vector.front .i16 vec_a2.2 4096
        = var_element.object .i16 (var_vector.visit .i16 vec_a2.2 4096 0).element_ ∧
      var_vector.back .i16 vec_a2.2 4096
        = var_element.object .i16 (var_vector.visit .i16 vec_a2.2 4096 (2 - 1)).element_) :=
  have h := random_access_agrees .i16 Word 4096 seg256 mem0 (by decide) (by decide) (by decide)
    (by decide) _ vec_a2.1 vec_a2.2 vec_a2_appended (by decide) (by decide)
  ⟨h.1 1 (by decide), h.2 (by decide)⟩

/-- C24 fails on the build of `iteration_step_wraps`: `at(1)` is the object at 36870 of
the second element, and the iterator after one step is on the address
`4100 - 32768` modulo `2 ^ 64`, whose object is two bytes further. -/
theorem random_access_differs :
    var_vector.size .i16 big_a2.2 4096 = 2 ∧
    var_vector.at_ .i16 big_a2.2 4096 1 = 36870 ∧
    var_element.object .i16 (var_vector.visit .i16 big_a2.2 4096 1).element_
      = 18446744073709522950 :=
  ⟨by decide, by decide, by decide⟩

/-! ## Relocation: the bytes of the copy -/

theorem size_of_valid (s : segment_manager) (hv : s.valid) :
    s.size = s.m_current - s.m_buffer := by
  obtain ⟨h1, h2, h3, h4, h5⟩ := hv
  unfold segment_manager.size toSize W at *
  omega

/-- The loaded copy holds the bytes of the segment. -/
theorem load_copy_copied (s : segment_manager) (buf2 : Nat) (m : Mem) :
    Copied s buf2 m (load_copy s buf2 m) := by
  intro k hk
  unfold load_copy
  rw [if_pos ⟨by omega, by omega⟩]
  congr 1
  omega

/-- Every used byte of the segment is found at its moved address in the copy. -/
theorem copied_at (s : segment_manager) (buf2 : Nat) (m m2 : Mem) (hv : s.valid)
    (h : Copied s buf2 m m2) (x : Nat) (h1 : s.m_buffer ≤ x) (h2 : x < s.m_current) :
    m2 (moved s buf2 x) = m x := by
  have := h (x - s.m_buffer) (by rw [size_of_valid s hv]; omega)
  unfold moved
  rw [this]
  unfold segment_manager.data
  congr 1
  omega

theorem moved_add (s : segment_manager) (buf2 x k : Nat) (h : s.m_buffer ≤ x) :
    moved s buf2 x + k = moved s buf2 (x + k) := by
  unfold moved; omega

theorem copied_read (s : segment_manager) (buf2 : Nat) (m m2 : Mem) (hv : s.valid)
    (h : Copied s buf2 m m2) (a n : Nat) (h1 : s.m_buffer ≤ a) (h2 : a + n ≤ s.m_current) :
    m2.read (moved s buf2 a) n = m.read a n := by
  unfold Mem.read
  apply List.map_congr_left
  intro k hk
  have hk := List.mem_range.mp hk
  rw [moved_add s buf2 a k h1]
  exact copied_at s buf2 m m2 hv h (a + k) (by omega) (by omega)

theorem copied_load (s : segment_manager) (buf2 : Nat) (m m2 : Mem) (hv : s.valid)
    (h : Copied s buf2 m m2) (T : IntTy) (a : Nat) (h1 : s.m_buffer ≤ a)
    (h2 : a + T.bytes ≤ s.m_current) : m2.load T (moved s buf2 a) = m.load T a := by
  unfold Mem.load
  rw [copied_read s buf2 m m2 hv h a T.bytes h1 h2]

/-- A stored displacement that resolves to `q` from the field at `P`, both in a range
that the size type spans, is the exact distance from `P` to `q`. -/
theorem displacement_exact (T : IntTy) (P q : Nat) (off : Int) (hoff : T.rep off)
    (hP : P < W) (hq : toSize ((P : Int) + off) = q) (hrep : T.rep ((q : Int) - P)) :
    off = (q : Int) - P := by
  have hqW := toSize_lt ((P : Int) + off)
  rw [hq] at hqW
  unfold IntTy.rep at hoff hrep
  unfold toSize W at *
  cases T <;> simp only [IntTy.lo, IntTy.hi] at hoff hrep <;> omega

/-- The displacement from `P` to `q` resolves, from the moved field, to the moved target. -/
theorem moved_target (s : segment_manager) (buf2 P q : Nat) (hP : s.m_buffer ≤ P)
    (hq : s.m_buffer ≤ q) (hW : moved s buf2 q < W) :
    toSize ((moved s buf2 P : Int) + ((q : Int) - P)) = moved s buf2 q := by
  unfold moved toSize W at *
  omega

/-- A pointer field that does not hold the null displacement and resolves to a target
inside the segment resolves, in the copy, to the moved target. -/
theorem moved_get (s : segment_manager) (buf2 : Nat) (T : IntTy) (P q : Nat) (off : Int)
    (hoff : T.rep off) (hPW : P < W) (hne : off ≠ 1) (hget : offset_ptr.get P off = q)
    (hrep : T.rep ((q : Int) - P)) (hP : s.m_buffer ≤ P) (hq : s.m_buffer ≤ q)
    (hW : moved s buf2 q < W) :
    offset_ptr.get (moved s buf2 P) off = moved s buf2 q := by
  unfold offset_ptr.get at *
  rw [offset_to_raw_of_ne _ _ hne] at hget ⊢
  rw [displacement_exact T P q off hoff hPW hget hrep]
  exact moved_target s buf2 P q hP hq hW

/-! ## Relocation: `vector` and `string` -/

/-- What a successful `assign` leaves in the header and in the segment: the count, the
exact distance to the payload, and the cursor after the payload. -/
theorem vector_assign_layout (T : IntTy) (V : ValTy) (this : Nat) (src : List (List Nat))
    (seg : segment_manager) (m : Mem)
    (hv : seg.valid)
    (hdisj : this + vector.sizeof T ≤ seg.m_current ∨
      seg.m_current + src.length * V.sizeof ≤ this)
    (hsrc : ∀ v ∈ src, V.isVal v)
    (hn : T.rep src.length) (hbytes : T.rep ((src.length * V.sizeof : Nat) : Int))
    (hoff : T.rep ((seg.m_current : Int) - this))
    (hfree : src.length * V.sizeof ≤ seg.get_free_memory) :
    (vector.assign T V this src seg m).seg
      = { seg with m_current := seg.m_current + src.length * V.sizeof } ∧
    vector.size T (vector.assign T V this src seg m).mem this = src.length ∧
    vector.data T (vector.assign T V this src seg m).mem this = seg.m_current := by
  obtain ⟨hr1, hr2, hr3, hr4⟩ := resize_spec T V this src.length seg m hv hdisj hn hbytes hoff hfree
  obtain ⟨h1, h2, h3, _, h5⟩ := hv
  rw [get_free_memory_of_le seg h3 h5] at hfree
  have hfit : seg.m_current + src.length * V.sizeof < W := by omega
  obtain ⟨lf, _⟩ := assign_loop_spec T V this seg.m_current src.length hdisj hfit hn src 0
    (vector.resize T V this (T.wrap src.length) seg m).mem hr4 (by simp) hsrc
  simp only [Nat.zero_mul, Nat.add_zero, Nat.zero_add, Nat.cast_zero] at lf
  have heq : vector.assign T V this src seg m =
      { mem := (vector.assign_loop T V this src 0
          (vector.resize T V this (T.wrap src.length) seg m).mem).1,
        seg := (vector.resize T V this (T.wrap src.length) seg m).seg, out := .ok true } := by
    simp only [vector.assign, hr1]
  rw [heq]
  refine ⟨hr2, ?_, ?_⟩
  · have hl := load_frame _ _ _ _ lf T this (by unfold vector.sizeof at hdisj; omega)
    unfold vector.m_size at hr3
    unfold vector.size vector.m_size
    rw [hl]; exact hr3
  · have hl := load_frame _ _ _ _ lf T (this + T.bytes)
      (by unfold vector.sizeof at hdisj; omega)
    unfold vector.data vector._get_data_addr vector.m_offset at hr4 ⊢
    rw [hl]; exact hr4

/-- The reads of a vector whose header and payload lie in the used bytes of a segment
give the same count and the same elements, at the moved addresses, in a copy of the
segment. -/
theorem vector_moved (s : segment_manager) (buf2 : Nat) (m m2 : Mem) (hv : s.valid)
    (hc : Copied s buf2 m m2) (T : IntTy) (V : ValTy) (this n p : Nat)
    (hthis : s.m_buffer ≤ this) (hhdr : this + vector.sizeof T ≤ s.m_current)
    (hdata : vector.data T m this = p) (hoff : T.rep ((p : Int) - this))
    (hp : s.m_buffer ≤ p) (hpe : p + n * V.sizeof ≤ s.m_current)
    (hW : buf2 + s.m_capacity < W) :
    vector.size T m2 (moved s buf2 this) = vector.size T m this ∧
    vector.data T m2 (moved s buf2 this) = moved s buf2 p ∧
    ∀ i : Nat, i < n →
      vector.at_ T V m this i = p + i * V.sizeof ∧
      vector.at_ T V m2 (moved s buf2 this) i = moved s buf2 (vector.at_ T V m this i) ∧
      m2.read (vector.at_ T V m2 (moved s buf2 this) i) V.sizeof
        = m.read (vector.at_ T V m this i) V.sizeof := by
  have hv2 := hv
  obtain ⟨v1, v2, v3, v4, v5⟩ := hv
  have hb := bytes_pos T
  unfold vector.sizeof at hhdr
  have hsz : vector.size T m2 (moved s buf2 this) = vector.size T m this := by
    unfold vector.size vector.m_size
    exact copied_load s buf2 m m2 hv2 hc T this hthis (by omega)
  have hof : vector.m_offset T m2 (moved s buf2 this) = vector.m_offset T m this := by
    unfold vector.m_offset
    rw [moved_add s buf2 this T.bytes hthis]
    exact copied_load s buf2 m m2 hv2 hc T (this + T.bytes) (by omega) (by omega)
  have hex : vector.m_offset T m this = (p : Int) - this := by
    unfold vector.data vector._get_data_addr at hdata
    exact displacement_exact T this p _ (load_rep _ _ _) (by omega) hdata hoff
  have hd2 : vector.data T m2 (moved s buf2 this) = moved s buf2 p := by
    unfold vector.data vector._get_data_addr
    rw [hof, hex]
    exact moved_target s buf2 this p hthis hp (by unfold moved; omega)
  refine ⟨hsz, hd2, ?_⟩
  intro i hi
  have hmul := Nat.mul_le_mul_right V.sizeof (show i + 1 ≤ n by omega)
  rw [Nat.add_mul, Nat.one_mul] at hmul
  have ha : vector.at_ T V m this i = p + i * V.sizeof := by
    unfold vector.at_
    rw [hdata]
    exact toSize_add_mul p i V.sizeof (by omega)
  have ha2 : vector.at_ T V m2 (moved s buf2 this) i = moved s buf2 (p + i * V.sizeof) := by
    unfold vector.at_
    rw [hd2, ← moved_add s buf2 p _ hp]
    exact toSize_add_mul _ i V.sizeof (by unfold moved; omega)
  refine ⟨ha, by rw [ha2, ha], ?_⟩
  rw [ha2, ha]
  exact copied_read s buf2 m m2 hv2 hc _ _ (by omega) (by omega)

/-- The reads of a string whose header and bytes lie in the used bytes of a segment
give the same length and the same bytes, terminator included, at the moved address,
in a copy of the segment. -/
theorem string_moved (s : segment_manager) (buf2 : Nat) (m m2 : Mem) (hv : s.valid)
    (hc : Copied s buf2 m m2) (T : IntTy) (this n p : Nat)
    (hthis : s.m_buffer ≤ this) (hhdr : this + string.sizeof T ≤ s.m_current)
    (hdata : string.c_str T m this = p) (hoff : T.rep ((p : Int) - this))
    (hp : s.m_buffer ≤ p) (hpe : p + n ≤ s.m_current)
    (hW : buf2 + s.m_capacity < W) :
    string.size T m2 (moved s buf2 this) = string.size T m this ∧
    string.c_str T m2 (moved s buf2 this) = moved s buf2 p ∧
    m2.read (string.c_str T m2 (moved s buf2 this)) n = m.read (string.c_str T m this) n := by
  have hv2 := hv
  obtain ⟨v1, v2, v3, v4, v5⟩ := hv
  have hb := bytes_pos T
  unfold string.sizeof at hhdr
  have hsz : string.size T m2 (moved s buf2 this) = string.size T m this := by
    unfold string.size string.m_size
    exact copied_load s buf2 m m2 hv2 hc T this hthis (by omega)
  have hof : string.m_offset T m2 (moved s buf2 this) = string.m_offset T m this := by
    unfold string.m_offset
    rw [moved_add s buf2 this T.bytes hthis]
    exact copied_load s buf2 m m2 hv2 hc T (this + T.bytes) (by omega) (by omega)
  have hex : string.m_offset T m this = (p : Int) - this := by
    unfold string.c_str string._get_data_addr at hdata
    exact displacement_exact T this p _ (load_rep _ _ _) (by omega) hdata hoff
  have hd2 : string.c_str T m2 (moved s buf2 this) = moved s buf2 p := by
    unfold string.c_str string._get_data_addr
    rw [hof, hex]
    exact moved_target s buf2 this p hthis hp (by unfold moved; omega)
  refine ⟨hsz, hd2, ?_⟩
  rw [hd2, hdata]
  exact copied_read s buf2 m m2 hv2 hc _ _ hp hpe

/-- What a successful `assign` of a non-empty source leaves in the header and in the
segment: the length, the payload at the cursor held before the call, and the cursor
after the terminator. -/
theorem string_assign_layout (T : IntTy) (this : Nat) (src : List Nat) (seg : segment_manager)
    (m : Mem) (hv : seg.valid) (hne : src ≠ [])
    (hdisj : this + string.sizeof T ≤ seg.m_current ∨ seg.m_current + src.length + 1 ≤ this)
    (hn : T.rep src.length) (hp1 : T.promote.rep ((src.length : Int) + 1))
    (hoff : T.rep ((seg.m_current : Int) - this))
    (hfree : src.length + 1 ≤ seg.get_free_memory) :
    (string.assign T this src seg m).seg
      = { seg with m_current := seg.m_current + (src.length + 1) } ∧
    string.size T (string.assign T this src seg m).mem this = src.length ∧
    string.c_str T (string.assign T this src seg m).mem this = seg.m_current := by
  have hv2 := hv
  obtain ⟨h1, h2, h3, _, h5⟩ := hv
  rw [get_free_memory_of_le seg h3 h5] at hfree
  have hfit : seg.m_current + src.length + 1 ≤ seg.m_end := by omega
  have hp : T.promote.wrap ((src.length : Int) + 1) = ((src.length + 1 : Nat) : Int) := by
    rw [wrap_of_rep _ _ hp1]; push_cast; rfl
  have hts : toSize (T.promote.wrap ((src.length : Int) + 1)) = src.length + 1 := by
    rw [hp]; exact toSize_of_nat _ (by omega)
  have hal := alloc_of_fits seg (src.length + 1) (by omega) h5
  have halloc : (seg.alloc (toSize (T.promote.wrap ((src.length : Int) + 1)))).1 ≠ 0 := by
    rw [hts, hal]; show seg.m_current ≠ 0; omega
  have heq := string_assign_eq T this src seg m hv2 hne hdisj hn hfit halloc
  rw [hts, hal] at heq
  rw [heq]
  have hsz := string_size_after_stores T this src.length seg m hn
  have hof := string_offset_after_stores T this src.length seg m hoff
  obtain ⟨r1, r2, _, _⟩ := string_reads_after_assign T this src seg.m_current _
    hdisj (by omega) hsz
  exact ⟨rfl, r1, r2 hof⟩

/-- What `assign` of the empty source leaves: the length zero and the segment as it was. -/
theorem string_assign_empty (T : IntTy) (this : Nat) (seg : segment_manager) (m : Mem) :
    (string.assign T this [] seg m).seg = seg ∧
    string.size T (string.assign T this [] seg m).mem this = 0 := by
  have hsz1 : string.m_size T (m.store T this ((([] : List Nat).length : Nat) : Int)) this = 0 := by
    unfold string.m_size
    rw [load_store_same]
    exact wrap_of_rep T _ ⟨lo_le_zero T, by cases T <;> simp [IntTy.hi]⟩
  have heq : string.assign T this [] seg m
      = { mem := m.store T this ((([] : List Nat).length : Nat) : Int), seg := seg,
          out := .ok true } := by
    simp only [string.assign, hsz1, if_true]
  rw [heq]
  exact ⟨rfl, hsz1⟩

/-! ## Relocation: `var_vector` -/

/-- The positions of the forward iteration on a `var_vector` whose header holds the
count and resolves to the first of the laid out elements, when the count and the
element sizes fit the size type. -/
theorem layout_positions (T : IntTy) (V : ValTy) (this : Nat) (m : Mem) (a c : Nat)
    (es : List (Nat × Nat)) (ha : 0 < a) (hc : c < W)
    (hdata : var_vector._get_data_addr T m this = a)
    (hsz : var_vector.m_size T m this = es.length)
    (hl : laid_out T V m a es c) (hn : T.rep es.length)
    (htot : ∀ p ∈ es, (p.2 : Int) - p.1 ≤ T.hi) :
    (∀ k (hk : k < es.length),
      var_vector.visit T m this k
        = { element_ := (es.get ⟨k, hk⟩).1, index_ := k, size_ := es.length }) ∧
    var_vector.visit T m this es.length = var_vector.end T m this := by
  obtain ⟨g0, gs⟩ := laid_out_get T V m es _ _ hl
  have hel : ∀ k (hk : k < es.length),
      a ≤ (es.get ⟨k, hk⟩).1 ∧
      toSize (((es.get ⟨k, hk⟩).1 : Int) + var_element._total_bytes T m (es.get ⟨k, hk⟩).1)
        = (es.get ⟨k, hk⟩).2 := by
    intro k hk
    have hmem : es.get ⟨k, hk⟩ ∈ es := List.get_mem _ _ _
    obtain ⟨l1, l2, l3, l4⟩ := laid_out_mem T V m es _ _ hl _ hmem
    have ht := htot _ hmem
    obtain ⟨_, _, e3⟩ := element_sizes T V m _ _ (by omega) l2 l4 (by push_cast; omega)
    exact ⟨l1, e3 ht⟩
  have hempty : var_vector.empty T m this = decide (es.length = 0) := by
    unfold var_vector.empty
    rw [hsz]
    simp
  have hrepk : ∀ k : Nat, k ≤ es.length → T.wrap (k : Int) = k := by
    intro k hk
    apply wrap_of_rep
    have := lo_le_zero T
    unfold IntTy.rep at hn ⊢
    omega
  have key : ∀ k (hk : k < es.length),
      var_vector.visit T m this k
        = { element_ := (es.get ⟨k, hk⟩).1, index_ := k, size_ := es.length } := by
    intro k
    induction k with
    | zero =>
      intro hk
      have h0 := g0 hk
      unfold var_vector.visit var_vector.begin
      rw [hempty, Function.iterate_zero, id, if_neg (by simp only [decide_eq_true_eq]; omega),
        hdata, hsz, h0]
      rfl
    | succ k ih =>
      intro hk
      have a1 := ih (by omega)
      obtain ⟨l1, l3⟩ := hel k (by omega)
      have hnext := gs k hk
      unfold var_vector.visit at a1 ⊢
      rw [Function.iterate_succ_apply', a1]
      unfold var_vector._iterator.next
      simp only
      rw [if_pos (by omega)]
      have hw : T.wrap ((k : Int) + 1) = ((k + 1 : Nat) : Int) := by
        have := hrepk (k + 1) (by omega)
        push_cast at this ⊢
        exact this
      rw [hw, if_neg (by intro hx; have : k + 1 = es.length := by exact_mod_cast hx
                         omega), l3, hnext]
  refine ⟨key, ?_⟩
  cases hlen : es.length with
  | zero =>
    unfold var_vector.visit var_vector.begin
    rw [hempty, Function.iterate_zero, id, if_pos (by simp only [decide_eq_true_eq]; omega)]
  | succ n =>
    have a1 := key n (by omega)
    obtain ⟨l1, _⟩ := hel n (by omega)
    unfold var_vector.visit at a1 ⊢
    rw [Function.iterate_succ_apply', a1]
    unfold var_vector._iterator.next var_vector.end
    simp only
    rw [if_pos (by omega)]
    have hw : T.wrap ((n : Int) + 1) = ((n + 1 : Nat) : Int) := by
      have := hrepk (n + 1) (by omega)
      push_cast at this ⊢
      exact this
    have e : ((n + 1 : Nat) : Int) = (es.length : Int) := by rw [hlen]
    rw [hw, hsz, if_pos e, e]

/-- The layout of the elements in the copy of the segment. -/
theorem laid_out_moved (s : segment_manager) (buf2 : Nat) (m m2 : Mem) (hv : s.valid)
    (hc : Copied s buf2 m m2) (T : IntTy) (V : ValTy) :
    ∀ (es : List (Nat × Nat)) (a c : Nat), laid_out T V m a es c → s.m_buffer ≤ a →
      c ≤ s.m_current →
      laid_out T V m2 (moved s buf2 a)
        (es.map (fun p => (moved s buf2 p.1, moved s buf2 p.2))) (moved s buf2 c) := by
  intro es
  induction es with
  | nil =>
    intro a c h _ _
    have : a = c := h
    subst this
    exact rfl
  | cons p rest ih =>
    intro a c h ha hcc
    obtain ⟨h1, h2, h3, h4⟩ := h
    have hle := laid_out_le T V m rest _ _ h4
    have hb := bytes_pos T
    unfold var_element.sizeof at h2
    refine ⟨by show moved s buf2 p.1 = moved s buf2 a; rw [h1], ?_, ?_,
      ih _ _ h4 (by omega) hcc⟩
    · show moved s buf2 p.1 + var_element.sizeof T + V.sizeof ≤ moved s buf2 p.2
      unfold moved var_element.sizeof
      omega
    · show var_element.m_bytes T m2 (moved s buf2 p.1)
        = T.wrap ((moved s buf2 p.2 : Int) - (moved s buf2 p.1 + var_element.sizeof T : Nat))
      unfold var_element.m_bytes at h3 ⊢
      rw [copied_load s buf2 m m2 hv hc T p.1 (by omega) (by omega), h3]
      congr 1
      unfold moved var_element.sizeof
      push_cast
      omega

/-- The iteration over a `var_vector` whose header and elements lie in the used bytes
of a segment visits, in a copy of the segment, the moved elements in the same order,
with the same recorded lengths and the same payload bytes, and ends after the same
number of steps. -/
theorem var_vector_moved (s : segment_manager) (buf2 : Nat) (m m2 : Mem) (hv : s.valid)
    (hc : Copied s buf2 m m2) (T : IntTy) (V : ValTy) (this a : Nat) (es : List (Nat × Nat))
    (hthis : s.m_buffer ≤ this) (hhdr : this + var_vector.sizeof T ≤ a)
    (hdata : var_vector._get_data_addr T m this = a) (hoff : T.rep ((a : Int) - this))
    (hsz : var_vector.m_size T m this = es.length)
    (hl : laid_out T V m a es s.m_current) (hn : T.rep es.length)
    (htot : ∀ p ∈ es, (p.2 : Int) - p.1 ≤ T.hi)
    (hb2 : 0 < buf2) (hW : buf2 + s.m_capacity < W) :
    var_vector.size T m2 (moved s buf2 this) = var_vector.size T m this ∧
    (∀ k (hk : k < es.length),
      var_vector.visit T m this k
        = { element_ := (es.get ⟨k, hk⟩).1, index_ := k, size_ := es.length } ∧
      var_vector.visit T m2 (moved s buf2 this) k
        = { element_ := moved s buf2 (es.get ⟨k, hk⟩).1, index_ := k, size_ := es.length } ∧
      var_element._data_bytes T m2 (moved s buf2 (es.get ⟨k, hk⟩).1)
        = var_element._data_bytes T m (es.get ⟨k, hk⟩).1 ∧
      var_element.object T (moved s buf2 (es.get ⟨k, hk⟩).1)
        = moved s buf2 (var_element.object T (es.get ⟨k, hk⟩).1) ∧
      m2.read (var_element.object T (moved s buf2 (es.get ⟨k, hk⟩).1))
          (toSize (var_element._data_bytes T m (es.get ⟨k, hk⟩).1))
        = m.read (var_element.object T (es.get ⟨k, hk⟩).1)
          (toSize (var_element._data_bytes T m (es.get ⟨k, hk⟩).1))) ∧
    var_vector.visit T m this es.length = var_vector.end T m this ∧
    var_vector.visit T m2 (moved s buf2 this) es.length
      = var_vector.end T m2 (moved s buf2 this) := by
  have hv2 := hv
  obtain ⟨v1, v2, v3, v4, v5⟩ := hv
  have hb := bytes_pos T
  unfold var_vector.sizeof at hhdr
  have hac := laid_out_le T V m es _ _ hl
  have hsz2 : var_vector.m_size T m2 (moved s buf2 this) = var_vector.m_size T m this := by
    unfold var_vector.m_size
    exact copied_load s buf2 m m2 hv2 hc T this hthis (by omega)
  have hof : var_vector.m_offset T m2 (moved s buf2 this) = var_vector.m_offset T m this := by
    unfold var_vector.m_offset
    rw [moved_add s buf2 this T.bytes hthis]
    exact copied_load s buf2 m m2 hv2 hc T (this + T.bytes) (by omega) (by omega)
  have hex : var_vector.m_offset T m this = (a : Int) - this := by
    unfold var_vector._get_data_addr at hdata
    exact displacement_exact T this a _ (load_rep _ _ _) (by omega) hdata hoff
  have hd2 : var_vector._get_data_addr T m2 (moved s buf2 this) = moved s buf2 a := by
    unfold var_vector._get_data_addr
    rw [hof, hex]
    exact moved_target s buf2 this a hthis (by omega) (by unfold moved; omega)
  have hl2 := laid_out_moved s buf2 m m2 hv2 hc T V es a _ hl (by omega) (le_refl _)
  have hlen2 : (es.map (fun p => (moved s buf2 p.1, moved s buf2 p.2))).length = es.length :=
    List.length_map _ _
  obtain ⟨p1, p2⟩ := layout_positions T V this m a s.m_current es (by omega) (by omega)
    hdata hsz hl hn htot
  obtain ⟨q1, q2⟩ := layout_positions T V (moved s buf2 this) m2 (moved s buf2 a)
    (moved s buf2 s.m_current) (es.map (fun p => (moved s buf2 p.1, moved s buf2 p.2)))
    (by unfold moved; omega) (by unfold moved; omega) hd2 (by rw [hsz2, hsz, hlen2])
    hl2 (by rw [hlen2]; exact hn)
    (by
      intro p hp
      obtain ⟨q, hq, rfl⟩ := List.mem_map.mp hp
      obtain ⟨l1, l2, l3, _⟩ := laid_out_mem T V m es _ _ hl q hq
      have := htot q hq
      show (moved s buf2 q.2 : Int) - moved s buf2 q.1 ≤ T.hi
      unfold moved
      push_cast
      omega)
  rw [hlen2] at q2
  refine ⟨hsz2, ?_, p2, q2⟩
  intro k hk
  have hmem : es.get ⟨k, hk⟩ ∈ es := List.get_mem _ _ _
  obtain ⟨l1, l2, l3, l4⟩ := laid_out_mem T V m es _ _ hl _ hmem
  have ht := htot _ hmem
  unfold var_element.sizeof at l2
  obtain ⟨e1, _, _⟩ := element_sizes T V m _ _ (by omega) l2 l4
    (by unfold var_element.sizeof; push_cast; omega)
  have hq := q1 k (by rw [hlen2]; exact hk)
  have hget : ((es.map (fun p => (moved s buf2 p.1, moved s buf2 p.2))).get
      ⟨k, by rw [hlen2]; exact hk⟩).1 = moved s buf2 (es.get ⟨k, hk⟩).1 := by
    simp
  rw [hget, hlen2] at hq
  have hobj : var_element.object T (es.get ⟨k, hk⟩).1 = (es.get ⟨k, hk⟩).1 + T.bytes := by
    unfold var_element.object var_element.data var_element._get_data_addr var_element.sizeof
    rw [show (((es.get ⟨k, hk⟩).1 : Int) + (T.bytes : Int))
      = (((es.get ⟨k, hk⟩).1 + T.bytes : Nat) : Int) by push_cast; rfl]
    exact toSize_of_nat _ (by omega)
  have hobj2 : var_element.object T (moved s buf2 (es.get ⟨k, hk⟩).1)
      = moved s buf2 ((es.get ⟨k, hk⟩).1 + T.bytes) := by
    unfold var_element.object var_element.data var_element._get_data_addr var_element.sizeof
    rw [show ((moved s buf2 (es.get ⟨k, hk⟩).1 : Int) + (T.bytes : Int))
      = ((moved s buf2 (es.get ⟨k, hk⟩).1 + T.bytes : Nat) : Int) by push_cast; rfl]
    rw [moved_add s buf2 _ _ (by omega)]
    exact toSize_of_nat _ (by unfold moved; omega)
  have hdb : var_element._data_bytes T m2 (moved s buf2 (es.get ⟨k, hk⟩).1)
      = var_element._data_bytes T m (es.get ⟨k, hk⟩).1 := by
    unfold var_element._data_bytes var_element.m_bytes
    exact copied_load s buf2 m m2 hv2 hc T _ (by omega) (by omega)
  refine ⟨p1 k hk, hq, hdb, by rw [hobj2, hobj], ?_⟩
  rw [hobj2, hobj]
  have hlen : toSize (var_element._data_bytes T m (es.get ⟨k, hk⟩).1)
      = (es.get ⟨k, hk⟩).2 - ((es.get ⟨k, hk⟩).1 + T.bytes) := by
    unfold var_element._data_bytes
    rw [e1]
    unfold var_element.sizeof toSize W at *
    omega
  rw [hlen]
  exact copied_read s buf2 m m2 hv2 hc _ _ (by omega) (by omega)

/-! ## Relocation: `hash_map` -/

theorem chain_of_moved (s : segment_manager) (buf2 : Nat) (T : IntTy) (K : KeyTy) (B : Nat)
    (nodes : List Node) (i : Nat) :
    chain_of T K B (nodes.map (Node.moved s buf2)) i
      = (chain_of T K B nodes i).map (Node.moved s buf2) := by
  unfold chain_of
  rw [List.filter_map]
  rfl

theorem order_from_moved (s : segment_manager) (buf2 : Nat) (T : IntTy) (K : KeyTy) (B : Nat)
    (nodes : List Node) (j : Nat) :
    order_from T K B (nodes.map (Node.moved s buf2)) j
      = (order_from T K B nodes j).map (Node.moved s buf2) := by
  unfold order_from
  rw [List.map_flatMap]
  congr 1
  funext i
  exact chain_of_moved s buf2 T K B nodes i

theorem reloc_eq_zero (s : segment_manager) (buf2 x : Nat) (hb2 : 0 < buf2) :
    reloc s buf2 x = 0 ↔ x = 0 := by
  unfold reloc moved
  by_cases h : x = 0
  · simp [h]
  · simp [h]; omega

/-- A pointer field inside the used bytes that is null by the displacement 1, or points
forward to an object inside the used bytes, resolves in the copy to the relocated
pointer. -/
theorem moved_field (s : segment_manager) (buf2 : Nat) (m m2 : Mem) (hv : s.valid)
    (hc : Copied s buf2 m m2) (T : IntTy) (P this : Nat)
    (hext : (s.m_end : Int) - this ≤ T.hi) (hthis : s.m_buffer ≤ this) (hP : this ≤ P)
    (hPe : P + T.bytes ≤ s.m_current)
    (hnull : offset_ptr.get P (m.load T P) = 0 → m.load T P = 1)
    (hfwd : offset_ptr.get P (m.load T P) ≠ 0 →
      P ≤ offset_ptr.get P (m.load T P) ∧ offset_ptr.get P (m.load T P) ≤ s.m_current)
    (hW : buf2 + s.m_capacity < W) :
    offset_ptr.get (moved s buf2 P) (m2.load T (moved s buf2 P))
      = reloc s buf2 (offset_ptr.get P (m.load T P)) := by
  have hv2 := hv
  obtain ⟨v1, v2, v3, v4, v5⟩ := hv
  rw [copied_load s buf2 m m2 hv2 hc T P (by omega) hPe]
  by_cases h0 : offset_ptr.get P (m.load T P) = 0
  · rw [h0, hnull h0]
    unfold offset_ptr.get reloc
    rw [offset_to_raw_one, if_pos rfl]
  · obtain ⟨f1, f2⟩ := hfwd h0
    have hne : m.load T P ≠ 1 := by
      intro h1
      apply h0
      rw [h1]
      unfold offset_ptr.get
      exact offset_to_raw_one P
    unfold reloc
    rw [if_neg h0]
    have hlo := lo_le_zero T
    exact moved_get s buf2 T P _ _ (load_rep _ _ _) (by omega) hne rfl
      (by unfold IntTy.rep; omega) (by omega) (by omega) (by unfold moved; omega)

/-- A chain of nodes inside the used bytes is, in the copy, the chain of the moved
nodes. -/
theorem is_chain_moved (s : segment_manager) (buf2 : Nat) (m m2 : Mem) (hv : s.valid)
    (hc : Copied s buf2 m m2) (T : IntTy) (K : KeyTy) (V : ValTy) (this : Nat)
    (hext : (s.m_end : Int) - this ≤ T.hi) (hthis : s.m_buffer ≤ this)
    (hb2 : 0 < buf2) (hW : buf2 + s.m_capacity < W) :
    ∀ (l : List Node) (p : Nat), is_chain T K V m p l →
      l.Pairwise (fun x y => x.addr + hash_node.sizeof T K V ≤ y.addr) →
      (∀ nd ∈ l, this ≤ nd.addr ∧ nd.addr + hash_node.sizeof T K V ≤ s.m_current ∧
        (hash_node.next T m nd.addr = 0 → m.load T nd.addr = 1)) →
      is_chain T K V m2 (reloc s buf2 p) (l.map (Node.moved s buf2)) ∧
      ∀ nd ∈ l, hash_node.next T m2 (moved s buf2 nd.addr)
        = reloc s buf2 (hash_node.next T m nd.addr) := by
  have hv2 := hv
  obtain ⟨v1, v2, v3, v4, v5⟩ := hv
  intro l
  induction l with
  | nil =>
    intro p h _ _
    have : p = 0 := h
    subst this
    exact ⟨rfl, fun nd hnd => absurd hnd (List.not_mem_nil _)⟩
  | cons nd rest ih =>
    intro p h hpw hall
    obtain ⟨h1, h2, h3, h4, h5⟩ := h
    obtain ⟨a1, a2, a3⟩ := hall nd (List.mem_cons_self _ _)
    unfold hash_node.sizeof at a2
    have hpw2 := List.pairwise_cons.mp hpw
    have hnext : hash_node.next T m2 (moved s buf2 nd.addr)
        = reloc s buf2 (hash_node.next T m nd.addr) := by
      unfold hash_node.next
      apply moved_field s buf2 m m2 hv2 hc T nd.addr this hext hthis a1 (by omega) a3 _ hW
      intro hne
      cases rest with
      | nil => exact absurd h5 hne
      | cons x r =>
        obtain ⟨g1, _⟩ := h5
        have hx := hpw2.1 x (List.mem_cons_self _ _)
        obtain ⟨b1, b2, _⟩ := hall x (List.mem_cons_of_mem _ (List.mem_cons_self _ _))
        unfold hash_node.next at g1
        rw [g1]
        omega
    obtain ⟨ih1, ih2⟩ := ih _ h5 hpw2.2 (fun x hx => hall x (List.mem_cons_of_mem _ hx))
    refine ⟨⟨?_, ?_, ?_, ?_, ?_⟩, ?_⟩
    · show reloc s buf2 p = moved s buf2 nd.addr
      unfold reloc
      rw [h1, if_neg h2]
    · show moved s buf2 nd.addr ≠ 0
      unfold moved; omega
    · show hash_node.key T K m2 (moved s buf2 nd.addr) = nd.key
      rw [← h3]
      unfold hash_node.key hash_node.key_addr
      rw [moved_add s buf2 _ _ (by omega)]
      exact copied_read s buf2 m m2 hv2 hc _ _ (by omega) (by omega)
    · show hash_node.value T K V m2 (moved s buf2 nd.addr) = nd.val
      rw [← h4]
      unfold hash_node.value hash_node.value_addr
      rw [moved_add s buf2 _ _ (by omega), moved_add s buf2 _ _ (by omega)]
      exact copied_read s buf2 m m2 hv2 hc _ _ (by omega) (by omega)
    · show is_chain T K V m2 (hash_node.next T m2 (moved s buf2 nd.addr))
        (rest.map (Node.moved s buf2))
      rw [hnext]
      exact ih1
    · intro x hx
      rcases List.mem_cons.mp hx with e | e
      · rw [e]; exact hnext
      · exact ih2 x e


/-- Every node of a well-formed map belongs to the chain of one of the buckets. -/
theorem node_in_chain (T : IntTy) (K : KeyTy) (V : ValTy) (this B C : Nat) (nodes : List Node)
    (s : segment_manager) (m : Mem) (inv : HMInv T K V this B C nodes s m) (nd : Node)
    (hnd : nd ∈ nodes) : ∃ i, i < B ∧ nd ∈ chain_of T K B nodes i := by
  have hrepB : T.rep B := by rw [← inv.kts_eq]; exact load_rep _ _ _
  obtain ⟨_, _, h0, _, _⟩ := inv.bounded nd hnd
  have hB : 0 < B := by
    rcases inv.buckets with h | h
    · have := inv.le_cap
      have := List.length_pos_of_mem hnd
      omega
    · exact h
  obtain ⟨_, hlt⟩ := bucket_of_lt T K B nd.key hB hrepB h0
  obtain ⟨i, hbi⟩ : ∃ i : Nat, bucket_of T K B nd.key = (i : Int) :=
    ⟨(bucket_of T K B nd.key).toNat, by omega⟩
  refine ⟨i, by omega, ?_⟩
  unfold chain_of
  exact List.mem_filter.mpr ⟨hnd, by simpa using hbi⟩

/-- The header fields of a well-formed map read the same in the copy, and the bucket
array is found at its moved address. -/
theorem header_moved (s : segment_manager) (buf2 : Nat) (m m2 : Mem)
    (hc : Copied s buf2 m m2) (T : IntTy) (K : KeyTy) (V : ValTy) (this B C : Nat)
    (nodes : List Node) (inv : HMInv T K V this B C nodes s m) (hthis : s.m_buffer ≤ this)
    (hW : buf2 + s.m_capacity < W) :
    hash_map.m_size T m2 (moved s buf2 this) = hash_map.m_size T m this ∧
    hash_map.m_key_table_size T m2 (moved s buf2 this) = hash_map.m_key_table_size T m this ∧
    hash_map.m_capacity T m2 (moved s buf2 this) = hash_map.m_capacity T m this ∧
    hash_map.m_key_table T m2 (moved s buf2 this)
      = moved s buf2 (hash_map.m_key_table T m this) := by
  have hv := inv.valid
  obtain ⟨v1, v2, v3, v4, v5⟩ := inv.valid
  have hb := bytes_pos T
  have h1 := inv.tbl_lo
  have h2 := inv.tbl_hi
  unfold hash_map.sizeof at h1
  refine ⟨?_, ?_, ?_, ?_⟩
  · unfold hash_map.m_size
    exact copied_load s buf2 m m2 hv hc T this hthis (by omega)
  · unfold hash_map.m_key_table_size
    rw [moved_add s buf2 this _ hthis]
    exact copied_load s buf2 m m2 hv hc T _ (by omega) (by omega)
  · unfold hash_map.m_capacity
    rw [moved_add s buf2 this _ hthis]
    exact copied_load s buf2 m m2 hv hc T _ (by omega) (by omega)
  · have hne : hash_map.m_key_table T m this ≠ 0 := by omega
    have hf := moved_field s buf2 m m2 hv hc T (hash_map.key_table_addr T this) this inv.extent
      hthis (by unfold hash_map.key_table_addr; omega)
      (by unfold hash_map.key_table_addr; omega)
      (fun h0 => absurd h0 hne)
      (fun _ => ⟨by
        show hash_map.key_table_addr T this ≤ hash_map.m_key_table T m this
        unfold hash_map.key_table_addr; omega, by
        show hash_map.m_key_table T m this ≤ s.m_current
        omega⟩) hW
    unfold hash_map.m_key_table
    unfold hash_map.key_table_addr at hf ⊢
    rw [moved_add s buf2 this _ hthis, hf]
    unfold reloc
    exact if_neg hne

/-- What `seek` reads from a bucket slot of a well-formed map is, in the copy, the
relocated pointer. -/
theorem seek_moved (s : segment_manager) (buf2 : Nat) (m m2 : Mem)
    (hc : Copied s buf2 m m2) (T : IntTy) (K : KeyTy) (V : ValTy) (this B C : Nat)
    (nodes : List Node) (inv : HMInv T K V this B C nodes s m) (hthis : s.m_buffer ≤ this)
    (hW : buf2 + s.m_capacity < W) (i : Nat) (hi : i < B) :
    hash_map.seek T m2 (moved s buf2 this) i = reloc s buf2 (hash_map.seek T m this i) ∧
    m2.load T (hash_map.m_key_table T m2 (moved s buf2 this) + i * T.bytes)
      = m.load T (hash_map.m_key_table T m this + i * T.bytes) := by
  have hv := inv.valid
  obtain ⟨v1, v2, v3, v4, v5⟩ := inv.valid
  have hb := bytes_pos T
  have h1 := inv.tbl_lo
  have h2 := inv.tbl_hi
  unfold hash_map.sizeof at h1
  obtain ⟨g1, g2, g3, g4⟩ := header_moved s buf2 m m2 hc T K V this B C nodes inv hthis hW
  obtain ⟨s1, s2, s3⟩ := inv_slot T K V this B C nodes s m inv i hi
  have hmul := Nat.mul_le_mul_right T.bytes (show i + 1 ≤ B by omega)
  rw [Nat.add_mul, Nat.one_mul] at hmul
  obtain ⟨_, t2⟩ := seek_at T m2 (moved s buf2 this) B i
    (moved s buf2 (hash_map.m_key_table T m this)) (by rw [g2]; exact inv.kts_eq) g4 hi
    (by unfold moved; omega)
  have hslot : moved s buf2 (hash_map.m_key_table T m this) + i * T.bytes
      = moved s buf2 (hash_map.m_key_table T m this + i * T.bytes) :=
    moved_add s buf2 _ _ (by omega)
  have hch := inv.chains i hi
  refine ⟨?_, ?_⟩
  · rw [t2, s2, hslot]
    apply moved_field s buf2 m m2 hv hc T _ this inv.extent hthis (by omega) (by omega)
      _ _ hW
    · intro h0
      rw [← s2] at h0
      exact inv.null_slots i hi h0
    · intro hne
      rw [← s2] at hne ⊢
      cases hl : chain_of T K B nodes i with
      | nil =>
        rw [hl] at hch
        exact absurd hch hne
      | cons x r =>
        rw [hl] at hch
        obtain ⟨c1, _⟩ := hch
        have hx : x ∈ nodes := by
          have : x ∈ chain_of T K B nodes i := by rw [hl]; exact List.mem_cons_self _ _
          unfold chain_of at this
          exact (List.mem_filter.mp this).1
        obtain ⟨b1, b2, _⟩ := inv.bounded x hx
        rw [c1]
        unfold hash_node.sizeof at b2
        omega
  · rw [g4, hslot]
    exact copied_load s buf2 m m2 hv hc T _ (by omega) (by omega)

/-- The copy of a well-formed map is a well-formed map: the same table over the moved
nodes, in the copy of the segment. -/
theorem inv_moved (s : segment_manager) (buf2 : Nat) (m m2 : Mem)
    (hc : Copied s buf2 m m2) (T : IntTy) (K : KeyTy) (V : ValTy) (this B C : Nat)
    (nodes : List Node) (inv : HMInv T K V this B C nodes s m) (hthis : s.m_buffer ≤ this)
    (hb2 : 0 < buf2) (hW : buf2 + s.m_capacity + hash_node.sizeof T K V < W) :
    HMInv T K V (moved s buf2 this) B C (nodes.map (Node.moved s buf2))
      (copy_segment s buf2) m2 := by
  have hv := inv.valid
  obtain ⟨v1, v2, v3, v4, v5⟩ := inv.valid
  have hb := bytes_pos T
  have h1 := inv.tbl_lo
  have h2 := inv.tbl_hi
  have hW2 : buf2 + s.m_capacity < W := by omega
  obtain ⟨g1, g2, g3, g4⟩ := header_moved s buf2 m m2 hc T K V this B C nodes inv hthis hW2
  have hchain : ∀ i, i < B →
      is_chain T K V m2 (reloc s buf2 (hash_map.seek T m this i))
        ((chain_of T K B nodes i).map (Node.moved s buf2)) ∧
      ∀ nd ∈ chain_of T K B nodes i, hash_node.next T m2 (moved s buf2 nd.addr)
        = reloc s buf2 (hash_node.next T m nd.addr) := by
    intro i hi
    apply is_chain_moved s buf2 m m2 hv hc T K V this inv.extent hthis hb2 hW2 _ _
      (inv.chains i hi)
    · unfold chain_of
      exact inv.disjoint.sublist (List.filter_sublist _)
    · intro nd hnd
      have hx : nd ∈ nodes := by
        unfold chain_of at hnd
        exact (List.mem_filter.mp hnd).1
      obtain ⟨b1, b2, _⟩ := inv.bounded nd hx
      unfold hash_map.sizeof at h1
      exact ⟨by omega, b2, inv.null_next nd hx⟩
  refine
    { valid := ?_, this_pos := ?_, wide := inv.wide, tbl_lo := ?_, tbl_hi := ?_, extent := ?_,
      top := ?_, size_eq := ?_, kts_eq := ?_, cap_eq := ?_, le_cap := ?_,
      buckets := inv.buckets, chains := ?_, bounded := ?_, disjoint := ?_, keys_nodup := ?_,
      null_slots := ?_, null_next := ?_ }
  · show 0 < buf2 ∧ buf2 ≤ moved s buf2 s.m_current ∧
      moved s buf2 s.m_current ≤ moved s buf2 s.m_end ∧
      moved s buf2 s.m_end = buf2 + s.m_capacity ∧ moved s buf2 s.m_end < W
    unfold moved
    omega
  · unfold moved; omega
  · rw [g4]
    unfold moved
    omega
  · rw [g4]
    show _ ≤ moved s buf2 s.m_current
    unfold moved
    omega
  · show (moved s buf2 s.m_end : Int) - moved s buf2 this ≤ T.hi
    have := inv.extent
    unfold moved
    push_cast
    omega
  · show moved s buf2 s.m_end + hash_node.sizeof T K V < W
    unfold moved
    omega
  · rw [g1, inv.size_eq, List.length_map]
  · rw [g2, inv.kts_eq]
  · rw [g3, inv.cap_eq]
  · rw [List.length_map]; exact inv.le_cap
  · intro i hi
    rw [(seek_moved s buf2 m m2 hc T K V this B C nodes inv hthis hW2 i hi).1,
      chain_of_moved]
    exact (hchain i hi).1
  · intro nd2 hnd2
    obtain ⟨nd, hnd, rfl⟩ := List.mem_map.mp hnd2
    obtain ⟨b1, b2, b3, b4, b5⟩ := inv.bounded nd hnd
    refine ⟨?_, ?_, b3, b4, b5⟩
    · rw [g4]
      show _ ≤ moved s buf2 nd.addr
      unfold moved
      omega
    · show moved s buf2 nd.addr + _ ≤ moved s buf2 s.m_current
      unfold moved
      omega
  · rw [List.pairwise_map]
    refine inv.disjoint.imp_of_mem ?_
    intro x y hx hy hxy
    obtain ⟨b1, _⟩ := inv.bounded x hx
    obtain ⟨c1, _⟩ := inv.bounded y hy
    unfold hash_map.sizeof at h1
    show moved s buf2 x.addr + _ ≤ moved s buf2 y.addr
    unfold moved
    omega
  · rw [List.map_map]
    exact inv.keys_nodup
  · intro i hi h0
    obtain ⟨q1, q2⟩ := seek_moved s buf2 m m2 hc T K V this B C nodes inv hthis hW2 i hi
    rw [q1, reloc_eq_zero s buf2 _ hb2] at h0
    rw [q2]
    exact inv.null_slots i hi h0
  · intro nd2 hnd2 h0
    obtain ⟨nd, hnd, rfl⟩ := List.mem_map.mp hnd2
    obtain ⟨i, hi, hmem⟩ := node_in_chain T K V this B C nodes s m inv nd hnd
    have hn := (hchain i hi).2 nd hmem
    obtain ⟨b1, b2, _⟩ := inv.bounded nd hnd
    unfold hash_map.sizeof at h1
    unfold hash_node.sizeof at b2
    have h0 : hash_node.next T m2 (moved s buf2 nd.addr) = 0 := h0
    rw [hn, reloc_eq_zero s buf2 _ hb2] at h0
    show m2.load T (moved s buf2 nd.addr) = 1
    rw [copied_load s buf2 m m2 hv hc T nd.addr (by omega) (by omega)]
    exact inv.null_next nd hnd h0

/-- The lookups and the iteration on the copy of a well-formed map: `get` gives the
relocated pointer, with the same value bytes behind it, and the iterator after `k`
steps is on the relocated node, in the same bucket, with the same key and value. -/
theorem hash_map_moved (s : segment_manager) (buf2 : Nat) (m m2 : Mem)
    (hc : Copied s buf2 m m2) (T : IntTy) (K : KeyTy) (V : ValTy) (this B C : Nat)
    (nodes : List Node) (inv : HMInv T K V this B C nodes s m) (hthis : s.m_buffer ≤ this)
    (hb2 : 0 < buf2) (hW : buf2 + s.m_capacity + hash_node.sizeof T K V < W) :
    hash_map.size T m2 (moved s buf2 this) = hash_map.size T m this ∧
    (∀ (key : List Nat) (fuel : Nat), 0 ≤ bucket_of T K B key → nodes.length < fuel →
      ∃ p, hash_map.get T K fuel m this key = some p ∧
        hash_map.get T K fuel m2 (moved s buf2 this) key = some (reloc s buf2 p) ∧
        (p ≠ 0 → m2.read (reloc s buf2 p) V.sizeof = m.read p V.sizeof)) ∧
    (∀ k, k ≤ nodes.length →
      hash_map.visit T m2 (moved s buf2 this) k
        = { index := (hash_map.visit T m this k).index,
            node := reloc s buf2 (hash_map.visit T m this k).node,
            self := moved s buf2 this } ∧
      ((hash_map.visit T m this k).node ≠ 0 →
        hash_node.key T K m2 (reloc s buf2 (hash_map.visit T m this k).node)
          = hash_node.key T K m (hash_map.visit T m this k).node ∧
        hash_node.value T K V m2 (reloc s buf2 (hash_map.visit T m this k).node)
          = hash_node.value T K V m (hash_map.visit T m this k).node)) := by
  have inv2 := inv_moved s buf2 m m2 hc T K V this B C nodes inv hthis hb2 hW
  have hv := inv.valid
  obtain ⟨v1, v2, v3, v4, v5⟩ := inv.valid
  have hb := bytes_pos T
  refine ⟨?_, ?_, ?_⟩
  · show hash_map.m_size T m2 (moved s buf2 this) = hash_map.m_size T m this
    rw [inv2.size_eq, inv.size_eq, List.length_map]
  · intro key fuel h0 hfuel
    obtain ⟨g, _, _⟩ := lookup_all T K V this B C nodes s m inv key h0 fuel hfuel
    obtain ⟨g2, _, _⟩ := lookup_all T K V (moved s buf2 this) B C _ _ m2 inv2 key h0 fuel
      (by rw [List.length_map]; exact hfuel)
    rw [List.find?_map] at g2
    have hcomp : ((fun nd : Node => decide (nd.key = key)) ∘ Node.moved s buf2)
        = (fun nd : Node => decide (nd.key = key)) := rfl
    rw [hcomp] at g2
    cases hf : nodes.find? (fun nd => decide (nd.key = key)) with
    | none =>
      rw [hf] at g g2
      refine ⟨0, g, ?_, fun h => absurd rfl h⟩
      rw [g2]
      rfl
    | some nd =>
      rw [hf] at g g2
      have hmem := List.mem_of_find?_eq_some hf
      obtain ⟨b1, b2, _⟩ := inv.bounded nd hmem
      have h1 := inv.tbl_lo
      unfold hash_map.sizeof at h1
      unfold hash_node.sizeof at b2
      have hva : hash_node.value_addr T K nd.addr ≠ 0 := by
        unfold hash_node.value_addr; omega
      have hrel : reloc s buf2 (hash_node.value_addr T K nd.addr)
          = hash_node.value_addr T K (moved s buf2 nd.addr) := by
        unfold reloc
        rw [if_neg hva]
        unfold hash_node.value_addr
        rw [moved_add s buf2 _ _ (by omega), moved_add s buf2 _ _ (by omega)]
      refine ⟨_, g, ?_, ?_⟩
      · rw [g2, hrel]
        rfl
      · intro _
        rw [hrel]
        unfold hash_node.value_addr
        rw [moved_add s buf2 _ _ (by omega), moved_add s buf2 _ _ (by omega)]
        exact copied_read s buf2 m m2 hv hc _ _ (by omega) (by omega)
  · intro k hk
    have hp := order_of_perm T K V this B C nodes s m inv
    have e1 := visit_spec T K V this B C nodes s m inv k (by rw [hp.length_eq]; exact hk)
    have e2 := visit_spec T K V (moved s buf2 this) B C _ _ m2 inv2 k
      (by
        unfold order_of
        rw [order_from_moved, List.length_map]
        have := hp.length_eq
        unfold order_of at this
        rw [this]; exact hk)
    have hmap : order_of T K B (nodes.map (Node.moved s buf2))
        = (order_of T K B nodes).map (Node.moved s buf2) := order_from_moved s buf2 T K B nodes 0
    rw [hmap, ← List.map_drop] at e2
    rw [e1, e2]
    cases hd : (order_of T K B nodes).drop k with
    | nil =>
      refine ⟨?_, fun h => absurd rfl h⟩
      show iter_at T K B (moved s buf2 this) [] = _
      unfold iter_at reloc
      simp
    | cons nd rest =>
      have hmem : nd ∈ nodes := by
        apply hp.subset
        apply List.mem_of_mem_drop (n := k)
        rw [hd]
        exact List.mem_cons_self _ _
      obtain ⟨n1, n2, n3⟩ := inv_node T K V this B C nodes s m inv nd hmem
      obtain ⟨_, q2, q3⟩ := inv_node T K V (moved s buf2 this) B C _ _ m2 inv2
        (Node.moved s buf2 nd) (List.mem_map.mpr ⟨nd, hmem, rfl⟩)
      have hrel : reloc s buf2 nd.addr = moved s buf2 nd.addr := by
        unfold reloc
        exact if_neg n1
      refine ⟨?_, ?_⟩
      · show iter_at T K B (moved s buf2 this) (Node.moved s buf2 nd :: rest.map _) = _
        unfold iter_at
        simp only
        rw [hrel]
        rfl
      · intro _
        show hash_node.key T K m2 (reloc s buf2 nd.addr) = hash_node.key T K m nd.addr ∧
          hash_node.value T K V m2 (reloc s buf2 nd.addr) = hash_node.value T K V m nd.addr
        rw [hrel, n2, n3]
        exact ⟨q2, q3⟩

/-! ## Relocation transparency -/

end mmo
